import Mathlib

/-!
Verification of the STS (static thread scheduler) core against its
natural-language specification.  The definitions below are shallow
embeddings of the C++ sources: `sts/sts.h`, `sts/task.h`, `sts/task.cpp`,
`sts/barrier.h`, `sts/reduce.h`.  Machine `int` / `int64_t` values are
modelled as `Int` (with explicit two's-complement reduction where a
narrowing conversion occurs in the source), assertions are modelled as
`Except.error`, and the concurrent parts (the many-to-many barrier and the
end-of-step protocol) are modelled as small-step transition systems.
-/

namespace STSV

/-! ## Generic helpers -/

/-- In-place update of one vector slot, `v[pos] = f(v[pos])`; used to embed
C++ writes through `operator[]`. Out-of-range positions leave the list
unchanged (the C++ counterparts are only ever called in range). -/
def listModify (f : α → α) : Nat → List α → List α
  | _, [] => []
  | 0, x :: xs => f x :: xs
  | n + 1, x :: xs => x :: listModify f n xs

/-- Lookup in an association list; embeds `std::map::find`. -/
def alistFind (k : String) : List (String × α) → Option α
  | [] => none
  | (k', v) :: rest => if k' = k then some v else alistFind k rest

/-- List of indices paired with elements, starting at `i`; embeds a C++
loop that walks a vector keeping the index. -/
def enumFrom (i : Nat) : List α → List (Nat × α)
  | [] => []
  | x :: xs => (i, x) :: enumFrom (i + 1) xs

/-- Two's-complement conversion of an `int64_t` value to `int`
(C++20 modular semantics of the narrowing conversion). -/
def toInt32 (x : Int) : Int := (x + 2 ^ 31) % 2 ^ 32 - 2 ^ 31

/-- The list of integers of the half-open interval `[s, e)`. -/
def intRangeList (s e : Int) : List Int :=
  (List.range (e - s).toNat).map (fun (k : Nat) => s + (k : Int))

/-! ## Instance registries (sts.h, barrier.h) — claim C10

`STS::stsInstances_` maps names to scheduler instances, and
`STS::defaultInstance_` is created by `startup`.  Instances are modelled by
identifiers (`Nat`). -/

/-- STS::getInstance (sts.h:390-398): looks `id` up in `stsInstances_` and
returns the default instance when the name is unknown. -/
def getInstance (reg : List (String × Nat)) (defaultInstance : Nat) (id : String) : Nat :=
  match alistFind id reg with
  | none => defaultInstance
  | some v => v

/-- MOBarrier::getInstance (barrier.h:127-135): looks `id` up in
`barrierInstances_` and returns `nullptr` (here `none`) when the name is
unknown.  OMBarrier, RMOBarrier and MMBarrier have identical lookups. -/
def barrierGetInstance (reg : List (String × Nat)) (id : String) : Option Nat :=
  alistFind id reg

/-! ## TaskReduction (reduce.h:24-45) — claim C3 -/

/-- The state of `TaskReduction<T>`: one accumulator slot per task-local
thread plus the running result. -/
structure TaskReduction (T : Type) where
  values : List T
  result : T

/-- The TaskReduction constructor (reduce.h:27-29): `result(init)` and
`values.resize(numThreads, init)` — every slot starts at `init`, and so
does `result`. -/
def TaskReduction.create (init : T) (numThreads : Nat) : TaskReduction T :=
  { values := List.replicate numThreads init, result := init }

/-- TaskReduction::collect (reduce.h:30-32): `values[pos] += a`. -/
def TaskReduction.collect [Add T] (tr : TaskReduction T) (a : T) (pos : Nat) : TaskReduction T :=
  { tr with values := listModify (· + a) pos tr.values }

/-- TaskReduction::reduce (reduce.h:34-38): folds every slot into `result`
with `+=`. -/
def TaskReduction.reduce [Add T] (tr : TaskReduction T) : TaskReduction T :=
  { tr with result := tr.values.foldl (· + ·) tr.result }

/-- TaskReduction::getResult (reduce.h:39-41). -/
def TaskReduction.getResult (tr : TaskReduction T) : T := tr.result

/-- Applies a whole sequence of `collect` calls, each a pair of a value and
a slot position. -/
def TaskReduction.collectAll [Add T] (tr : TaskReduction T) (calls : List (T × Nat)) :
    TaskReduction T :=
  calls.foldl (fun acc c => acc.collect c.1 c.2) tr

/-! ## Task assignment bookkeeping (task.h) — claim C4 -/

/-- The assignment-relevant state of `Task`: the owning thread of each
subtask in push order, the thread → task-local-id map, the count of
distinct threads, and the end-barrier (`OMBarrier`) counter. -/
structure TaskAssign where
  subtaskThreads : List Nat
  threadTaskIds : List (Nat × Nat)
  numThreads : Nat
  endBarrierCount : Int

/-- A freshly constructed Task (task.h:345-347) with no subtasks. -/
def TaskAssign.empty : TaskAssign :=
  { subtaskThreads := [], threadTaskIds := [], numThreads := 0, endBarrierCount := 0 }

/-- Nat-keyed association lookup, embeds `threadTaskIds_.find`. -/
def natAlistFind (k : Nat) : List (Nat × Nat) → Option Nat
  | [] => none
  | (k', v) :: rest => if k' = k then some v else natAlistFind k rest

/-- Task::pushSubtask (task.h:356-362): appends the subtask and, on the
first occurrence of `threadId`, assigns it the next task-local id and
bumps `numThreads_`. -/
def TaskAssign.pushSubtask (t : TaskAssign) (threadId : Nat) : TaskAssign :=
  let t1 := { t with subtaskThreads := t.subtaskThreads ++ [threadId] }
  match natAlistFind threadId t1.threadTaskIds with
  | some _ => t1
  | none =>
    { t1 with
      threadTaskIds := t1.threadTaskIds ++ [(threadId, t1.numThreads)]
      numThreads := t1.numThreads + 1 }

/-- Task::getNumSubtasks (task.h:374-376). -/
def TaskAssign.getNumSubtasks (t : TaskAssign) : Nat := t.subtaskThreads.length

/-- Task::init as called from Task::restart (task.h:631-636): the
end-barrier is closed to `getNumSubtasks()`. Functor/checkpoint resets are
not relevant to the assignment state. -/
def TaskAssign.restart (t : TaskAssign) : TaskAssign :=
  { t with endBarrierCount := (t.getNumSubtasks : Int) }

/-- Builds a Task from a list of `pushSubtask(threadId, ·)` calls. -/
def TaskAssign.ofPushes (l : List Nat) : TaskAssign :=
  l.foldl TaskAssign.pushSubtask TaskAssign.empty

/-! ## nextStepInternal (sts.h:886-934) — claim C6

The state needed by `nextStepInternal` when it is invoked (through
`nextStep`) on a named, non-default scheduler `self`: which instance the
process-wide `instance_` pointer designates, the two `isActive_` flags, the
`bUseDefaultSchedule_` flag of `self`, the shared step counter, and a count
of how many times the schedule's tasks have been restarted (the observable
side effect of the restart sweep). -/

inductive InstPtr
  | selfInst
  | defaultInst
deriving DecidableEq, Repr

structure NextStepState where
  instPtr : InstPtr
  selfActive : Bool
  defaultActive : Bool
  selfUseDefault : Bool
  stepCounter : Int
  selfRestarts : Nat
deriving DecidableEq, Repr

/-- The `bUseDefaultSchedule_` flag of whatever `instance_` points to
(the default instance's flag is true by construction). -/
def NextStepState.instUseDefault (w : NextStepState) : Bool :=
  match w.instPtr with
  | .defaultInst => true
  | .selfInst => w.selfUseDefault

/-- The `isActive_` flag of whatever `instance_` points to. -/
def NextStepState.instActive (w : NextStepState) : Bool :=
  match w.instPtr with
  | .defaultInst => w.defaultActive
  | .selfInst => w.selfActive

/-- STS::nextStepInternal (sts.h:887-934), called on `self`; assertions
are errors.  The order of the checks is the order in the source: the
assertion `instance_->bUseDefaultSchedule_ == true` (sts.h:889) runs
before the `isActive_` early-return (sts.h:891-894).  The coroutine-bitmap
precomputation, the per-task `restart` sweep and the `systemProgressed_`
reset are summarized by bumping `selfRestarts`. -/
def nextStepInternal (w : NextStepState) : Except String NextStepState :=
  if w.instUseDefault ≠ true then
    .error "assert instance_->bUseDefaultSchedule_ == true"
  else if w.selfActive then
    if w.instPtr ≠ .selfInst then .error "assert instance_ == this"
    else .ok w
  else if w.instActive then
    .error "assert instance_->isActive_ == false"
  else
    .ok { w with
          instPtr := .selfInst
          selfActive := true
          selfRestarts := w.selfRestarts + 1
          stepCounter := w.stepCounter + 1 }

/-- The state right after `startup` plus construction of a named
non-default scheduler: `instance_` is the default instance, nothing is
active yet. -/
def nextStepStart (c : Int) : NextStepState :=
  { instPtr := .defaultInst
    selfActive := false
    defaultActive := false
    selfUseDefault := false
    stepCounter := c
    selfRestarts := 0 }

/-! ## Task::stealWork (task.h:561-595) — claim C8 -/

/-- SubTaskRunInfo (task.h:29-36): the mutable loop-iteration state of one
subtask, shared under the auto-balance mutex. -/
structure SubTaskRunInfo where
  isRunning : Bool
  startIter : Int
  endIter : Int
  currentIter : Int
deriving DecidableEq, Repr, Inhabited

/-- The part of `Task` that stealWork touches: the balancing flag, the run
information of every subtask, and the end-barrier counter that
`addThread()` bumps. -/
structure StealState where
  autoBalancing : Bool
  subtasks : List SubTaskRunInfo
  endBarrierRemaining : Int
deriving DecidableEq, Repr

/-- Result of a stealWork call: the return value, the updated subtask run
information, the working range assigned to the thief (if any), and the
updated end-barrier counter. -/
structure StealResult where
  stole : Bool
  subtasks : List SubTaskRunInfo
  workingRange : Option (Int × Int)
  endBarrierRemaining : Int
deriving DecidableEq, Repr

/-- The scan loop of stealWork (task.h:570-583) over index/run-info pairs:
starting from `bestST = 0, bestNumIters = 1`, remembers the first running
subtask whose remaining count `endIter - currentIter - 1` strictly exceeds
the best so far. -/
def stealScan : List (Nat × SubTaskRunInfo) → Nat × Int → Nat × Int
  | [], acc => acc
  | (i, ri) :: rest, (bestST, bestNumIters) =>
    if ri.isRunning then
      let numIters := ri.endIter - ri.currentIter - 1
      if bestNumIters < numIters then stealScan rest (i, numIters)
      else stealScan rest (bestST, bestNumIters)
    else stealScan rest (bestST, bestNumIters)

/-- Task::stealWork (task.h:561-595): with balancing off, fail; otherwise
scan for the running subtask with the most remaining iterations; if none
has at least 2 remaining (`bestNumIters == 1`), fail without touching
anything; else halve the victim's span at
`currentIter + (endIter - currentIter)/2`, hand the upper tail to the
thief as its working range, and `addThread()` the end-barrier. -/
def stealWork (s : StealState) : StealResult :=
  if ¬s.autoBalancing then
    { stole := false, subtasks := s.subtasks, workingRange := none
      endBarrierRemaining := s.endBarrierRemaining }
  else
    let scan := stealScan (enumFrom 0 s.subtasks) (0, 1)
    if scan.2 = 1 then
      { stole := false, subtasks := s.subtasks, workingRange := none
        endBarrierRemaining := s.endBarrierRemaining }
    else
      let bestST := scan.1
      let ri := s.subtasks.getD bestST default
      let half := ri.currentIter + (ri.endIter - ri.currentIter) / 2
      { stole := true
        subtasks := listModify (fun r => { r with endIter := half }) bestST s.subtasks
        workingRange := some (half, ri.endIter)
        endBarrierRemaining := s.endBarrierRemaining + 1 }

/-- The remaining-iteration count the scan compares
(task.h:578: `ri.endIter - ri.currentIter - 1`). -/
def remainingIters (ri : SubTaskRunInfo) : Int := ri.endIter - ri.currentIter - 1

/-! ## run / parallel_for / waitForTask on an unassigned label
(sts.h:244-266, 282-325, 366-377) — claim C5

The branch structure of the three entry points, parameterized by the
context flags the code reads: `bUseDefaultSchedule_` of the callee,
whether `this == instance_`, the current instance's `isActive_`, and
whether the label is assigned.  -/

/-- What `run` did: invoked the function synchronously on the caller, or
published it into the task's functor slot. -/
inductive RunEffect
  | syncCall
  | published
deriving DecidableEq, Repr

/-- STS::run (sts.h:244-266) with assertions as errors. -/
def stsRun (useDefault isCurrent instActive assigned : Bool) : Except String RunEffect :=
  if ¬useDefault then
    if ¬isCurrent then .error "assert this == instance_"
    else if ¬instActive then .error "assert instance_->isActive_ == true"
    else if ¬assigned then .ok .syncCall
    else .ok .published
  else
    if ¬(¬instActive ∨ isCurrent) then .error "assert instance_->isActive_ == false || this == instance_"
    else .ok .syncCall

/-- The iterations executed by the synchronous fallback loop of
parallel_for (sts.h:304-306): `for (int i=start; i<end; i++) body(i);`
with `int64_t` bounds but an `int` loop counter. `start` is first
narrowed to `int` (two's complement); the loop then terminates iff it
starts past `end` or `end` is representable as a positive bound for the
`int` counter, and `none` is returned where the C++ loop never
terminates (every `int` value stays below `end`). -/
def parallelForFallbackIters (s e : Int) : Option (List Int) :=
  let i0 := toInt32 s
  if e ≤ i0 then some []
  else if e ≤ 2 ^ 31 - 1 then some (intRangeList i0 e)
  else none

/-- What `parallel_for` did: ran the fallback loop synchronously on the
caller (with the given iteration list, `none` meaning the loop diverges),
or published a loop functor and ran the nested-loop protocol, or went
through the implicit one-step default schedule. -/
inductive PFEffect
  | syncLoop (iters : Option (List Int))
  | scheduled
  | defaultScheduled
deriving DecidableEq, Repr

/-- STS::parallel_for (sts.h:282-325) with assertions as errors; only the
branch structure down to the unassigned-label fallback is relevant, the
assigned path is summarized as `.scheduled`. `hasRed` says whether a
reduction pointer was passed. -/
def stsParallelFor (useDefault isCurrent instActive assigned hasRed : Bool) (s e : Int) :
    Except String PFEffect :=
  if ¬useDefault then
    if ¬isCurrent then .error "assert this == instance_"
    else if ¬instActive then .error "assert instance_->isActive_ == true"
    else if ¬assigned then
      if hasRed then .error "assert red == nullptr"
      else .ok (.syncLoop (parallelForFallbackIters s e))
    else .ok .scheduled
  else
    if instActive then .error "assert instance_->isActive_ == false"
    else .ok .defaultScheduled

/-- What `waitForTask` did. -/
inductive WaitForTaskEffect
  | noop
  | waitOnEndBarrier
deriving DecidableEq, Repr

/-- STS::waitForTask (sts.h:366-377): returns immediately when the
schedule is the default one or the label is unassigned; no assertion at
all in this function. -/
def stsWaitForTask (useDefault assigned : Bool) : WaitForTaskEffect :=
  if useDefault ∨ ¬assigned then .noop
  else .waitOnEndBarrier

/-! ## Range and Ratio — claim C2

The file `range.h` is absent from the source tree (only its test
`test_range.cc` and its users remain), so the two operations claim C2
depends on are modelled from the spec.

Modelled from the spec: §4.3 "A **Ratio** is an exact fraction" — `Ratio`
is `ℚ`.  A `Range` is a half-open `{start, end}` pair (the field `end` is
a Lean keyword and is spelled `stop`). -/

structure RangeI where
  start : Int
  stop : Int
deriving DecidableEq, Repr

structure RangeQ where
  start : ℚ
  stop : ℚ
deriving DecidableEq, Repr

/-- Modelled from the spec: §4.3 "`Range<i64>.subset(Range<Ratio> s)`
returns an integer sub-range computed exactly, ties broken by rounding
toward start for both endpoints" — an endpoint at ratio `q` of the span
`[start, stop)` is `start + round(q * (stop - start))` where `round` is
nearest-integer with ties toward `start`, i.e. `⌈x - 1/2⌉` for a span
traversed upward. -/
def roundTieTowardStart (x : ℚ) : Int := ⌈x - 1 / 2⌉

/-- Modelled from the spec: the integer image of the rational point `q`
of `[0,1]` inside the integer range `r` (one endpoint of
`Range<i64>::subset`). -/
def RangeI.subsetEndpoint (r : RangeI) (q : ℚ) : Int :=
  r.start + roundTieTowardStart (q * ((r.stop - r.start : Int) : ℚ))

/-- Modelled from the spec: `Range<i64>::subset` maps both endpoints of
the rational sub-range. -/
def RangeI.subset (r : RangeI) (s : RangeQ) : RangeI :=
  { start := r.subsetEndpoint s.start, stop := r.subsetEndpoint s.stop }

/-- The iterations actually executed by the loop functor on an integer
sub-range: LoopTaskFunctor::run (task.h:77-107) runs the body at every
index of `[start, stop)` (load-balancing off; with balancing the claim's
tiling hypothesis concerns the assigned ranges). -/
def loopRunIters (r : RangeI) : List Int := intRangeList r.start r.stop

/-- The vector form of assign_loop (sts.h:188-196): splits `range` into
`nthreads` consecutive rational sub-ranges of width
`(range.end - range.start) / nthreads`, accumulating the start point
exactly as the source does (`r += interval`). -/
def assignLoopRangesAux (interval : ℚ) : Nat → ℚ → List RangeQ
  | 0, _ => []
  | k + 1, r => { start := r, stop := r + interval } :: assignLoopRangesAux interval k (r + interval)

/-- The sub-ranges produced by `assign_loop(label, threadIds, range)` for
`threadIds.size() = nthreads`, in order. -/
def assignLoopRanges (nthreads : Nat) (range : RangeQ) : List RangeQ :=
  assignLoopRangesAux ((range.stop - range.start) * (1 / (nthreads : ℚ))) nthreads range.start

/-- Breakpoint lists: a list of rationals `0 = q₀ ≤ q₁ ≤ … ≤ q_k = 1`
describing sub-ranges `[qᵢ, qᵢ₊₁)` that tile `[0,1]` exactly. -/
def TilesUnit (bps : List ℚ) : Prop :=
  bps.head? = some 0 ∧ bps.getLast? = some 1 ∧ bps.Chain' (· ≤ ·)

/-- The consecutive sub-ranges described by a breakpoint list. -/
def rangesOfBreakpoints (bps : List ℚ) : List RangeQ :=
  (bps.zip bps.tail).map fun p => { start := p.1, stop := p.2 }

/-! ## pause and findPauseTarget (sts.h:553-585, 760-783) — claim C9

The view of one calling thread `tid`: its queue of subtasks
(`threadSubTasks_[tid]`), its call stack, its `systemProgressed_` counter,
the tasks those subtasks refer to, and the precomputed pause-target bitmap
`nextSubTasks_[tid]` (one index set per subtask). -/

/-- The fields of `Task` that `pause`/`findPauseTarget` read: whether the
task runs as a coroutine on this thread, its checkpoint, whether its
begin-barrier is open (`isReady`), its label, and its successor-label set
`nextTasks_`. -/
structure PTask where
  label : String
  isCoroutine : Bool
  checkPoint : Int
  ready : Bool
  nextTasks : List String
deriving DecidableEq, Repr, Inhabited

/-- The fields of `SubTask` that `pause`/`findPauseTarget` read and
write: the task it belongs to (an index), its resume checkpoint, and its
done flag. -/
structure PSubTask where
  taskIdx : Nat
  checkPoint : Int
  done : Bool
deriving DecidableEq, Repr, Inhabited

/-- One thread's view of the scheduler state used by `pause`. -/
structure PauseState where
  tasks : List PTask
  subtasks : List PSubTask
  callStack : List Nat
  systemProgressed : Int
  nextSubTasks : List (List Nat)
deriving DecidableEq, Repr

/-- The task a subtask belongs to (`subtask->getTask()`), with a dummy
default out of range as C++ would have undefined behavior there; the
theorems assume well-formed indices. -/
def PauseState.taskOf (s : PauseState) (st : PSubTask) : PTask :=
  s.tasks.getD st.taskIdx default

/-- The precomputation of `nextSubTasks_[tid][stid]` done by
nextStepInternal (sts.h:896-916): the indices `stid2 > stid` on the same
thread whose task's label belongs to `getNextTasks()` of the subtask's
task (empty when the subtask's task is not a coroutine on this thread). -/
def computeNextSubTasks (tasks : List PTask) (subs : List PSubTask) (stid : Nat) : List Nat :=
  let st := subs.getD stid default
  let t := tasks.getD st.taskIdx default
  if ¬t.isCoroutine then []
  else
    ((enumFrom 0 subs).filter fun p =>
      stid < p.1 ∧ (tasks.getD p.2.taskIdx default).label ∈ t.nextTasks).map Prod.fst

/-- The body of the findPauseTarget scan (sts.h:765-781) over the listed
target indices in increasing order: the first candidate that has reached
its resume checkpoint, is not done and whose task is ready becomes the
pause target (returning immediately); otherwise any not-done candidate
keeps `targetsRemain` true. -/
def findPauseTargetAux (s : PauseState) : List Nat → Option Nat × Bool
  | [] => (none, false)
  | j :: rest =>
    let st2 := s.subtasks.getD j default
    let hasReachedCP := st2.checkPoint ≤ (s.taskOf st2).checkPoint
    if hasReachedCP ∧ ¬st2.done ∧ (s.taskOf st2).ready then (some j, true)
    else
      let r := findPauseTargetAux s rest
      (r.1, r.2 ∨ ¬st2.done)

/-- STS::findPauseTarget (sts.h:760-783): scans the bitmap
`nextSubTasks_[tid][st]` (all of whose set bits are `> st` by
construction). Returns the pause target (or none) and whether incomplete
targets remain. -/
def findPauseTarget (s : PauseState) (st : Nat) : Option Nat × Bool :=
  findPauseTargetAux s (s.nextSubTasks.getD st [])

/-- The result of a `pause` call: the returned Bool and the state after
the call (the subtask's resume checkpoint is updated when it pauses). -/
structure PauseResult where
  paused : Bool
  state : PauseState
deriving DecidableEq, Repr

/-- STS::pause (sts.h:553-585) with the assertion as an error: the
`cp = 0` fast path returns false when nothing has progressed; the counter
is then decremented (floored at 0); non-coroutines return false; otherwise
the subtask pauses iff a pause target exists or the task's checkpoint has
not reached `cp`.  `SubTask::pause` (task.h:223-226) stores `cp` as the
subtask's resume checkpoint and suspends the runner. -/
def stsPause (s : PauseState) (cp : Int) : Except String PauseResult :=
  if cp = 0 ∧ s.systemProgressed = 0 then .ok { paused := false, state := s }
  else
    let s1 := { s with systemProgressed := max 0 (s.systemProgressed - 1) }
    match s1.callStack.head? with
    | none => .error "assert subtask != nullptr"
    | some st =>
      let subtask := s1.subtasks.getD st default
      if ¬(s1.taskOf subtask).isCoroutine then .ok { paused := false, state := s1 }
      else
        let pt := (findPauseTarget s1 st).1
        let cpReached := cp ≤ (s1.taskOf subtask).checkPoint
        if pt.isSome ∨ ¬cpReached then
          .ok { paused := true
                state := { s1 with
                  subtasks := listModify (fun t => { t with checkPoint := cp }) st s1.subtasks } }
        else .ok { paused := false, state := s1 }

/-! ## MMBarrier (barrier.h:278-338) — claim C7

`enter()` is
```
wait_until(numReleasedThreads, 0);
numWaitingThreads.fetch_add(1);
wait_until(numWaitingThreads, nthreads);
if (numReleasedThreads.fetch_add(1) == nthreads-1) {
    numWaitingThreads.store(0);
    numReleasedThreads.store(0);
}
```
modelled as an interleaving transition system over `n` threads, each with
a program point inside `enter` and a count of completed rounds.  Every
atomic load, fetch_add and store is its own transition. -/

/-- Program points of one thread inside MMBarrier::enter, in source
order. -/
inductive MMPhase
  | relCheck
  | waitInc
  | waitCheck
  | relInc
  | resetWaiting
  | resetReleased
deriving DecidableEq, Repr

/-- A thread's local state: completed rounds and the current program
point. -/
structure MMThread where
  round : Nat
  phase : MMPhase
deriving DecidableEq, Repr

/-- Global barrier state for `n` threads: the two shared counters and the
per-thread local state. -/
structure MMState (n : Nat) where
  waiting : Nat
  released : Nat
  thr : Fin n → MMThread
deriving DecidableEq

/-- Initial state: counters zero, every thread before its first
`enter`. -/
def mmInit (n : Nat) : MMState n :=
  { waiting := 0, released := 0, thr := fun _ => { round := 0, phase := .relCheck } }

/-- Replaces the local state of one thread. -/
def MMState.setThr (s : MMState n) (i : Fin n) (t : MMThread) : MMState n :=
  { s with thr := Function.update s.thr i t }

/-- One interleaved step of MMBarrier::enter.  `passRelCheck` is a load
observing `numReleasedThreads == 0`; `incWaiting` is the fetch_add on
`numWaitingThreads`; `passWaitCheck` observes `numWaitingThreads ==
nthreads`; the fetch_add on `numReleasedThreads` either observed
`nthreads-1` (the last thread, which goes on to reset) or not (the thread
leaves `enter` and its round count advances); the two resets are separate
stores, `numWaitingThreads` first. -/
inductive MMStep (n : Nat) : MMState n → MMState n → Prop
  | passRelCheck (s : MMState n) (i : Fin n)
      (hp : (s.thr i).phase = .relCheck) (hr : s.released = 0) :
      MMStep n s (s.setThr i { round := (s.thr i).round, phase := .waitInc })
  | incWaiting (s : MMState n) (i : Fin n)
      (hp : (s.thr i).phase = .waitInc) :
      MMStep n s { s.setThr i { round := (s.thr i).round, phase := .waitCheck } with
                   waiting := s.waiting + 1 }
  | passWaitCheck (s : MMState n) (i : Fin n)
      (hp : (s.thr i).phase = .waitCheck) (hw : s.waiting = n) :
      MMStep n s (s.setThr i { round := (s.thr i).round, phase := .relInc })
  | incReleasedLast (s : MMState n) (i : Fin n)
      (hp : (s.thr i).phase = .relInc) (hobs : s.released = n - 1) :
      MMStep n s { s.setThr i { round := (s.thr i).round, phase := .resetWaiting } with
                   released := s.released + 1 }
  | incReleasedNotLast (s : MMState n) (i : Fin n)
      (hp : (s.thr i).phase = .relInc) (hobs : s.released ≠ n - 1) :
      MMStep n s { s.setThr i { round := (s.thr i).round + 1, phase := .relCheck } with
                   released := s.released + 1 }
  | storeWaitingZero (s : MMState n) (i : Fin n)
      (hp : (s.thr i).phase = .resetWaiting) :
      MMStep n s { s.setThr i { round := (s.thr i).round, phase := .resetReleased } with
                   waiting := 0 }
  | storeReleasedZero (s : MMState n) (i : Fin n)
      (hp : (s.thr i).phase = .resetReleased) :
      MMStep n s { s.setThr i { round := (s.thr i).round + 1, phase := .relCheck } with
                   released := 0 }

/-- Reachability from the initial barrier state. -/
def MMReachable (n : Nat) (s : MMState n) : Prop :=
  Relation.ReflTransGen (MMStep n) (mmInit n) s

/-- Whether a thread has entered the waiting phase of its current round
(incremented `numWaitingThreads` and not yet left `enter`): program
points strictly after the `fetch_add` on `numWaitingThreads`. -/
def MMThread.hasArrived (t : MMThread) : Prop :=
  t.phase = .waitCheck ∨ t.phase = .relInc ∨ t.phase = .resetWaiting ∨ t.phase = .resetReleased

/-- Whether a thread has incremented `numReleasedThreads` in its current
round and not yet left `enter` (only the resetting thread lingers). -/
def MMThread.hasReleased (t : MMThread) : Prop :=
  t.phase = .resetWaiting ∨ t.phase = .resetReleased

instance : DecidablePred MMThread.hasArrived := fun t => by
  unfold MMThread.hasArrived; infer_instance

instance : DecidablePred MMThread.hasReleased := fun t => by
  unfold MMThread.hasReleased; infer_instance

/-- Number of threads satisfying a predicate on their local state. -/
def mmCount (s : MMState n) (P : MMThread → Prop) [DecidablePred P] : Nat :=
  (Finset.univ.filter fun i => P (s.thr i)).card

/-- Threads counted into the shared `numWaitingThreads` of round `m`:
those of round `m` past the waiting increment, plus those already in
round `m + 1` (they incremented in round `m` and the counter has not been
reset while they exist in that position). -/
def mmArrivedAt (m : Nat) (t : MMThread) : Prop :=
  (t.round = m ∧ t.hasArrived) ∨ t.round = m + 1

/-- Threads counted into the shared `numReleasedThreads` of round `m`. -/
def mmReleasedAt (m : Nat) (t : MMThread) : Prop :=
  (t.round = m ∧ t.hasReleased) ∨ t.round = m + 1

instance (m : Nat) : DecidablePred (mmArrivedAt m) := fun t => by
  unfold mmArrivedAt; infer_instance

instance (m : Nat) : DecidablePred (mmReleasedAt m) := fun t => by
  unfold mmReleasedAt; infer_instance

/-- The inductive invariant of the barrier, phrased with `m` the minimum
round across threads: rounds straddle at most `{m, m+1}`; a thread of
round `m+1` sits before its `released == 0` check; the counters equal the
corresponding thread counts (with `numWaitingThreads` zeroed once the
resetter has passed its first store); once somebody of round `m` is past
the `waiting == n` check, or has finished the round, all `n` threads have
arrived; and a resetter exists only when all `n` release increments of
the round are in. -/
def MMInv (n : Nat) (s : MMState n) : Prop :=
  ∃ m : Nat,
    (∀ i : Fin n, (s.thr i).round = m ∨ (s.thr i).round = m + 1) ∧
    (∃ i : Fin n, (s.thr i).round = m) ∧
    (∀ i : Fin n, (s.thr i).round = m + 1 → (s.thr i).phase = .relCheck) ∧
    (s.waiting = if ∃ i : Fin n, (s.thr i).round = m ∧ (s.thr i).phase = .resetReleased
                 then 0 else mmCount s (mmArrivedAt m)) ∧
    s.released = mmCount s (mmReleasedAt m) ∧
    ((∃ i : Fin n, (s.thr i).round = m ∧
        ((s.thr i).phase = .relInc ∨ (s.thr i).phase = .resetWaiting ∨
         (s.thr i).phase = .resetReleased)) ∨ (∃ i : Fin n, (s.thr i).round = m + 1) →
      mmCount s (mmArrivedAt m) = n) ∧
    (∀ i : Fin n, (s.thr i).round = m ∧ (s.thr i).hasReleased →
      mmCount s (mmReleasedAt m) = n) ∧
    (∀ i j : Fin n, (s.thr i).round = m ∧ (s.thr i).hasReleased →
      (s.thr j).round = m ∧ (s.thr j).hasReleased → i = j)

/-! ## The end-of-step protocol around STS::waitInternal
(sts.h:936-954) — claim C1

The concurrent system at the point where the main thread (thread 0) calls
`wait()` on an active non-default scheduler: each worker thread drains its
queue (`Thread::doWork` → `processQueue` → `STS::runAllSubTasks` →
`runSubTask`, sts.h:521-541, 797-841), where running a subtask ends with
`functorEndBarrier_.markArrival()` (inside `Task::run`, task.h:506-514)
followed by `st->setDone(...)` (sts.h:840), then marks the step barrier on
its next `waitOnStepCounter` (sts.h:491-494).  The main thread executes
`waitInternal`: drain own queue, wait on the end-barrier of the tasks the
source loop visits (`for (unsigned int i=1; i<tasks_.size(); i++)`,
sts.h:944), wait on `stepCounterBarrier_`, re-close it to
`getNumThreads()-1`, clear `isActive_`, restore `instance_`. -/

/-- The task indices whose end-barrier `waitInternal` actually waits on
(sts.h:944-946): the loop starts at `i = 1`, so the first-created task
(index 0) is skipped. -/
def waitTaskIndices (numTasks : Nat) : List Nat := List.range' 1 (numTasks - 1)

/-- Execution status of one queued subtask: not run yet, end-barrier
arrival marked but `done` not yet stored, or `done` set. -/
inductive SubStatus
  | notStarted
  | arrived
  | done
deriving DecidableEq, Repr

/-- One entry of a thread's subtask queue: the task it belongs to and its
status. -/
structure QItem where
  taskIdx : Nat
  status : SubStatus
deriving DecidableEq, Repr

instance : Inhabited QItem := ⟨{ taskIdx := 0, status := .notStarted }⟩

/-- Per-task state: whether its functor was published this step (begin
barrier open; a subtask can only run after it) and the end-barrier
(`OMBarrier`) counter. -/
structure WTask where
  published : Bool
  endBarrier : Int
deriving DecidableEq, Repr

/-- The main thread's position inside `waitInternal`, in source order:
draining its own queue at position `pos`; the end-barrier wait loop at
index `i`; the `stepCounterBarrier_.wait()`; the re-close to `N-1`; the
`isActive_ = false` store; the `instance_ = defaultInstance_` store;
returned. -/
inductive MainPhase
  | running (pos : Nat)
  | waitingTasks (i : Nat)
  | waitingStepBarrier
  | closingStepBarrier
  | clearingActive
  | restoringInstance
  | finished
deriving DecidableEq, Repr

/-- Global state of the end-of-step system: tasks, one queue per thread
(index 0 is the main thread), each worker's queue position and
step-barrier-arrival flag (entries at index 0 unused), the
`stepCounterBarrier_` counter, the main thread's phase, and the
scheduler's `isActive_` / current-instance flags. -/
structure WSys where
  tasks : List WTask
  queues : List (List QItem)
  workerPos : List Nat
  workerArrived : List Bool
  stepBarrier : Int
  mainPhase : MainPhase
  isActive : Bool
  instanceIsDefault : Bool
deriving DecidableEq, Repr

/-- Number of threads. -/
def WSys.numThreads (s : WSys) : Nat := s.queues.length

/-- Marks the end-barrier arrival of queue item `p` of thread `t`:
`functorEndBarrier_.markArrival()` (barrier.h:229-231) plus the status
change. -/
def WSys.arriveItem (s : WSys) (t p : Nat) : WSys :=
  let k := ((s.queues.getD t []).getD p default).taskIdx
  { s with
    queues := listModify (listModify (fun it => { it with status := .arrived }) p) t s.queues
    tasks := listModify (fun tk => { tk with endBarrier := tk.endBarrier - 1 }) k s.tasks }

/-- Sets the `done` flag of queue item `p` of thread `t`
(sts.h:840 `st->setDone(isDone)`). -/
def WSys.doneItem (s : WSys) (t p : Nat) : WSys :=
  { s with
    queues := listModify (listModify (fun it => { it with status := .done }) p) t s.queues }

/-- Whether thread `t`'s queue item `p` exists and has the given
status. -/
def WSys.itemStatus (s : WSys) (t p : Nat) (st : SubStatus) : Prop :=
  p < (s.queues.getD t []).length ∧ ((s.queues.getD t []).getD p default).status = st

/-- Whether the task of thread `t`'s queue item `p` has its functor
published (its begin-barrier is open, so the subtask may run). -/
def WSys.itemReady (s : WSys) (t p : Nat) : Prop :=
  (s.tasks.getD ((s.queues.getD t []).getD p default).taskIdx
    { published := false, endBarrier := 0 }).published = true

instance (s : WSys) (t p : Nat) (st : SubStatus) : Decidable (s.itemStatus t p st) := by
  unfold WSys.itemStatus
  infer_instance

instance (s : WSys) (t p : Nat) : Decidable (s.itemReady t p) := by
  unfold WSys.itemReady
  infer_instance

/-- One interleaved step of the end-of-step system.  Worker steps need
`1 ≤ t < N`; the main thread's steps follow `waitInternal` line by
line. -/
inductive WStep : WSys → WSys → Prop
  | workerRun (s : WSys) (t : Nat) (h1 : 1 ≤ t) (h2 : t < s.numThreads)
      (hp : s.workerPos.getD t 0 = p) (hst : s.itemStatus t p .notStarted)
      (hready : s.itemReady t p) :
      WStep s (s.arriveItem t p)
  | workerSetDone (s : WSys) (t : Nat) (h1 : 1 ≤ t) (h2 : t < s.numThreads)
      (hp : s.workerPos.getD t 0 = p) (hst : s.itemStatus t p .arrived) :
      WStep s { s.doneItem t p with workerPos := listModify (· + 1) t s.workerPos }
  | workerArriveStep (s : WSys) (t : Nat) (h1 : 1 ≤ t) (h2 : t < s.numThreads)
      (hdone : s.workerPos.getD t 0 = (s.queues.getD t []).length)
      (hnot : s.workerArrived.getD t false = false) :
      WStep s { s with
                workerArrived := listModify (fun _ => true) t s.workerArrived
                stepBarrier := s.stepBarrier - 1 }
  | mainRun (s : WSys) (p : Nat) (hph : s.mainPhase = .running p)
      (hst : s.itemStatus 0 p .notStarted) (hready : s.itemReady 0 p) :
      WStep s (s.arriveItem 0 p)
  | mainSetDone (s : WSys) (p : Nat) (hph : s.mainPhase = .running p)
      (hst : s.itemStatus 0 p .arrived) :
      WStep s { s.doneItem 0 p with mainPhase := .running (p + 1) }
  | mainQueueDone (s : WSys) (p : Nat) (hph : s.mainPhase = .running p)
      (hend : p = (s.queues.getD 0 []).length) :
      WStep s { s with mainPhase := .waitingTasks 1 }
  | mainTaskWaitPass (s : WSys) (i : Nat) (hph : s.mainPhase = .waitingTasks i)
      (hi : i < s.tasks.length)
      (hbar : (s.tasks.getD i { published := false, endBarrier := 0 }).endBarrier = 0) :
      WStep s { s with mainPhase := .waitingTasks (i + 1) }
  | mainTaskWaitDone (s : WSys) (i : Nat) (hph : s.mainPhase = .waitingTasks i)
      (hi : s.tasks.length ≤ i) :
      WStep s { s with mainPhase := .waitingStepBarrier }
  | mainStepBarrierPass (s : WSys) (hph : s.mainPhase = .waitingStepBarrier)
      (hbar : s.stepBarrier = 0) :
      WStep s { s with mainPhase := .closingStepBarrier }
  | mainCloseStepBarrier (s : WSys) (hph : s.mainPhase = .closingStepBarrier) :
      WStep s { s with
                stepBarrier := (s.numThreads : Int) - 1
                mainPhase := .clearingActive }
  | mainClearActive (s : WSys) (hph : s.mainPhase = .clearingActive) :
      WStep s { s with isActive := false, mainPhase := .restoringInstance }
  | mainRestoreInstance (s : WSys) (hph : s.mainPhase = .restoringInstance) :
      WStep s { s with instanceIsDefault := true, mainPhase := .finished }

/-- The state at the moment the main thread enters `waitInternal` for a
step of an active non-default schedule, before any of the interleaved
execution modelled by `WStep` has happened: every subtask still to run,
every end-barrier at its closed count (= the task's number of subtasks,
Task::init task.h:631-636), the step barrier at `N-1` (closed there by
the previous `wait`, sts.h:950, or at startup), the schedule active and
current. `published` lists per task whether its functor was set this
step; `qs` lists, per thread, the task index of each queued subtask. -/
def mkInit (published : List Bool) (qs : List (List Nat)) : WSys :=
  { tasks := (enumFrom 0 published).map fun p =>
      { published := p.2
        endBarrier := ((qs.map fun q => q.count p.1).sum : Int) }
    queues := qs.map fun q => q.map fun k => { taskIdx := k, status := .notStarted }
    workerPos := qs.map fun _ => 0
    workerArrived := qs.map fun _ => false
    stepBarrier := (qs.length : Int) - 1
    mainPhase := .running 0
    isActive := true
    instanceIsDefault := false }

/-- Well-formedness of a starting configuration: at least the main
thread exists and every queued task index is in range. -/
def WfConf (published : List Bool) (qs : List (List Nat)) : Prop :=
  1 ≤ qs.length ∧ ∀ q ∈ qs, ∀ k ∈ q, k < published.length

instance (published : List Bool) (qs : List (List Nat)) : Decidable (WfConf published qs) := by
  unfold WfConf
  infer_instance

/-- Reachability of the end-of-step system from a starting
configuration. -/
def WReachable (published : List Bool) (qs : List (List Nat)) (s : WSys) : Prop :=
  Relation.ReflTransGen WStep (mkInit published qs) s

/-- The completion property claim C1 is about: every queued subtask of
every thread has its `done` flag set, every task's end-barrier counter is
zero, the step barrier has been re-closed to `N-1`, the scheduler is
inactive and the default instance is current again. -/
def WPost (s : WSys) : Prop :=
  (∀ q ∈ s.queues, ∀ it ∈ q, it.status = SubStatus.done) ∧
  (∀ tk ∈ s.tasks, tk.endBarrier = 0) ∧
  s.stepBarrier = (s.numThreads : Int) - 1 ∧
  s.isActive = false ∧
  s.instanceIsDefault = true

/-- Number of queued subtasks of task `k` that have not yet marked the
end-barrier. -/
def notStartedCount (s : WSys) (k : Nat) : Nat :=
  (s.queues.map fun q =>
    q.countP fun it => decide (it.taskIdx = k ∧ it.status = SubStatus.notStarted)).sum

/-- Number of workers that have marked the step barrier. -/
def arrCount (s : WSys) : Nat :=
  ((Finset.range s.numThreads).filter fun t =>
    1 ≤ t ∧ s.workerArrived.getD t false = true).card

/-- The in-order shape of a thread's queue relative to its position:
everything before `pos` is done, everything after is untouched. -/
def QueueShape (pos : Nat) (q : List QItem) : Prop :=
  pos ≤ q.length ∧
  ∀ j < q.length, (j < pos → (q.getD j default).status = SubStatus.done) ∧
    (pos < j → (q.getD j default).status = SubStatus.notStarted)

/-- Whether the main thread is past its queue-draining phase. -/
def MainPhase.pastRunning : MainPhase → Prop
  | .running _ => False
  | _ => True

/-- Whether the main thread is still before the re-close of the step
barrier (the phases in which the barrier holds its step accounting). -/
def MainPhase.beforeReclose : MainPhase → Prop
  | .running _ => True
  | .waitingTasks _ => True
  | .waitingStepBarrier => True
  | _ => False

/-- Whether the main thread has passed `stepCounterBarrier_.wait()`. -/
def MainPhase.pastStepWait : MainPhase → Prop
  | .closingStepBarrier => True
  | .clearingActive => True
  | .restoringInstance => True
  | .finished => True
  | _ => False

/-- Whether the main thread has re-closed the step barrier. -/
def MainPhase.pastReclose : MainPhase → Prop
  | .clearingActive => True
  | .restoringInstance => True
  | .finished => True
  | _ => False

/-- Whether the main thread has cleared `isActive_`. -/
def MainPhase.pastClearActive : MainPhase → Prop
  | .restoringInstance => True
  | .finished => True
  | _ => False

/-- The inductive invariant of the end-of-step system. -/
def WInv (s : WSys) : Prop :=
  s.workerPos.length = s.queues.length ∧
  s.workerArrived.length = s.queues.length ∧
  (∀ t < s.queues.length, ∀ j < (s.queues.getD t []).length,
    ((s.queues.getD t []).getD j default).taskIdx < s.tasks.length) ∧
  (∀ t, 1 ≤ t → t < s.queues.length → QueueShape (s.workerPos.getD t 0) (s.queues.getD t [])) ∧
  (∀ p, s.mainPhase = .running p → QueueShape p (s.queues.getD 0 [])) ∧
  (s.mainPhase.pastRunning → ∀ it ∈ s.queues.getD 0 [], it.status = SubStatus.done) ∧
  (∀ t, 1 ≤ t → t < s.queues.length → s.workerArrived.getD t false = true →
    s.workerPos.getD t 0 = (s.queues.getD t []).length) ∧
  (∀ k < s.tasks.length,
    (s.tasks.getD k { published := false, endBarrier := 0 }).endBarrier =
      (notStartedCount s k : Int)) ∧
  (s.mainPhase.beforeReclose → s.stepBarrier = (s.numThreads : Int) - 1 - (arrCount s : Int)) ∧
  (s.mainPhase.pastStepWait →
    ∀ t, 1 ≤ t → t < s.queues.length → s.workerArrived.getD t false = true) ∧
  (s.mainPhase.pastReclose → s.stepBarrier = (s.numThreads : Int) - 1) ∧
  (s.mainPhase.pastClearActive → s.isActive = false) ∧
  (s.mainPhase = .finished → s.instanceIsDefault = true)

/-- The end state of the concrete C1 trace: one task published on one
worker thread, everything completed, barrier re-closed, scheduler
inactive and default instance current. -/
def c1WitnessFinal : WSys :=
  { tasks := [{ published := true, endBarrier := 0 }]
    queues := [[], [{ taskIdx := 0, status := .done }]]
    workerPos := [0, 1]
    workerArrived := [false, true]
    stepBarrier := 1
    mainPhase := .finished
    isActive := false
    instanceIsDefault := true }

/-! ## Derived spec-side predicates used by the claim statements -/

/-- Spec-side description of a pause target (claim C9): a strictly later
subtask on the same thread whose task's label is in the current task's
successor set, that is not done, whose task is ready (begin-barrier open),
and whose resume checkpoint has been reached. -/
def specPauseTargetExists (s : PauseState) (st : Nat) : Prop :=
  ∃ j, st < j ∧ j < s.subtasks.length ∧
    (s.taskOf (s.subtasks.getD j default)).label ∈
      (s.taskOf (s.subtasks.getD st default)).nextTasks ∧
    (s.subtasks.getD j default).done = false ∧
    (s.taskOf (s.subtasks.getD j default)).ready = true ∧
    (s.subtasks.getD j default).checkPoint ≤ (s.taskOf (s.subtasks.getD j default)).checkPoint

/-- Well-formedness of the one-thread pause view: subtask task indices in
range, a bitmap entry per subtask, and the bitmap is the one
nextStepInternal precomputed. -/
def PauseWf (s : PauseState) : Prop :=
  (∀ st ∈ s.subtasks, st.taskIdx < s.tasks.length) ∧
  s.nextSubTasks.length = s.subtasks.length ∧
  ∀ i < s.subtasks.length,
    s.nextSubTasks.getD i [] = computeNextSubTasks s.tasks s.subtasks i

/-- The integer breakpoints a rational breakpoint list maps to inside an
integer range (the endpoints of `Range<i64>::subset` of consecutive
sub-ranges). -/
def breakpointImages (r : RangeI) (bps : List ℚ) : List Int :=
  bps.map r.subsetEndpoint

/-- Membership of an integer in the `i`-th of the half-open intervals cut
out by a list of integer breakpoints. -/
def coveredBy (ns : List Int) (i : Nat) (m : Int) : Prop :=
  ∃ a b, ns[i]? = some a ∧ ns[i + 1]? = some b ∧ a ≤ m ∧ m < b


/-- The breakpoints of the sub-ranges produced by the vector form of
assign_loop over the whole loop `[0, 1]`: the first start followed by
each accumulated stop. -/
def assignLoopBreakpoints (n : Nat) : List ℚ :=
  0 :: (assignLoopRanges n { start := 0, stop := 1 }).map RangeQ.stop


/-- A concrete one-thread pause view: coroutine task "F" (successor set
{"G"}) at queue position 0 and currently running, task "G" ready at
position 1. -/
def c9WitnessState : PauseState :=
  { tasks := [{ label := "F", isCoroutine := true, checkPoint := 0, ready := true,
                nextTasks := ["G"] },
              { label := "G", isCoroutine := false, checkPoint := 0, ready := true,
                nextTasks := [] }]
    subtasks := [{ taskIdx := 0, checkPoint := 0, done := false },
                 { taskIdx := 1, checkPoint := 0, done := false }]
    callStack := [0]
    systemProgressed := 1
    nextSubTasks := [[1], []] }


/-- The barrier state after one complete round of two threads: both in
round 1 before their next `enter`, both counters reset. -/
def mmWitnessFinal : MMState 2 :=
  { waiting := 0, released := 0, thr := fun _ => { round := 1, phase := .relCheck } }

/-! # Theorems -/

/-! ## Shared helper lemmas -/

theorem listModify_length (f : α → α) (p : Nat) (l : List α) :
    (listModify f p l).length = l.length := by
  induction l generalizing p with
  | nil => cases p <;> rfl
  | cons x xs ih =>
    cases p with
    | zero => rfl
    | succ n => simp [listModify, ih]

theorem listModify_getD_eq [Inhabited α] (f : α → α) (p : Nat) (l : List α) (hp : p < l.length) :
    (listModify f p l).getD p default = f (l.getD p default) := by
  induction l generalizing p with
  | nil => simp at hp
  | cons x xs ih =>
    cases p with
    | zero => rfl
    | succ n =>
      simp only [listModify, List.getD_cons_succ]
      exact ih n (by simpa using hp)

theorem listModify_getD_ne [Inhabited α] (f : α → α) (p q : Nat) (l : List α) (hq : q ≠ p) :
    (listModify f p l).getD q default = l.getD q default := by
  induction l generalizing p q with
  | nil => cases p <;> rfl
  | cons x xs ih =>
    cases p with
    | zero =>
      cases q with
      | zero => exact absurd rfl hq
      | succ m => rfl
    | succ n =>
      cases q with
      | zero => rfl
      | succ m =>
        simp only [listModify, List.getD_cons_succ]
        exact ih n m (fun h => hq (by omega))

theorem listModify_oob (f : α → α) (p : Nat) (l : List α) (hp : l.length ≤ p) :
    listModify f p l = l := by
  induction l generalizing p with
  | nil => cases p <;> rfl
  | cons x xs ih =>
    cases p with
    | zero => simp at hp
    | succ n =>
      simp only [listModify]
      rw [ih n (by simpa using hp)]


/-! ## Claim C10: unknown scheduler names fall back to the default instance -/

/-- C10: for any registered-instance table and any id not in it,
`STS::getInstance` returns the default instance (never a null result),
which is exactly what a lookup of the name "default" returns once the
default instance has registered itself; the barrier registries instead
return `nullptr` (`none`) for the same unknown name. -/
theorem C10_getInstance_unknown_defaults
    (reg : List (String × Nat)) (breg : List (String × Nat)) (d : Nat) (id : String)
    (h : alistFind id reg = none) (hd : alistFind "default" reg = some d)
    (hb : alistFind id breg = none) :
    getInstance reg d id = d ∧
    getInstance reg d id = getInstance reg d "default" ∧
    barrierGetInstance breg id = none := by
  simp [getInstance, barrierGetInstance, h, hd, hb]

/-- Witness for C10 at a concrete registry. -/
theorem C10_witness :
    getInstance [("default", 7), ("kernelA", 3)] 7 "unknownName" = 7 ∧
    getInstance [("default", 7), ("kernelA", 3)] 7 "unknownName" =
      getInstance [("default", 7), ("kernelA", 3)] 7 "default" ∧
    barrierGetInstance [("stepBarrier", 1)] "unknownName" = none :=
  C10_getInstance_unknown_defaults [("default", 7), ("kernelA", 3)] [("stepBarrier", 1)]
    7 "unknownName" (by decide) (by decide) (by decide)

/-! ## Claim C6: a second nextStep without an intervening wait -/

/-- The scheduler state right after the first `nextStep` call on the
non-default instance: it became current and active, its tasks were
restarted once, the step counter moved. -/
def nextStepAfterFirst : NextStepState :=
  { instPtr := .selfInst
    selfActive := true
    defaultActive := false
    selfUseDefault := false
    stepCounter := 1
    selfRestarts := 1 }

/-- C6 (code_bug evidence): starting from the post-startup state, the
first `nextStepInternal` on a non-default scheduler succeeds and
activates it, but the second call — the one the claim (and the source
comment "Allow multiple calls, but ignore if schedule is active",
sts.h:890) says is an ignored no-op — aborts on the assertion
`instance_->bUseDefaultSchedule_ == true` (sts.h:889), because
`instance_` now points at the non-default scheduler itself.  The
assertion runs before the early-return branch can be reached. -/
theorem C6_second_nextStep_hits_assertion :
    nextStepInternal (nextStepStart 0) = .ok nextStepAfterFirst ∧
    nextStepInternal nextStepAfterFirst =
      .error "assert instance_->bUseDefaultSchedule_ == true" :=
  ⟨rfl, rfl⟩

/-! ## Claim C3: reduction result -/

/-- Counterexample to C3 as stated: a reduction created with `init = 1`
and one slot, with no collect calls at all, yields `getResult() = 2`,
not `init` merged with the (empty) collected values, because the slots
are themselves initialized to `init` and reduce adds them into `result`
(reduce.h:27-38).  So the claim fails for `init ≠ 0`. -/
theorem C3_counterexample :
    ((TaskReduction.create (1 : Int) 1).collectAll []).reduce.getResult ≠ 1 + 0 := by
  decide

theorem foldl_add_eq_add_sum [AddCommMonoid T] (l : List T) (b : T) :
    l.foldl (· + ·) b = b + l.sum := by
  induction l generalizing b with
  | nil => simp
  | cons x xs ih => simp [ih, add_assoc]

theorem listModify_add_sum [AddCommMonoid T] (a : T) (p : Nat) (l : List T) (hp : p < l.length) :
    (listModify (· + a) p l).sum = l.sum + a := by
  induction l generalizing p with
  | nil => simp at hp
  | cons x xs ih =>
    cases p with
    | zero => simp [listModify, add_assoc, add_comm, add_left_comm]
    | succ n =>
      have := ih n (by simpa using hp)
      simp [listModify, this, add_assoc]

theorem collectAll_sum [AddCommMonoid T] (calls : List (T × Nat)) (tr : TaskReduction T)
    (h : ∀ c ∈ calls, c.2 < tr.values.length) :
    (tr.collectAll calls).values.sum = tr.values.sum + (calls.map Prod.fst).sum ∧
    (tr.collectAll calls).values.length = tr.values.length := by
  induction calls generalizing tr with
  | nil => simp [TaskReduction.collectAll]
  | cons c cs ih =>
    have hc : c.2 < tr.values.length := h c (List.mem_cons_self c cs)
    have hstep : (tr.collect c.1 c.2).values.sum = tr.values.sum + c.1 :=
      listModify_add_sum c.1 c.2 tr.values hc
    have hlen : (tr.collect c.1 c.2).values.length = tr.values.length :=
      listModify_length _ _ _
    have hrest := ih (tr.collect c.1 c.2)
      (fun d hd => by rw [hlen]; exact h d (List.mem_cons_of_mem c hd))
    refine ⟨?_, ?_⟩
    · calc (tr.collectAll (c :: cs)).values.sum
          = ((tr.collect c.1 c.2).collectAll cs).values.sum := rfl
        _ = (tr.collect c.1 c.2).values.sum + (cs.map Prod.fst).sum := hrest.1
        _ = tr.values.sum + c.1 + (cs.map Prod.fst).sum := by rw [hstep]
        _ = tr.values.sum + ((c :: cs).map Prod.fst).sum := by
              simp [add_assoc]
    · calc (tr.collectAll (c :: cs)).values.length
          = ((tr.collect c.1 c.2).collectAll cs).values.length := rfl
        _ = (tr.collect c.1 c.2).values.length := hrest.2
        _ = tr.values.length := hlen

/-- C3 (amended): for a reduction created with initial value `init` and
one slot per task-local thread, an arbitrary sequence of in-range
collect calls followed by `reduce` makes `getResult()` equal
`(numThreads + 1) • init` plus the sum of the collected values — the
slots are themselves initialized to `init`, so the claimed
`init + collected` holds only for `init = 0` (or no slots). -/
theorem C3_reduction_result (T : Type) [AddCommMonoid T] (init : T) (numThreads : Nat)
    (calls : List (T × Nat)) (h : ∀ c ∈ calls, c.2 < numThreads) :
    ((TaskReduction.create init numThreads).collectAll calls).reduce.getResult =
      (numThreads + 1) • init + (calls.map Prod.fst).sum := by
  have hlen : (TaskReduction.create init numThreads).values.length = numThreads := by
    simp [TaskReduction.create]
  have hsum := collectAll_sum calls (TaskReduction.create init numThreads)
    (fun c hc => by rw [hlen]; exact h c hc)
  have hres : ((TaskReduction.create init numThreads).collectAll calls).result = init := by
    have : ∀ (cs : List (T × Nat)) (tr : TaskReduction T),
        (tr.collectAll cs).result = tr.result := by
      intro cs
      induction cs with
      | nil => intro tr; rfl
      | cons c cs2 ih => intro tr; exact ih (tr.collect c.1 c.2)
    exact this calls _
  have hcreate : (TaskReduction.create init numThreads).values.sum = numThreads • init := by
    simp [TaskReduction.create]
  calc ((TaskReduction.create init numThreads).collectAll calls).reduce.getResult
      = ((TaskReduction.create init numThreads).collectAll calls).result +
        ((TaskReduction.create init numThreads).collectAll calls).values.sum := by
        simp [TaskReduction.reduce, TaskReduction.getResult, foldl_add_eq_add_sum]
    _ = init + (numThreads • init + (calls.map Prod.fst).sum) := by
        rw [hres, hsum.1, hcreate]
    _ = (numThreads + 1) • init + (calls.map Prod.fst).sum := by
        rw [succ_nsmul]
        abel

/-- Witness for C3 at a concrete reduction: `init = 1`, one slot, one
collect of 5 gives `(1+1)•1 + 5 = 7`. -/
theorem C3_witness :
    ((TaskReduction.create (1 : Int) 1).collectAll [(5, 0)]).reduce.getResult =
      (1 + 1) • (1 : Int) + ([((5 : Int), 0)].map Prod.fst).sum :=
  C3_reduction_result Int 1 1 [(5, 0)] (by decide)

/-! ## Claim C4: end-barrier closed count after restart -/

/-- Counterexample to C4 as stated: assign two subtasks of the same task
to the same thread (explicitly legal, sts.h:148); after `restart` the
end-barrier is closed to 2 (`getNumSubtasks()`, task.h:634), while the
number of distinct assigned threads is 1. -/
theorem C4_counterexample :
    ¬ ((TaskAssign.ofPushes [0, 0]).restart.endBarrierCount =
        ((TaskAssign.ofPushes [0, 0]).numThreads : Int)) := by
  decide

theorem natAlistFind_append (k : Nat) (xs : List (Nat × Nat)) (p : Nat × Nat) :
    natAlistFind k (xs ++ [p]) =
      match natAlistFind k xs with
      | some v => some v
      | none => if p.1 = k then some p.2 else none := by
  induction xs with
  | nil => rfl
  | cons x xs2 ih =>
    by_cases hx : x.1 = k
    · simp [natAlistFind, hx]
    · simp [natAlistFind, hx, ih]

/-- The bookkeeping invariant of `pushSubtask`: `numThreads_` counts the
distinct threads seen, and `threadTaskIds_` has an entry exactly for
them. -/
def PushInv (t : TaskAssign) : Prop :=
  t.numThreads = t.subtaskThreads.toFinset.card ∧
  ∀ th, (natAlistFind th t.threadTaskIds).isSome = true ↔ th ∈ t.subtaskThreads

theorem pushSubtask_eq_found (t : TaskAssign) (th v : Nat)
    (hfind : natAlistFind th t.threadTaskIds = some v) :
    t.pushSubtask th = { t with subtaskThreads := t.subtaskThreads ++ [th] } := by
  simp [TaskAssign.pushSubtask, hfind]

theorem pushSubtask_eq_new (t : TaskAssign) (th : Nat)
    (hfind : natAlistFind th t.threadTaskIds = none) :
    t.pushSubtask th =
      { t with
        subtaskThreads := t.subtaskThreads ++ [th]
        threadTaskIds := t.threadTaskIds ++ [(th, t.numThreads)]
        numThreads := t.numThreads + 1 } := by
  simp [TaskAssign.pushSubtask, hfind]

theorem pushSubtask_subtaskThreads (t : TaskAssign) (th : Nat) :
    (t.pushSubtask th).subtaskThreads = t.subtaskThreads ++ [th] := by
  rcases hfind : natAlistFind th t.threadTaskIds with _ | v
  · rw [pushSubtask_eq_new t th hfind]
  · rw [pushSubtask_eq_found t th v hfind]

theorem pushSubtask_inv (t : TaskAssign) (th : Nat) (h : PushInv t) :
    PushInv (t.pushSubtask th) := by
  obtain ⟨hcard, hmem⟩ := h
  rcases hfind : natAlistFind th t.threadTaskIds with _ | v
  · -- first occurrence of the thread
    have hnotmem : th ∉ t.subtaskThreads := by
      intro hm
      have := (hmem th).mpr hm
      rw [hfind] at this
      simp at this
    rw [pushSubtask_eq_new t th hfind]
    constructor
    · simp only [List.toFinset_append]
      have huni : t.subtaskThreads.toFinset ∪ [th].toFinset =
          insert th t.subtaskThreads.toFinset := by
        simp only [List.toFinset_cons, List.toFinset_nil, insert_emptyc_eq]
        rw [Finset.union_comm, ← Finset.insert_eq]
      rw [huni, Finset.card_insert_of_not_mem (by simpa using hnotmem), hcard]
    · intro th2
      simp only [natAlistFind_append]
      rcases hf2 : natAlistFind th2 t.threadTaskIds with _ | w
      · have hnm2 : th2 ∉ t.subtaskThreads := by
          intro hm
          have := (hmem th2).mpr hm
          rw [hf2] at this
          simp at this
        by_cases hth : th = th2
        · subst hth
          simp [hnm2]
        · simp [hth, hnm2, Ne.symm hth]
      · have hm2 : th2 ∈ t.subtaskThreads := (hmem th2).mp (by rw [hf2]; rfl)
        simp [hm2]
  · -- thread already has a task-local id
    have hm : th ∈ t.subtaskThreads := (hmem th).mp (by rw [hfind]; rfl)
    rw [pushSubtask_eq_found t th v hfind]
    constructor
    · simp only [List.toFinset_append]
      have huni : t.subtaskThreads.toFinset ∪ [th].toFinset = t.subtaskThreads.toFinset := by
        simp only [List.toFinset_cons, List.toFinset_nil, insert_emptyc_eq]
        rw [Finset.union_comm, ← Finset.insert_eq]
        exact Finset.insert_eq_self.mpr (by simpa using hm)
      rw [huni]
      exact hcard
    · intro th2
      simp only []
      rw [hmem th2]
      constructor
      · intro hx
        exact List.mem_append_left _ hx
      · intro hx
        rcases List.mem_append.mp hx with hx | hx
        · exact hx
        · simp at hx
          subst hx
          exact hm

theorem ofPushes_subtaskThreads (l : List Nat) :
    ∀ t : TaskAssign, (l.foldl TaskAssign.pushSubtask t).subtaskThreads =
      t.subtaskThreads ++ l := by
  induction l with
  | nil => intro t; simp
  | cons x xs ih =>
    intro t
    simp only [List.foldl_cons]
    rw [ih, pushSubtask_subtaskThreads]
    simp

theorem ofPushes_inv (l : List Nat) : PushInv (TaskAssign.ofPushes l) := by
  have base : PushInv TaskAssign.empty := by
    constructor
    · rfl
    · intro th
      simp [natAlistFind, TaskAssign.empty]
  have : ∀ (xs : List Nat) (t : TaskAssign), PushInv t →
      PushInv (xs.foldl TaskAssign.pushSubtask t) := by
    intro xs
    induction xs with
    | nil => intro t h; exact h
    | cons x xs2 ih =>
      intro t h
      exact ih (t.pushSubtask x) (pushSubtask_inv t x h)
  exact this l TaskAssign.empty base

/-- C4 (amended): after `restart`, a Task's end-barrier is closed to a
count equal to its number of subtasks (task.h:634), while `numThreads_`
counts the distinct assigned threads; the two agree exactly for
assignments in which no thread holds more than one subtask of the task
(the barrier count exceeds the distinct-thread count otherwise). -/
theorem C4_endBarrier_closed_count (l : List Nat) :
    (TaskAssign.ofPushes l).restart.endBarrierCount = (l.length : Int) ∧
    (TaskAssign.ofPushes l).numThreads = l.toFinset.card ∧
    (l.Nodup →
      (TaskAssign.ofPushes l).restart.endBarrierCount =
        ((TaskAssign.ofPushes l).numThreads : Int)) := by
  have hthreads : (TaskAssign.ofPushes l).subtaskThreads = l := by
    have := ofPushes_subtaskThreads l TaskAssign.empty
    simpa [TaskAssign.ofPushes, TaskAssign.empty] using this
  have hinv := ofPushes_inv l
  have hnum : (TaskAssign.ofPushes l).numThreads = l.toFinset.card := by
    rw [hinv.1, hthreads]
  refine ⟨?_, hnum, ?_⟩
  · simp [TaskAssign.restart, TaskAssign.getNumSubtasks, hthreads]
  · intro hnd
    simp [TaskAssign.restart, TaskAssign.getNumSubtasks, hthreads, hnum,
      List.toFinset_card_of_nodup hnd]

/-- Witness for C4: with each subtask on its own thread the two counts
agree. -/
theorem C4_witness :
    (TaskAssign.ofPushes [0, 1]).restart.endBarrierCount =
      ((TaskAssign.ofPushes [0, 1]).numThreads : Int) :=
  (C4_endBarrier_closed_count [0, 1]).2.2 (by decide)


/-! ## Claim C8: stealWork -/

theorem mem_enumFrom [Inhabited α] {l : List α} :
    ∀ {i : Nat} {p : Nat × α}, p ∈ enumFrom i l →
      i ≤ p.1 ∧ p.1 - i < l.length ∧ l.getD (p.1 - i) default = p.2 := by
  induction l with
  | nil => intro i p h; simp [enumFrom] at h
  | cons x xs ih =>
    intro i p h
    rcases List.mem_cons.mp h with h | h
    · subst h
      exact ⟨le_refl _, by simp, by simp⟩
    · obtain ⟨h1, h2, h3⟩ := ih h
      refine ⟨by omega, ?_, ?_⟩
      · simp only [List.length_cons]
        omega
      · have harith : p.1 - i = (p.1 - (i + 1)) + 1 := by omega
        rw [harith]
        simpa using h3

theorem enumFrom_of_getD [Inhabited α] {l : List α} :
    ∀ {i k : Nat}, k < l.length → (i + k, l.getD k default) ∈ enumFrom i l := by
  induction l with
  | nil => intro i k h; simp at h
  | cons x xs ih =>
    intro i k h
    cases k with
    | zero => simp [enumFrom]
    | succ m =>
      have := ih (i := i + 1) (k := m) (by simpa using h)
      have harith : i + (m + 1) = (i + 1) + m := by omega
      rw [harith]
      exact List.mem_cons_of_mem _ (by simpa using this)

theorem snd_mem_of_mem_enumFrom {l : List α} :
    ∀ {i : Nat} {p : Nat × α}, p ∈ enumFrom i l → p.2 ∈ l := by
  induction l with
  | nil => intro i p h; simp [enumFrom] at h
  | cons x xs ih =>
    intro i p h
    rcases List.mem_cons.mp h with h | h
    · subst h; simp
    · exact List.mem_cons_of_mem _ (ih h)

theorem stealScan_acc_le (en : List (Nat × SubTaskRunInfo)) :
    ∀ acc : Nat × Int, acc.2 ≤ (stealScan en acc).2 := by
  induction en with
  | nil => intro acc; exact le_refl _
  | cons p rest ih =>
    intro acc
    obtain ⟨i, ri⟩ := p
    obtain ⟨bestST, bestNumIters⟩ := acc
    simp only [stealScan]
    by_cases hrun : ri.isRunning
    · simp only [hrun, if_true]
      by_cases hlt : bestNumIters < ri.endIter - ri.currentIter - 1
      · simp only [hlt, if_true]
        exact le_trans (le_of_lt hlt) (ih (i, ri.endIter - ri.currentIter - 1))
      · simp only [hlt, if_false]
        exact ih (bestST, bestNumIters)
    · simp only [hrun, if_false]
      exact ih (bestST, bestNumIters)

theorem stealScan_ge_mem (en : List (Nat × SubTaskRunInfo)) :
    ∀ acc : Nat × Int, ∀ p ∈ en, p.2.isRunning = true →
      remainingIters p.2 ≤ (stealScan en acc).2 := by
  induction en with
  | nil => intro acc p h; simp at h
  | cons q rest ih =>
    intro acc p hp hrun
    obtain ⟨i, ri⟩ := q
    obtain ⟨bestST, bestNumIters⟩ := acc
    rcases List.mem_cons.mp hp with hp | hp
    · subst hp
      have hrun2 : ri.isRunning = true := hrun
      simp only [stealScan, hrun2, if_true]
      by_cases hlt : bestNumIters < ri.endIter - ri.currentIter - 1
      · simp only [hlt, if_true]
        exact stealScan_acc_le rest (i, ri.endIter - ri.currentIter - 1)
      · simp only [hlt, if_false]
        have h1 : remainingIters ri ≤ bestNumIters := not_lt.mp hlt
        exact le_trans h1 (stealScan_acc_le rest (bestST, bestNumIters))
    · simp only [stealScan]
      by_cases hrun2 : ri.isRunning
      · simp only [hrun2, if_true]
        by_cases hlt : bestNumIters < ri.endIter - ri.currentIter - 1
        · simp only [hlt, if_true]
          exact ih _ p hp hrun
        · simp only [hlt, if_false]
          exact ih _ p hp hrun
      · simp only [hrun2, if_false]
        exact ih _ p hp hrun

theorem stealScan_cases (en : List (Nat × SubTaskRunInfo)) :
    ∀ acc : Nat × Int, stealScan en acc = acc ∨
      ∃ p ∈ en, p.2.isRunning = true ∧
        stealScan en acc = (p.1, remainingIters p.2) ∧ acc.2 < remainingIters p.2 := by
  induction en with
  | nil => intro acc; exact Or.inl rfl
  | cons q rest ih =>
    intro acc
    obtain ⟨i, ri⟩ := q
    obtain ⟨bestST, bestNumIters⟩ := acc
    simp only [stealScan]
    by_cases hrun : ri.isRunning
    · simp only [hrun, if_true]
      by_cases hlt : bestNumIters < ri.endIter - ri.currentIter - 1
      · simp only [hlt, if_true]
        rcases ih (i, ri.endIter - ri.currentIter - 1) with h | ⟨p, hp, hr, he, hgt⟩
        · refine Or.inr ⟨(i, ri), List.mem_cons_self _ _, hrun, ?_, hlt⟩
          rw [h]
          rfl
        · refine Or.inr ⟨p, List.mem_cons_of_mem _ hp, hr, he, ?_⟩
          exact lt_trans hlt hgt
      · simp only [hlt, if_false]
        rcases ih (bestST, bestNumIters) with h | ⟨p, hp, hr, he, hgt⟩
        · exact Or.inl h
        · exact Or.inr ⟨p, List.mem_cons_of_mem _ hp, hr, he, hgt⟩
    · simp only [hrun, if_false]
      rcases ih (bestST, bestNumIters) with h | ⟨p, hp, hr, he, hgt⟩
      · exact Or.inl h
      · exact Or.inr ⟨p, List.mem_cons_of_mem _ hp, hr, he, hgt⟩

/-- C8: Task::stealWork with auto-balancing enabled.  If no running
subtask has at least 2 remaining iterations (`endIter - currentIter - 1`),
the call returns false and modifies nothing.  Otherwise there is a victim
index `j` — a running subtask whose remaining count is maximal among the
running subtasks and at least 2 — whose end iteration is cut to
`currentIter + (endIter - currentIter)/2`; the stolen upper tail becomes
the thief's working range, the end-barrier thread count is incremented
(`addThread()`), and the call returns true. -/
theorem C8_stealWork_spec (s : StealState) (hab : s.autoBalancing = true) :
    ((∀ ri ∈ s.subtasks, ri.isRunning = true → remainingIters ri < 2) →
      stealWork s = { stole := false, subtasks := s.subtasks, workingRange := none,
                      endBarrierRemaining := s.endBarrierRemaining }) ∧
    (∀ ri0 ∈ s.subtasks, ri0.isRunning = true → 2 ≤ remainingIters ri0 →
      ∃ j, j < s.subtasks.length ∧
        (s.subtasks.getD j default).isRunning = true ∧
        2 ≤ remainingIters (s.subtasks.getD j default) ∧
        (∀ rk ∈ s.subtasks, rk.isRunning = true →
          remainingIters rk ≤ remainingIters (s.subtasks.getD j default)) ∧
        stealWork s =
          { stole := true,
            subtasks := listModify (fun r => { r with endIter :=
                (s.subtasks.getD j default).currentIter +
                  ((s.subtasks.getD j default).endIter -
                    (s.subtasks.getD j default).currentIter) / 2 }) j s.subtasks,
            workingRange := some ((s.subtasks.getD j default).currentIter +
                ((s.subtasks.getD j default).endIter -
                  (s.subtasks.getD j default).currentIter) / 2,
              (s.subtasks.getD j default).endIter),
            endBarrierRemaining := s.endBarrierRemaining + 1 }) := by
  constructor
  · intro hall
    rcases stealScan_cases (enumFrom 0 s.subtasks) (0, 1) with h | ⟨p, hp, hr, he, hgt⟩
    · simp [stealWork, hab, h]
    · have hmem : p.2 ∈ s.subtasks := snd_mem_of_mem_enumFrom hp
      have := hall p.2 hmem hr
      simp only [] at hgt
      omega
  · intro ri0 hmem0 hrun0 hge0
    obtain ⟨k, hk, hget⟩ := List.getElem_of_mem hmem0
    have hkd : s.subtasks.getD k default = ri0 := by
      rw [List.getD_eq_getElem _ _ hk, hget]
    have hkenum : (k, ri0) ∈ enumFrom 0 s.subtasks := by
      have := enumFrom_of_getD (l := s.subtasks) (i := 0) (k := k) hk
      rw [hkd] at this
      simpa using this
    have hge : remainingIters ri0 ≤ (stealScan (enumFrom 0 s.subtasks) (0, 1)).2 :=
      stealScan_ge_mem (enumFrom 0 s.subtasks) (0, 1) (k, ri0) hkenum hrun0
    rcases stealScan_cases (enumFrom 0 s.subtasks) (0, 1) with h | ⟨p, hp, hr, he, hgt⟩
    · rw [h] at hge
      simp only [] at hge
      omega
    · obtain ⟨hle, hlt, hgetp⟩ := mem_enumFrom hp
      simp only [Nat.sub_zero] at hlt hgetp
      have h2le : 2 ≤ remainingIters p.2 := by
        rw [he] at hge
        simp only [] at hge
        omega
    
      refine ⟨p.1, hlt, ?_, ?_, ?_, ?_⟩
      · rw [hgetp]; exact hr
      · rw [hgetp]; exact h2le
      · intro rk hrk hrkrun
        obtain ⟨k2, hk2, hget2⟩ := List.getElem_of_mem hrk
        have hk2enum : (k2, rk) ∈ enumFrom 0 s.subtasks := by
          have := enumFrom_of_getD (l := s.subtasks) (i := 0) (k := k2) hk2
          rw [List.getD_eq_getElem _ _ hk2, hget2] at this
          simpa using this
        have hmax := stealScan_ge_mem (enumFrom 0 s.subtasks) (0, 1) (k2, rk) hk2enum hrkrun
        rw [he] at hmax
        rw [hgetp]
        exact hmax
      · have hne : remainingIters p.2 ≠ 1 := by omega
        simp [stealWork, hab, he, hne, hgetp]
/-- Witness for C8: one running subtask with a single remaining
iteration — below the threshold, so the call fails and changes
nothing. -/
theorem C8_witness :
    stealWork { autoBalancing := true
                subtasks := [{ isRunning := true, startIter := 0, endIter := 5, currentIter := 3 }]
                endBarrierRemaining := 0 } =
      { stole := false
        subtasks := [{ isRunning := true, startIter := 0, endIter := 5, currentIter := 3 }]
        workingRange := none
        endBarrierRemaining := 0 } :=
  (C8_stealWork_spec _ rfl).1 (by decide)


/-! ## Claim C5: unassigned labels -/

theorem toInt32_eq_self {s : Int} (h1 : -(2 ^ 31) ≤ s) (h2 : s < 2 ^ 31) :
    toInt32 s = s := by
  unfold toInt32
  rw [Int.emod_eq_of_lt (by omega) (by omega)]
  omega

/-- Counterexample to C5 as stated: the synchronous fallback loop of
parallel_for uses an `int` counter for `int64_t` bounds
(`for (int i=start; i<end; i++)`, sts.h:304).  With
`start = -2^31 - 1` and `end = 0` the interval `[start, end)` is
non-empty, but `start` narrows (two's complement) to `2^31 - 1 ≥ end`,
so the body is never executed; and with `start = 0, end = 2^31` the
`int` counter can never reach `end`, so the loop never terminates. -/
theorem C5_counterexample :
    stsParallelFor false true true false false (-(2 ^ 31) - 1) 0 =
      .ok (.syncLoop (parallelForFallbackIters (-(2 ^ 31) - 1) 0)) ∧
    parallelForFallbackIters (-(2 ^ 31) - 1) 0 = some [] ∧
    (-(2 ^ 31) - 1 : Int) < 0 ∧
    parallelForFallbackIters 0 (2 ^ 31) = none := by
  refine ⟨rfl, ?_, by norm_num, ?_⟩
  · simp only [parallelForFallbackIters, toInt32]
    norm_num
  · simp only [parallelForFallbackIters, toInt32]
    norm_num

/-- C5 (amended): for a label with no assignment in the current
non-default schedule (the schedule being current and active), `run`
invokes the function synchronously on the caller, `waitForTask` is a
no-op, and `parallel_for` (without a reduction) runs the loop body
synchronously on the caller for every index of `[start, end)` — the
last provided `start` and `end` fit in the 32-bit `int` of the fallback
loop counter; none of the three calls is an error. -/
theorem C5_unassigned_label (s e : Int) (h1 : -(2 ^ 31) ≤ s) (h2 : s < 2 ^ 31)
    (h3 : -(2 ^ 31) ≤ e) (h4 : e < 2 ^ 31) :
    stsRun false true true false = .ok .syncCall ∧
    stsWaitForTask false false = .noop ∧
    stsParallelFor false true true false false s e =
      .ok (.syncLoop (some (intRangeList s e))) := by
  refine ⟨rfl, rfl, ?_⟩
  have hi0 : toInt32 s = s := toInt32_eq_self h1 h2
  by_cases hse : e ≤ s
  · have hz : (e - s).toNat = 0 := by omega
    simp [stsParallelFor, parallelForFallbackIters, hi0, hse, intRangeList, hz]
  · simp [stsParallelFor, parallelForFallbackIters, hi0, hse]
    omega

/-- Witness for C5 at a small concrete range. -/
theorem C5_witness :
    (stsParallelFor false true true false false 2 5 =
      .ok (.syncLoop (some (intRangeList 2 5))) ∧
     intRangeList 2 5 = [2, 3, 4]) :=
  ⟨(C5_unassigned_label 2 5 (by norm_num) (by norm_num) (by norm_num) (by norm_num)).2.2,
   by decide⟩


/-! ## Claim C2: range partition (spec-modelled `range.h`) -/

theorem roundTieTowardStart_mono {x y : ℚ} (h : x ≤ y) :
    roundTieTowardStart x ≤ roundTieTowardStart y :=
  Int.ceil_mono (by linarith)

theorem roundTieTowardStart_zero : roundTieTowardStart 0 = 0 := by
  unfold roundTieTowardStart
  apply le_antisymm
  · rw [Int.ceil_le]
    norm_num
  · rw [← Int.sub_one_lt_iff, Int.lt_ceil]
    norm_num

theorem roundTieTowardStart_intCast (n : Int) : roundTieTowardStart (n : ℚ) = n := by
  unfold roundTieTowardStart
  apply le_antisymm
  · rw [Int.ceil_le]
    linarith
  · rw [← Int.sub_one_lt_iff, Int.lt_ceil]
    push_cast
    linarith

theorem subsetEndpoint_mono (r : RangeI) (hr : r.start ≤ r.stop) {x y : ℚ} (h : x ≤ y) :
    r.subsetEndpoint x ≤ r.subsetEndpoint y := by
  unfold RangeI.subsetEndpoint
  have hlen : (0 : ℚ) ≤ ((r.stop - r.start : Int) : ℚ) := by
    push_cast
    have : (r.start : ℚ) ≤ (r.stop : ℚ) := by exact_mod_cast hr
    linarith
  have := roundTieTowardStart_mono (mul_le_mul_of_nonneg_right h hlen)
  omega

theorem subsetEndpoint_zero (r : RangeI) : r.subsetEndpoint 0 = r.start := by
  unfold RangeI.subsetEndpoint
  rw [zero_mul, roundTieTowardStart_zero]
  omega

theorem subsetEndpoint_one (r : RangeI) : r.subsetEndpoint 1 = r.stop := by
  unfold RangeI.subsetEndpoint
  rw [one_mul, roundTieTowardStart_intCast]
  omega

theorem mem_intRangeList {a b m : Int} : m ∈ intRangeList a b ↔ a ≤ m ∧ m < b := by
  constructor
  · intro h
    obtain ⟨k, hk, he⟩ := List.mem_map.mp h
    have hk2 := List.mem_range.mp hk
    rw [← he]
    constructor <;> omega
  · intro ⟨h1, h2⟩
    exact List.mem_map.mpr ⟨(m - a).toNat, List.mem_range.mpr (by omega), by omega⟩

/-- Existence and uniqueness of the covering interval for a monotone
integer breakpoint chain. -/
theorem chain_cover_unique :
    ∀ (ns : List Int) (a z : Int), ns.Chain' (· ≤ ·) → ns.head? = some a →
      ns.getLast? = some z → ∀ m : Int, a ≤ m → m < z → ∃! i, coveredBy ns i m := by
  intro ns
  induction ns with
  | nil => intro a z _ hhead _ m _ _; simp at hhead
  | cons x rest ih =>
    intro a z hch hhead hlast m h1 h2
    have hxa : x = a := by simpa using hhead
    subst hxa
    cases rest with
    | nil =>
      have : x = z := by simpa using hlast
      omega
    | cons y rest2 =>
      have hxy : x ≤ y := (List.chain'_cons.mp hch).1
      have hch2 : (y :: rest2).Chain' (· ≤ ·) := (List.chain'_cons.mp hch).2
      by_cases hmy : m < y
      · -- covered by the first interval
        refine ⟨0, ⟨x, y, rfl, by simp, h1, hmy⟩, ?_⟩
        intro j hj
        by_contra hj0
        obtain ⟨c, d, hc, hd, hcm, hmd⟩ := hj
        have hpair : (y :: rest2).Pairwise (· ≤ ·) :=
          List.chain'_iff_pairwise.mp hch2
        have hcy : y ≤ c := by
          obtain ⟨j2, rfl⟩ : ∃ j2, j = j2 + 1 := ⟨j - 1, by omega⟩
          have hc2 : (y :: rest2)[j2]? = some c := by simpa using hc
          cases j2 with
          | zero =>
            simp at hc2
            omega
          | succ j3 =>
            have hc3 : rest2[j3]? = some c := by simpa using hc2
            have hmem : c ∈ rest2 := List.getElem?_mem hc3
            exact (List.pairwise_cons.mp hpair).1 c hmem
        omega
      · -- recurse into the tail
        push_neg at hmy
        have hlast2 : (y :: rest2).getLast? = some z := by
          simpa using hlast
        obtain ⟨i, hi, huniq⟩ := ih y z hch2 rfl hlast2 m hmy h2
        refine ⟨i + 1, ?_, ?_⟩
        · obtain ⟨c, d, hc, hd, hcm, hmd⟩ := hi
          exact ⟨c, d, by simpa using hc, by simpa using hd, hcm, hmd⟩
        · intro j hj
          obtain ⟨c, d, hc, hd, hcm, hmd⟩ := hj
          cases j with
          | zero =>
            simp at hc hd
            omega
          | succ j2 =>
            have hcov : coveredBy (y :: rest2) j2 m := by
              refine ⟨c, d, by simpa using hc, by simpa using hd, hcm, hmd⟩
            have := huniq j2 hcov
            omega


theorem sorted_head_le {l : List ℚ} (hch : l.Chain' (· ≤ ·)) {h0 : ℚ}
    (hh : l.head? = some h0) : ∀ x ∈ l, h0 ≤ x := by
  cases l with
  | nil => simp at hh
  | cons a rest =>
    have ha : a = h0 := by simpa using hh
    subst ha
    intro x hx
    rcases List.mem_cons.mp hx with rfl | hx
    · exact le_refl _
    · exact (List.pairwise_cons.mp (List.chain'_iff_pairwise.mp hch)).1 x hx

theorem sorted_le_getLast :
    ∀ (l : List ℚ), l.Chain' (· ≤ ·) → ∀ z : ℚ, l.getLast? = some z → ∀ x ∈ l, x ≤ z := by
  intro l
  induction l with
  | nil => intro _ z hz; simp at hz
  | cons a rest ih =>
    intro hch z hz x hx
    cases rest with
    | nil =>
      have haz : a = z := by simpa using hz
      rcases List.mem_cons.mp hx with rfl | hx
      · exact le_of_eq haz
      · simp at hx
    | cons b rest2 =>
      have hz2 : (b :: rest2).getLast? = some z := by simpa using hz
      have hch2 : (b :: rest2).Chain' (· ≤ ·) := (List.chain'_cons.mp hch).2
      have hab : a ≤ b := (List.chain'_cons.mp hch).1
      rcases List.mem_cons.mp hx with rfl | hx
      · exact le_trans hab (ih hch2 z hz2 b (List.mem_cons_self _ _))
      · exact ih hch2 z hz2 x hx

theorem rangesOfBreakpoints_cons_cons (a b : ℚ) (t : List ℚ) :
    rangesOfBreakpoints (a :: b :: t) =
      { start := a, stop := b } :: rangesOfBreakpoints (b :: t) := rfl

theorem rangesOfBreakpoints_stops (i : ℚ) :
    ∀ (k : Nat) (r : ℚ),
      rangesOfBreakpoints (r :: (assignLoopRangesAux i k r).map RangeQ.stop) =
        assignLoopRangesAux i k r := by
  intro k
  induction k with
  | zero => intro r; rfl
  | succ k2 ih =>
    intro r
    simp only [assignLoopRangesAux, List.map_cons]
    rw [rangesOfBreakpoints_cons_cons, ih (r + i)]

theorem assignLoopRangesAux_chain (i : ℚ) (hi : 0 ≤ i) :
    ∀ (k : Nat) (r : ℚ),
      (r :: (assignLoopRangesAux i k r).map RangeQ.stop).Chain' (· ≤ ·) := by
  intro k
  induction k with
  | zero => intro r; simp [assignLoopRangesAux]
  | succ k2 ih =>
    intro r
    simp only [assignLoopRangesAux, List.map_cons]
    rw [List.chain'_cons]
    exact ⟨by linarith, ih (r + i)⟩

theorem assignLoopRangesAux_last (i : ℚ) :
    ∀ (k : Nat) (r : ℚ),
      (r :: (assignLoopRangesAux i k r).map RangeQ.stop).getLast? = some (r + (k : ℚ) * i) := by
  intro k
  induction k with
  | zero => intro r; simp [assignLoopRangesAux]
  | succ k2 ih =>
    intro r
    simp only [assignLoopRangesAux, List.map_cons]
    have := ih (r + i)
    rw [List.getLast?_cons_cons]
    rw [this]
    congr 1
    push_cast
    ring

/-- C2 (spec-modelled: `range.h` is absent from src, so `Ratio` and
`Range::subset` are modelled from spec §4.3): for any integer loop range
`[start, end)` and any rational breakpoint chain `0 = q₀ ≤ … ≤ q_k = 1`
(sub-ranges that exactly tile `[0,1]`), the integer iterations executed by
the loop functor on the mapped sub-ranges partition `[start, end)`: every
index in `[start, end)` is executed by exactly one sub-range, and no
sub-range executes an index outside `[start, end)`.  Moreover the vector
form of assign_loop produces exactly such a tiling: its accumulated
sub-ranges are the sub-ranges of the breakpoint chain
`0, 1/n, 2/n, …, 1`. -/
theorem C2_loop_partition (r : RangeI) (hr : r.start ≤ r.stop) (bps : List ℚ)
    (ht : TilesUnit bps) :
    (∀ m : Int, r.start ≤ m → m < r.stop →
      ∃! i : Nat, ∃ sub, (rangesOfBreakpoints bps)[i]? = some sub ∧
        m ∈ loopRunIters (r.subset sub)) ∧
    (∀ (i : Nat) (sub : RangeQ), (rangesOfBreakpoints bps)[i]? = some sub →
      ∀ m ∈ loopRunIters (r.subset sub), r.start ≤ m ∧ m < r.stop) ∧
    (∀ n : Nat, 1 ≤ n →
      TilesUnit (assignLoopBreakpoints n) ∧
      rangesOfBreakpoints (assignLoopBreakpoints n) =
        assignLoopRanges n { start := 0, stop := 1 }) := by
  obtain ⟨hh, hl, hcg⟩ := ht
  have hmono : ∀ a b : ℚ, a ≤ b → r.subsetEndpoint a ≤ r.subsetEndpoint b :=
    fun a b hab => subsetEndpoint_mono r hr hab
  -- decomposition of a sub-range lookup into two breakpoint lookups
  have hdecomp : ∀ (i : Nat) (sub : RangeQ),
      (rangesOfBreakpoints bps)[i]? = some sub ↔
        bps[i]? = some sub.start ∧ bps[i + 1]? = some sub.stop := by
    intro i sub
    unfold rangesOfBreakpoints
    rw [List.getElem?_map]
    constructor
    · intro h
      obtain ⟨p, hp, he⟩ := Option.map_eq_some'.mp h
      obtain ⟨h1, h2⟩ := List.getElem?_zip_eq_some.mp hp
      rw [List.getElem?_tail] at h2
      constructor
      · rw [h1]
        cases he
        rfl
      · rw [h2]
        cases he
        rfl
    · intro ⟨h1, h2⟩
      have hzip : (bps.zip bps.tail)[i]? = some (sub.start, sub.stop) := by
        apply List.getElem?_zip_eq_some.mpr
        rw [List.getElem?_tail]
        exact ⟨h1, h2⟩
      rw [hzip]
      rfl
  have himg : ∀ (i : Nat) (a : Int), (breakpointImages r bps)[i]? = some a ↔
      ∃ q, bps[i]? = some q ∧ r.subsetEndpoint q = a := by
    intro i a
    unfold breakpointImages
    rw [List.getElem?_map]
    exact Option.map_eq_some'
  refine ⟨?_, ?_, ?_⟩
  · -- the partition property
    intro m h1 h2
    have himg_ch : (breakpointImages r bps).Chain' (· ≤ ·) :=
      List.chain'_map_of_chain' _ (fun {a b} hab => hmono a b hab) hcg
    have hhead : (breakpointImages r bps).head? = some r.start := by
      unfold breakpointImages
      rw [List.head?_map, hh]
      simp [subsetEndpoint_zero]
    have hlast : (breakpointImages r bps).getLast? = some r.stop := by
      unfold breakpointImages
      rw [List.getLast?_map, hl]
      simp [subsetEndpoint_one]
    obtain ⟨i0, hcov, huniq⟩ :=
      chain_cover_unique (breakpointImages r bps) r.start r.stop himg_ch hhead hlast m h1 h2
    have hiff : ∀ i : Nat,
        (∃ sub, (rangesOfBreakpoints bps)[i]? = some sub ∧
          m ∈ loopRunIters (r.subset sub)) ↔ coveredBy (breakpointImages r bps) i m := by
      intro i
      constructor
      · rintro ⟨sub, hsub, hm⟩
        obtain ⟨h1s, h2s⟩ := (hdecomp i sub).mp hsub
        obtain ⟨hma, hmb⟩ := mem_intRangeList.mp hm
        refine ⟨r.subsetEndpoint sub.start, r.subsetEndpoint sub.stop, ?_, ?_, hma, hmb⟩
        · exact (himg i _).mpr ⟨sub.start, h1s, rfl⟩
        · exact (himg (i + 1) _).mpr ⟨sub.stop, h2s, rfl⟩
      · rintro ⟨a, b, ha, hb, h3, h4⟩
        obtain ⟨q1, hq1, he1⟩ := (himg i a).mp ha
        obtain ⟨q2, hq2, he2⟩ := (himg (i + 1) b).mp hb
        refine ⟨{ start := q1, stop := q2 }, (hdecomp i _).mpr ⟨hq1, hq2⟩, ?_⟩
        apply mem_intRangeList.mpr
        constructor
        · rw [show RangeI.start (r.subset { start := q1, stop := q2 }) =
              r.subsetEndpoint q1 from rfl, he1]
          exact h3
        · rw [show RangeI.stop (r.subset { start := q1, stop := q2 }) =
              r.subsetEndpoint q2 from rfl, he2]
          exact h4
    exact ⟨i0, (hiff i0).mpr hcov, fun j hj => huniq j ((hiff j).mp hj)⟩
  · -- no iteration escapes the loop range
    intro i sub hsub m hm
    obtain ⟨h1s, h2s⟩ := (hdecomp i sub).mp hsub
    obtain ⟨hma, hmb⟩ := mem_intRangeList.mp hm
    have hq1 : sub.start ∈ bps := List.getElem?_mem h1s
    have hq2 : sub.stop ∈ bps := List.getElem?_mem h2s
    have h0q : (0 : ℚ) ≤ sub.start := sorted_head_le hcg hh sub.start hq1
    have hq1' : sub.stop ≤ 1 := sorted_le_getLast bps hcg 1 hl sub.stop hq2
    have hlow : r.start ≤ r.subsetEndpoint sub.start := by
      have := hmono 0 sub.start h0q
      rw [subsetEndpoint_zero] at this
      exact this
    have hhigh : r.subsetEndpoint sub.stop ≤ r.stop := by
      have := hmono sub.stop 1 hq1'
      rw [subsetEndpoint_one] at this
      exact this
    constructor
    · exact le_trans hlow hma
    · exact lt_of_lt_of_le hmb hhigh
  · -- the even split of the vector assign_loop is such a tiling
    intro n hn
    have hnq : (n : ℚ) ≠ 0 := Nat.cast_ne_zero.mpr (by omega)
    have hiv : (0 : ℚ) ≤ (1 - 0) * (1 / (n : ℚ)) := by positivity
    refine ⟨⟨rfl, ?_, ?_⟩, ?_⟩
    · unfold assignLoopBreakpoints assignLoopRanges
      rw [assignLoopRangesAux_last]
      congr 1
      field_simp
    · unfold assignLoopBreakpoints assignLoopRanges
      exact assignLoopRangesAux_chain _ hiv n _
    · unfold assignLoopBreakpoints assignLoopRanges
      exact rangesOfBreakpoints_stops _ n _

/-- Witness for C2: the breakpoints `0, 1/3, 1` over `[0, 5)`; index 3
falls in exactly one sub-range. -/
theorem C2_witness :
    ∃! i : Nat, ∃ sub,
      (rangesOfBreakpoints [0, 1 / 3, 1])[i]? = some sub ∧
      (3 : Int) ∈ loopRunIters (RangeI.subset { start := 0, stop := 5 } sub) :=
  (C2_loop_partition { start := 0, stop := 5 } (by norm_num) [0, 1 / 3, 1]
    (by refine ⟨rfl, rfl, ?_⟩; norm_num)).1 3 (by norm_num) (by norm_num)


/-! ## Claim C9: pause -/

/-- The candidate test of the findPauseTarget scan for one queue index. -/
theorem findPauseTargetAux_isSome (s : PauseState) :
    ∀ L : List Nat, ((findPauseTargetAux s L).1.isSome = true ↔
      ∃ j ∈ L,
        (s.subtasks.getD j default).checkPoint ≤
          (s.taskOf (s.subtasks.getD j default)).checkPoint ∧
        (s.subtasks.getD j default).done = false ∧
        (s.taskOf (s.subtasks.getD j default)).ready = true) := by
  intro L
  induction L with
  | nil => simp [findPauseTargetAux]
  | cons j rest ih =>
    simp only [findPauseTargetAux]
    by_cases hc : (s.subtasks.getD j default).checkPoint ≤
        (s.taskOf (s.subtasks.getD j default)).checkPoint ∧
        ¬(s.subtasks.getD j default).done = true ∧
        (s.taskOf (s.subtasks.getD j default)).ready = true
    · rw [if_pos hc]
      simp only [Option.isSome_some, true_iff]
      exact ⟨j, List.mem_cons_self _ _, hc.1, by simpa using hc.2.1, hc.2.2⟩
    · rw [if_neg hc]
      simp only []
      rw [ih]
      constructor
      · rintro ⟨j2, hj2, h1, h2, h3⟩
        exact ⟨j2, List.mem_cons_of_mem _ hj2, h1, h2, h3⟩
      · rintro ⟨j2, hj2, h1, h2, h3⟩
        rcases List.mem_cons.mp hj2 with rfl | hj2
        · exact absurd ⟨h1, by simpa using h2, h3⟩ hc
        · exact ⟨j2, hj2, h1, h2, h3⟩

/-- Membership in the precomputed pause-target bitmap. -/
theorem mem_computeNextSubTasks (tasks : List PTask) (subs : List PSubTask) (stid j : Nat) :
    j ∈ computeNextSubTasks tasks subs stid ↔
      (tasks.getD (subs.getD stid default).taskIdx default).isCoroutine = true ∧
      stid < j ∧ j < subs.length ∧
      (tasks.getD (subs.getD j default).taskIdx default).label ∈
        (tasks.getD (subs.getD stid default).taskIdx default).nextTasks := by
  unfold computeNextSubTasks
  by_cases hco : (tasks.getD (subs.getD stid default).taskIdx default).isCoroutine
  · rw [if_neg (by simpa using hco)]
    constructor
    · intro h
      obtain ⟨p, hp, he⟩ := List.mem_map.mp h
      obtain ⟨hpen, hcond⟩ := List.mem_filter.mp hp
      obtain ⟨hcond1, hcond2⟩ := of_decide_eq_true hcond
      obtain ⟨hle, hlt, hget⟩ := mem_enumFrom hpen
      subst he
      simp only [Nat.sub_zero] at hlt hget
      exact ⟨by simpa using hco, hcond1, hlt, by rw [hget]; exact hcond2⟩
    · rintro ⟨_, h1, h2, h3⟩
      apply List.mem_map.mpr
      refine ⟨(j, subs.getD j default), ?_, rfl⟩
      apply List.mem_filter.mpr
      constructor
      · have := enumFrom_of_getD (l := subs) (i := 0) (k := j) h2
        simpa using this
      · exact decide_eq_true ⟨h1, h3⟩
  · rw [if_pos (by simpa using hco)]
    simp only [List.not_mem_nil, false_iff]
    rintro ⟨hc, _, _, _⟩
    exact hco (by simpa using hc)

/-- C9: STS::pause.  With a well-formed one-thread view (the bitmap being
the one nextStepInternal precomputed) and a current subtask on the call
stack: (a) `cp = 0` with a zero "system progressed" counter returns false
immediately with no state change; (b) otherwise, a non-coroutine task
returns false (only the progress counter is decremented); (c) for a
coroutine, the subtask pauses — storing `cp` as its resume checkpoint —
and returns true exactly when a pause target exists on this thread's
queue (a later subtask whose task's label is in the current task's
successor set, not done, ready, resume checkpoint reached) or the task's
own checkpoint has not reached `cp`; in every remaining case it returns
false without pausing. -/
theorem C9_pause_spec (s : PauseState) (cp : Int) (hwf : PauseWf s)
    (st : Nat) (hhead : s.callStack.head? = some st) (hst : st < s.subtasks.length) :
    (cp = 0 ∧ s.systemProgressed = 0 →
      stsPause s cp = .ok ⟨false, s⟩) ∧
    (¬(cp = 0 ∧ s.systemProgressed = 0) →
      ((s.taskOf (s.subtasks.getD st default)).isCoroutine = false →
        stsPause s cp =
          .ok ⟨false, { s with systemProgressed := max 0 (s.systemProgressed - 1) }⟩) ∧
      ((s.taskOf (s.subtasks.getD st default)).isCoroutine = true →
        ((specPauseTargetExists s st ∨
            (s.taskOf (s.subtasks.getD st default)).checkPoint < cp) →
          stsPause s cp =
            .ok ⟨true,
                  { s with
                      systemProgressed := max 0 (s.systemProgressed - 1),
                      subtasks :=
                        listModify (fun t => { t with checkPoint := cp }) st s.subtasks }⟩) ∧
        (¬(specPauseTargetExists s st ∨
            (s.taskOf (s.subtasks.getD st default)).checkPoint < cp) →
          stsPause s cp =
            .ok ⟨false, { s with systemProgressed := max 0 (s.systemProgressed - 1) }⟩))) := by
  obtain ⟨hidx, hlen, hbit⟩ := hwf
  set s1 : PauseState := { s with systemProgressed := max 0 (s.systemProgressed - 1) } with hs1
  have htarget : (s.taskOf (s.subtasks.getD st default)).isCoroutine = true →
      ((findPauseTarget s1 st).1.isSome = true ↔ specPauseTargetExists s st) := by
    intro hco
    unfold findPauseTarget
    have hb1 : s1.nextSubTasks = s.nextSubTasks := rfl
    rw [hb1, hbit st hst]
    rw [findPauseTargetAux_isSome]
    unfold specPauseTargetExists
    constructor
    · rintro ⟨j, hj, h1, h2, h3⟩
      obtain ⟨hco2, hlt1, hlt2, hlab⟩ := (mem_computeNextSubTasks _ _ _ _).mp hj
      exact ⟨j, hlt1, hlt2, hlab, h2, h3, h1⟩
    · rintro ⟨j, h1, h2, h3, h4, h5, h6⟩
      refine ⟨j, ?_, h6, h4, h5⟩
      exact (mem_computeNextSubTasks _ _ _ _).mpr ⟨hco, h1, h2, h3⟩
  have hh1 : s1.callStack.head? = some st := hhead
  refine ⟨?_, ?_⟩
  · intro h
    simp [stsPause, h.1, h.2]
  · intro hfast
    have hsplit : stsPause s cp =
        (if ¬(s1.taskOf (s1.subtasks.getD st default)).isCoroutine then
          Except.ok ⟨false, s1⟩
        else if (findPauseTarget s1 st).1.isSome ∨
            ¬(cp ≤ (s1.taskOf (s1.subtasks.getD st default)).checkPoint) then
          Except.ok ⟨true, { s1 with
            subtasks := listModify (fun t => { t with checkPoint := cp }) st s1.subtasks }⟩
        else Except.ok ⟨false, s1⟩) := by
      unfold stsPause
      rw [if_neg hfast]
      simp only [hhead]
    refine ⟨?_, ?_⟩
    · intro hnc
      have h0 : (s1.taskOf (s1.subtasks.getD st default)).isCoroutine = false := hnc
      rw [hsplit, if_pos (by simpa using h0)]
    · intro hco
      have hco1 : (s1.taskOf (s1.subtasks.getD st default)).isCoroutine = true := hco
      refine ⟨?_, ?_⟩
      · intro htgt
        have hcond : (findPauseTarget s1 st).1.isSome = true ∨
            ¬(cp ≤ (s1.taskOf (s1.subtasks.getD st default)).checkPoint) := by
          rcases htgt with h | h
          · exact Or.inl ((htarget hco).mpr h)
          · exact Or.inr (not_le.mpr h)
        rw [hsplit, if_neg (by simpa using hco1), if_pos hcond]
      · intro htgt
        push_neg at htgt
        obtain ⟨hnt, hcp⟩ := htgt
        have hcond : ¬((findPauseTarget s1 st).1.isSome = true ∨
            ¬(cp ≤ (s1.taskOf (s1.subtasks.getD st default)).checkPoint)) := by
          push_neg
          constructor
          · intro hsome
            exact hnt ((htarget hco).mp hsome)
          · exact hcp
        rw [hsplit, if_neg (by simpa using hco1), if_neg hcond]


/-- Witness for C9: on the concrete view, `pause(0)` finds the ready
successor subtask of "G" and pauses. -/
theorem C9_witness :
    stsPause c9WitnessState 0 =
      .ok ⟨true,
            { c9WitnessState with
                systemProgressed := max 0 (c9WitnessState.systemProgressed - 1),
                subtasks :=
                  listModify (fun t => { t with checkPoint := 0 }) 0
                    c9WitnessState.subtasks }⟩ :=
  (((C9_pause_spec c9WitnessState 0 (by unfold PauseWf; decide) 0 rfl (by decide)).2
    (by decide)).2 (by decide)).1 (Or.inl ⟨1, by decide⟩)


/-! ## Claim C7: the many-to-many barrier -/

theorem mmCount_update (s : MMState n) (i : Fin n) (v : MMThread)
    (P : MMThread → Prop) [DecidablePred P] :
    mmCount (s.setThr i v) P + (if P (s.thr i) then 1 else 0) =
      mmCount s P + (if P v then 1 else 0) := by
  unfold mmCount MMState.setThr
  simp only []
  rw [show (Finset.univ : Finset (Fin n)) = insert i (Finset.univ.erase i) from
    (Finset.insert_erase (Finset.mem_univ i)).symm]
  rw [Finset.filter_insert, Finset.filter_insert]
  have herase : (Finset.univ.erase i).filter (fun j => P (Function.update s.thr i v j)) =
      (Finset.univ.erase i).filter (fun j => P (s.thr j)) := by
    apply Finset.filter_congr
    intro j hj
    rw [Function.update_noteq (Finset.ne_of_mem_erase hj)]
  have hni : i ∉ (Finset.univ.erase i).filter (fun j => P (Function.update s.thr i v j)) :=
    fun h => (Finset.mem_erase.mp (Finset.mem_filter.mp h).1).1 rfl
  have hni2 : i ∉ (Finset.univ.erase i).filter (fun j => P (s.thr j)) :=
    fun h => (Finset.mem_erase.mp (Finset.mem_filter.mp h).1).1 rfl
  by_cases hv : P v <;> by_cases hi : P (s.thr i) <;>
    simp [Function.update_same, hv, hi, herase, Finset.card_insert_of_not_mem, hni, hni2]

theorem mmCount_le (s : MMState n) (P : MMThread → Prop) [DecidablePred P] :
    mmCount s P ≤ n := by
  unfold mmCount
  calc (Finset.univ.filter fun i => P (s.thr i)).card
      ≤ (Finset.univ : Finset (Fin n)).card := Finset.card_filter_le _ _
    _ = n := by simp

theorem mmCount_pos (s : MMState n) (P : MMThread → Prop) [DecidablePred P]
    (i : Fin n) (h : P (s.thr i)) : 0 < mmCount s P := by
  unfold mmCount
  apply Finset.card_pos.mpr
  exact ⟨i, Finset.mem_filter.mpr ⟨Finset.mem_univ i, h⟩⟩

theorem mmCount_full (s : MMState n) (P : MMThread → Prop) [DecidablePred P]
    (h : mmCount s P = n) : ∀ j : Fin n, P (s.thr j) := by
  intro j
  unfold mmCount at h
  have huniv : (Finset.univ.filter fun i => P (s.thr i)) = Finset.univ := by
    apply Finset.eq_of_subset_of_card_le (Finset.filter_subset _ _)
    simp [h]
  have := huniv ▸ Finset.mem_univ j
  exact (Finset.mem_filter.mp this).2

theorem mmCount_congr (s : MMState n) (P Q : MMThread → Prop)
    [DecidablePred P] [DecidablePred Q] (h : ∀ t, P t ↔ Q t) :
    mmCount s P = mmCount s Q := by
  unfold mmCount
  apply Finset.card_congr (fun a _ => a) <;> simp_all

/-- The barrier invariant holds initially. -/
theorem MMInv_init (n : Nat) (hn : 1 ≤ n) : MMInv n (mmInit n) := by
  refine ⟨0, ?_, ?_, ?_, ?_, ?_, ?_, ?_, ?_⟩
  · intro i; left; rfl
  · exact ⟨⟨0, by omega⟩, rfl⟩
  · intro i h; simp [mmInit] at h
  · have : ¬∃ i : Fin n, ((mmInit n).thr i).round = 0 ∧
        ((mmInit n).thr i).phase = MMPhase.resetReleased := by
      rintro ⟨i, _, h⟩
      simp [mmInit] at h
    rw [if_neg this]
    have : mmCount (mmInit n) (mmArrivedAt 0) = 0 := by
      unfold mmCount
      apply Finset.card_eq_zero.mpr
      apply Finset.filter_eq_empty_iff.mpr
      intro i _
      simp [mmInit, mmArrivedAt, MMThread.hasArrived]
    rw [this]
    rfl
  · have : mmCount (mmInit n) (mmReleasedAt 0) = 0 := by
      unfold mmCount
      apply Finset.card_eq_zero.mpr
      apply Finset.filter_eq_empty_iff.mpr
      intro i _
      simp [mmInit, mmReleasedAt, MMThread.hasReleased]
    rw [this]
    rfl
  · rintro (⟨i, _, h⟩ | ⟨i, h⟩)
    · rcases h with h | h | h <;> simp [mmInit] at h
    · simp [mmInit] at h
  · rintro i ⟨_, h⟩
    rcases h with h | h <;> simp [mmInit] at h
  · rintro i j ⟨_, h⟩ _
    rcases h with h | h <;> simp [mmInit] at h


theorem mmCount_le_of_not (s : MMState n) (P : MMThread → Prop) [DecidablePred P]
    (i : Fin n) (h : ¬P (s.thr i)) : mmCount s P ≤ n - 1 := by
  unfold mmCount
  have hsub : (Finset.univ.filter fun j => P (s.thr j)) ⊆ Finset.univ.erase i := by
    intro j hj
    rcases Finset.mem_filter.mp hj with ⟨_, hpj⟩
    apply Finset.mem_erase.mpr
    refine ⟨?_, Finset.mem_univ j⟩
    rintro rfl
    exact h hpj
  calc (Finset.univ.filter fun j => P (s.thr j)).card
      ≤ (Finset.univ.erase i).card := Finset.card_le_card hsub
    _ = n - 1 := by simp [Finset.card_erase_of_mem]

theorem mmCount_ge_of_forall (s : MMState n) (P : MMThread → Prop) [DecidablePred P]
    (i : Fin n) (h : ∀ j, j ≠ i → P (s.thr j)) : n - 1 ≤ mmCount s P := by
  unfold mmCount
  have hsub : Finset.univ.erase i ⊆ (Finset.univ.filter fun j => P (s.thr j)) := by
    intro j hj
    exact Finset.mem_filter.mpr ⟨Finset.mem_univ j, h j (Finset.mem_erase.mp hj).1⟩
  calc n - 1 = (Finset.univ.erase i).card := by simp [Finset.card_erase_of_mem]
    _ ≤ _ := Finset.card_le_card hsub

/-- One step of the barrier preserves the invariant. -/
theorem MMInv_step {n : Nat} {s s' : MMState n} (hn : 1 ≤ n)
    (hinv : MMInv n s) (hstep : MMStep n s s') : MMInv n s' := by
  obtain ⟨m, hI0, hmin, hI1, hI2, hI3, hI4, hI5, hI6⟩ := hinv
  have hround_m : ∀ j : Fin n, (s.thr j).phase ≠ .relCheck → (s.thr j).round = m := by
    intro j hj
    rcases hI0 j with h | h
    · exact h
    · exact absurd (hI1 j h) hj
  cases hstep with
  | passRelCheck i hp hr =>
    have hR0 : mmCount s (mmReleasedAt m) = 0 := by rw [← hI3, hr]
    have hnone : ∀ j, ¬mmReleasedAt m (s.thr j) := by
      intro j hj
      have := mmCount_pos s (mmReleasedAt m) j hj
      omega
    have hrm : (s.thr i).round = m := by
      rcases hI0 i with h | h
      · exact h
      · exact absurd (Or.inr h) (hnone i)
    have hnoreset : ∀ j, ¬((s.thr j).round = m ∧ (s.thr j).phase = MMPhase.resetReleased) := by
      rintro j ⟨hjm, hjp⟩
      have := hI5 j ⟨hjm, Or.inr hjp⟩
      omega
    have hnoant : ¬((∃ j : Fin n, (s.thr j).round = m ∧
        ((s.thr j).phase = .relInc ∨ (s.thr j).phase = .resetWaiting ∨
         (s.thr j).phase = .resetReleased)) ∨ (∃ j : Fin n, (s.thr j).round = m + 1)) := by
      intro hant
      have hA := hI4 hant
      have := mmCount_full s (mmArrivedAt m) hA i
      rcases this with ⟨_, harr⟩ | hm1
      · rcases harr with h | h | h | h <;> rw [hp] at h <;> simp at h
      · omega
    rw [hrm]
    have hthr : ∀ j, ((s.setThr i { round := m, phase := MMPhase.waitInc }).thr j) =
        if j = i then { round := m, phase := MMPhase.waitInc } else s.thr j :=
      fun j => Function.update_apply s.thr i _ j
    have hresetS : ¬∃ j, (s.thr j).round = m ∧ (s.thr j).phase = MMPhase.resetReleased :=
      fun ⟨j, hj⟩ => hnoreset j hj
    have hA : mmCount (s.setThr i { round := m, phase := MMPhase.waitInc }) (mmArrivedAt m) =
        mmCount s (mmArrivedAt m) := by
      have h := mmCount_update s i { round := m, phase := MMPhase.waitInc } (mmArrivedAt m)
      have h1 : ¬mmArrivedAt m (s.thr i) := by
        simp [mmArrivedAt, MMThread.hasArrived, hp, hrm]
      have h2 : ¬mmArrivedAt m ({ round := m, phase := MMPhase.waitInc } : MMThread) := by
        simp [mmArrivedAt, MMThread.hasArrived]
      rw [if_neg h1, if_neg h2] at h
      omega
    have hR : mmCount (s.setThr i { round := m, phase := MMPhase.waitInc }) (mmReleasedAt m) =
        mmCount s (mmReleasedAt m) := by
      have h := mmCount_update s i { round := m, phase := MMPhase.waitInc } (mmReleasedAt m)
      have h1 : ¬mmReleasedAt m (s.thr i) := hnone i
      have h2 : ¬mmReleasedAt m ({ round := m, phase := MMPhase.waitInc } : MMThread) := by
        simp [mmReleasedAt, MMThread.hasReleased]
      rw [if_neg h1, if_neg h2] at h
      omega
    have hreset' : ¬∃ j, ((s.setThr i { round := m, phase := MMPhase.waitInc }).thr j).round = m ∧
        ((s.setThr i { round := m, phase := MMPhase.waitInc }).thr j).phase =
          MMPhase.resetReleased := by
      rintro ⟨j, hj⟩
      rw [hthr j] at hj
      by_cases hji : j = i
      · rw [if_pos hji] at hj
        simp at hj
      · rw [if_neg hji] at hj
        exact hnoreset j hj
    refine ⟨m, ?_, ⟨i, ?_⟩, ?_, ?_, ?_, ?_, ?_, ?_⟩
    · intro j
      rw [hthr j]
      by_cases hj : j = i
      · rw [if_pos hj]
        exact Or.inl rfl
      · rw [if_neg hj]
        exact hI0 j
    · rw [hthr i, if_pos rfl]
    · intro j hj
      rw [hthr j] at hj ⊢
      by_cases hji : j = i
      · rw [if_pos hji] at hj
        simp at hj
      · rw [if_neg hji] at hj ⊢
        exact hI1 j hj
    · show s.waiting = _
      rw [if_neg hreset', hA]
      rw [if_neg hresetS] at hI2
      exact hI2
    · show s.released = _
      rw [hR]
      exact hI3
    · intro hant
      exfalso
      apply hnoant
      rcases hant with ⟨j, hj⟩ | ⟨j, hj⟩
      · rw [hthr j] at hj
        by_cases hji : j = i
        · rw [if_pos hji] at hj
          rcases hj.2 with h | h | h <;> simp at h
        · rw [if_neg hji] at hj
          exact Or.inl ⟨j, hj⟩
      · rw [hthr j] at hj
        by_cases hji : j = i
        · rw [if_pos hji] at hj
          simp at hj
        · rw [if_neg hji] at hj
          exact Or.inr ⟨j, hj⟩
    · intro j hj
      exfalso
      rw [hthr j] at hj
      by_cases hji : j = i
      · rw [if_pos hji] at hj
        rcases hj.2 with h | h <;> simp at h
      · rw [if_neg hji] at hj
        exact hnone j (Or.inl hj)
    · intro j k hj hk
      rw [hthr j] at hj
      rw [hthr k] at hk
      by_cases hji : j = i
      · rw [if_pos hji] at hj
        rcases hj.2 with h | h <;> simp at h
      · by_cases hki : k = i
        · rw [if_pos hki] at hk
          rcases hk.2 with h | h <;> simp at h
        · rw [if_neg hji] at hj
          rw [if_neg hki] at hk
          exact hI6 j k hj hk
  | incWaiting i hp =>
    have hrm : (s.thr i).round = m := hround_m i (by rw [hp]; simp)
    have hnoant : ¬((∃ j : Fin n, (s.thr j).round = m ∧
        ((s.thr j).phase = .relInc ∨ (s.thr j).phase = .resetWaiting ∨
         (s.thr j).phase = .resetReleased)) ∨ (∃ j : Fin n, (s.thr j).round = m + 1)) := by
      intro hant
      have hA := hI4 hant
      have := mmCount_full s (mmArrivedAt m) hA i
      rcases this with ⟨_, harr⟩ | hm1
      · rcases harr with h | h | h | h <;> rw [hp] at h <;> simp at h
      · omega
    have hnoreset : ∀ j, ¬((s.thr j).round = m ∧ (s.thr j).phase = MMPhase.resetReleased) := by
      rintro j ⟨h1, h2⟩
      exact hnoant (Or.inl ⟨j, h1, Or.inr (Or.inr h2)⟩)
    have hresetS : ¬∃ j, (s.thr j).round = m ∧ (s.thr j).phase = MMPhase.resetReleased :=
      fun ⟨j, hj⟩ => hnoreset j hj
    have hnoRel : ∀ j, ¬((s.thr j).round = m ∧ (s.thr j).hasReleased) := by
      rintro j ⟨h1, h2⟩
      exact hnoant (Or.inl ⟨j, h1, Or.inr h2⟩)
    rw [hrm]
    have hthr : ∀ j, (({ s.setThr i { round := m, phase := MMPhase.waitCheck } with
        waiting := s.waiting + 1 } : MMState n).thr j) =
        if j = i then { round := m, phase := MMPhase.waitCheck } else s.thr j :=
      fun j => Function.update_apply s.thr i _ j
    have hA : mmCount ({ s.setThr i { round := m, phase := MMPhase.waitCheck } with
        waiting := s.waiting + 1 } : MMState n) (mmArrivedAt m) =
        mmCount s (mmArrivedAt m) + 1 := by
      have h := mmCount_update s i { round := m, phase := MMPhase.waitCheck } (mmArrivedAt m)
      have h1 : ¬mmArrivedAt m (s.thr i) := by
        simp [mmArrivedAt, MMThread.hasArrived, hp, hrm]
      have h2 : mmArrivedAt m ({ round := m, phase := MMPhase.waitCheck } : MMThread) := by
        simp [mmArrivedAt, MMThread.hasArrived]
      rw [if_neg h1, if_pos h2] at h
      have hsame : mmCount ({ s.setThr i { round := m, phase := MMPhase.waitCheck } with
          waiting := s.waiting + 1 } : MMState n) (mmArrivedAt m) =
          mmCount (s.setThr i { round := m, phase := MMPhase.waitCheck }) (mmArrivedAt m) := rfl
      omega
    have hR : mmCount ({ s.setThr i { round := m, phase := MMPhase.waitCheck } with
        waiting := s.waiting + 1 } : MMState n) (mmReleasedAt m) =
        mmCount s (mmReleasedAt m) := by
      have h := mmCount_update s i { round := m, phase := MMPhase.waitCheck } (mmReleasedAt m)
      have h1 : ¬mmReleasedAt m (s.thr i) := by
        simp [mmReleasedAt, MMThread.hasReleased, hp, hrm]
      have h2 : ¬mmReleasedAt m ({ round := m, phase := MMPhase.waitCheck } : MMThread) := by
        simp [mmReleasedAt, MMThread.hasReleased]
      rw [if_neg h1, if_neg h2] at h
      have hsame : mmCount ({ s.setThr i { round := m, phase := MMPhase.waitCheck } with
          waiting := s.waiting + 1 } : MMState n) (mmReleasedAt m) =
          mmCount (s.setThr i { round := m, phase := MMPhase.waitCheck }) (mmReleasedAt m) := rfl
      omega
    have hreset' : ¬∃ j, (({ s.setThr i { round := m, phase := MMPhase.waitCheck } with
        waiting := s.waiting + 1 } : MMState n).thr j).round = m ∧
        (({ s.setThr i { round := m, phase := MMPhase.waitCheck } with
        waiting := s.waiting + 1 } : MMState n).thr j).phase = MMPhase.resetReleased := by
      rintro ⟨j, hj⟩
      rw [hthr j] at hj
      by_cases hji : j = i
      · rw [if_pos hji] at hj
        simp at hj
      · rw [if_neg hji] at hj
        exact hnoreset j hj
    refine ⟨m, ?_, ⟨i, ?_⟩, ?_, ?_, ?_, ?_, ?_, ?_⟩
    · intro j
      rw [hthr j]
      by_cases hj : j = i
      · rw [if_pos hj]
        exact Or.inl rfl
      · rw [if_neg hj]
        exact hI0 j
    · rw [hthr i, if_pos rfl]
    · intro j hj
      rw [hthr j] at hj ⊢
      by_cases hji : j = i
      · rw [if_pos hji] at hj
        simp at hj
      · rw [if_neg hji] at hj ⊢
        exact hI1 j hj
    · show s.waiting + 1 = _
      rw [if_neg hreset', hA]
      rw [if_neg hresetS] at hI2
      omega
    · show s.released = _
      rw [hR]
      exact hI3
    · intro hant
      exfalso
      apply hnoant
      rcases hant with ⟨j, hj⟩ | ⟨j, hj⟩
      · rw [hthr j] at hj
        by_cases hji : j = i
        · rw [if_pos hji] at hj
          rcases hj.2 with h | h | h <;> simp at h
        · rw [if_neg hji] at hj
          exact Or.inl ⟨j, hj⟩
      · rw [hthr j] at hj
        by_cases hji : j = i
        · rw [if_pos hji] at hj
          simp at hj
        · rw [if_neg hji] at hj
          exact Or.inr ⟨j, hj⟩
    · intro j hj
      exfalso
      rw [hthr j] at hj
      by_cases hji : j = i
      · rw [if_pos hji] at hj
        rcases hj.2 with h | h <;> simp at h
      · rw [if_neg hji] at hj
        exact hnoRel j hj
    · intro j k hj hk
      exfalso
      rw [hthr j] at hj
      by_cases hji : j = i
      · rw [if_pos hji] at hj
        rcases hj.2 with h | h <;> simp at h
      · rw [if_neg hji] at hj
        exact hnoRel j hj
  | passWaitCheck i hp hw =>
    have hrm : (s.thr i).round = m := hround_m i (by rw [hp]; simp)
    have hresetS : ¬∃ j, (s.thr j).round = m ∧ (s.thr j).phase = MMPhase.resetReleased := by
      intro hex
      rw [if_pos hex] at hI2
      omega
    have hA_n : mmCount s (mmArrivedAt m) = n := by
      rw [if_neg hresetS] at hI2
      omega
    rw [hrm]
    have hthr : ∀ j, ((s.setThr i { round := m, phase := MMPhase.relInc }).thr j) =
        if j = i then { round := m, phase := MMPhase.relInc } else s.thr j :=
      fun j => Function.update_apply s.thr i _ j
    have hA : mmCount (s.setThr i { round := m, phase := MMPhase.relInc }) (mmArrivedAt m) =
        mmCount s (mmArrivedAt m) := by
      have h := mmCount_update s i { round := m, phase := MMPhase.relInc } (mmArrivedAt m)
      have h1 : mmArrivedAt m (s.thr i) := by
        simp [mmArrivedAt, MMThread.hasArrived, hp, hrm]
      have h2 : mmArrivedAt m ({ round := m, phase := MMPhase.relInc } : MMThread) := by
        simp [mmArrivedAt, MMThread.hasArrived]
      rw [if_pos h1, if_pos h2] at h
      omega
    have hR : mmCount (s.setThr i { round := m, phase := MMPhase.relInc }) (mmReleasedAt m) =
        mmCount s (mmReleasedAt m) := by
      have h := mmCount_update s i { round := m, phase := MMPhase.relInc } (mmReleasedAt m)
      have h1 : ¬mmReleasedAt m (s.thr i) := by
        simp [mmReleasedAt, MMThread.hasReleased, hp, hrm]
      have h2 : ¬mmReleasedAt m ({ round := m, phase := MMPhase.relInc } : MMThread) := by
        simp [mmReleasedAt, MMThread.hasReleased]
      rw [if_neg h1, if_neg h2] at h
      omega
    have hreset' : ¬∃ j, ((s.setThr i { round := m, phase := MMPhase.relInc }).thr j).round = m ∧
        ((s.setThr i { round := m, phase := MMPhase.relInc }).thr j).phase =
          MMPhase.resetReleased := by
      rintro ⟨j, hj⟩
      rw [hthr j] at hj
      by_cases hji : j = i
      · rw [if_pos hji] at hj
        simp at hj
      · rw [if_neg hji] at hj
        exact hresetS ⟨j, hj⟩
    refine ⟨m, ?_, ⟨i, ?_⟩, ?_, ?_, ?_, ?_, ?_, ?_⟩
    · intro j
      rw [hthr j]
      by_cases hj : j = i
      · rw [if_pos hj]
        exact Or.inl rfl
      · rw [if_neg hj]
        exact hI0 j
    · rw [hthr i, if_pos rfl]
    · intro j hj
      rw [hthr j] at hj ⊢
      by_cases hji : j = i
      · rw [if_pos hji] at hj
        simp at hj
      · rw [if_neg hji] at hj ⊢
        exact hI1 j hj
    · show s.waiting = _
      rw [if_neg hreset', hA, hA_n, hw]
    · show s.released = _
      rw [hR]
      exact hI3
    · intro _
      rw [hA]
      exact hA_n
    · intro j hj
      rw [hthr j] at hj
      by_cases hji : j = i
      · rw [if_pos hji] at hj
        exfalso
        rcases hj.2 with h | h <;> simp at h
      · rw [if_neg hji] at hj
        rw [hR]
        exact hI5 j hj
    · intro j k hj hk
      rw [hthr j] at hj
      rw [hthr k] at hk
      by_cases hji : j = i
      · rw [if_pos hji] at hj
        exfalso
        rcases hj.2 with h | h <;> simp at h
      · by_cases hki : k = i
        · rw [if_pos hki] at hk
          exfalso
          rcases hk.2 with h | h <;> simp at h
        · rw [if_neg hji] at hj
          rw [if_neg hki] at hk
          exact hI6 j k hj hk
  | incReleasedLast i hp hobs =>
    have hrm : (s.thr i).round = m := hround_m i (by rw [hp]; simp)
    have hA_n : mmCount s (mmArrivedAt m) = n := hI4 (Or.inl ⟨i, hrm, Or.inl hp⟩)
    have hRn1 : mmCount s (mmReleasedAt m) = n - 1 := by rw [← hI3, hobs]
    have hnoRel : ∀ j, ¬((s.thr j).round = m ∧ (s.thr j).hasReleased) := by
      rintro j ⟨h1, h2⟩
      have := hI5 j ⟨h1, h2⟩
      omega
    have hresetS : ¬∃ j, (s.thr j).round = m ∧ (s.thr j).phase = MMPhase.resetReleased := by
      rintro ⟨j, h1, h2⟩
      exact hnoRel j ⟨h1, Or.inr h2⟩
    rw [hrm]
    have hthr : ∀ j, (({ s.setThr i { round := m, phase := MMPhase.resetWaiting } with
        released := s.released + 1 } : MMState n).thr j) =
        if j = i then { round := m, phase := MMPhase.resetWaiting } else s.thr j :=
      fun j => Function.update_apply s.thr i _ j
    have hA : mmCount ({ s.setThr i { round := m, phase := MMPhase.resetWaiting } with
        released := s.released + 1 } : MMState n) (mmArrivedAt m) =
        mmCount s (mmArrivedAt m) := by
      have h := mmCount_update s i { round := m, phase := MMPhase.resetWaiting } (mmArrivedAt m)
      have h1 : mmArrivedAt m (s.thr i) := by
        simp [mmArrivedAt, MMThread.hasArrived, hp, hrm]
      have h2 : mmArrivedAt m ({ round := m, phase := MMPhase.resetWaiting } : MMThread) := by
        simp [mmArrivedAt, MMThread.hasArrived]
      rw [if_pos h1, if_pos h2] at h
      have hsame : mmCount ({ s.setThr i { round := m, phase := MMPhase.resetWaiting } with
          released := s.released + 1 } : MMState n) (mmArrivedAt m) =
          mmCount (s.setThr i { round := m, phase := MMPhase.resetWaiting }) (mmArrivedAt m) :=
        rfl
      omega
    have hR : mmCount ({ s.setThr i { round := m, phase := MMPhase.resetWaiting } with
        released := s.released + 1 } : MMState n) (mmReleasedAt m) =
        mmCount s (mmReleasedAt m) + 1 := by
      have h := mmCount_update s i { round := m, phase := MMPhase.resetWaiting } (mmReleasedAt m)
      have h1 : ¬mmReleasedAt m (s.thr i) := by
        simp [mmReleasedAt, MMThread.hasReleased, hp, hrm]
      have h2 : mmReleasedAt m ({ round := m, phase := MMPhase.resetWaiting } : MMThread) := by
        simp [mmReleasedAt, MMThread.hasReleased]
      rw [if_neg h1, if_pos h2] at h
      have hsame : mmCount ({ s.setThr i { round := m, phase := MMPhase.resetWaiting } with
          released := s.released + 1 } : MMState n) (mmReleasedAt m) =
          mmCount (s.setThr i { round := m, phase := MMPhase.resetWaiting }) (mmReleasedAt m) :=
        rfl
      omega
    have hreset' : ¬∃ j, (({ s.setThr i { round := m, phase := MMPhase.resetWaiting } with
        released := s.released + 1 } : MMState n).thr j).round = m ∧
        (({ s.setThr i { round := m, phase := MMPhase.resetWaiting } with
        released := s.released + 1 } : MMState n).thr j).phase = MMPhase.resetReleased := by
      rintro ⟨j, hj⟩
      rw [hthr j] at hj
      by_cases hji : j = i
      · rw [if_pos hji] at hj
        simp at hj
      · rw [if_neg hji] at hj
        exact hresetS ⟨j, hj⟩
    refine ⟨m, ?_, ⟨i, ?_⟩, ?_, ?_, ?_, ?_, ?_, ?_⟩
    · intro j
      rw [hthr j]
      by_cases hj : j = i
      · rw [if_pos hj]
        exact Or.inl rfl
      · rw [if_neg hj]
        exact hI0 j
    · rw [hthr i, if_pos rfl]
    · intro j hj
      rw [hthr j] at hj ⊢
      by_cases hji : j = i
      · rw [if_pos hji] at hj
        simp at hj
      · rw [if_neg hji] at hj ⊢
        exact hI1 j hj
    · show s.waiting = _
      rw [if_neg hreset', hA]
      rw [if_neg hresetS] at hI2
      exact hI2
    · show s.released + 1 = _
      rw [hR]
      omega
    · intro _
      rw [hA]
      exact hA_n
    · intro j _
      rw [hR]
      omega
    · intro j k hj hk
      rw [hthr j] at hj
      rw [hthr k] at hk
      by_cases hji : j = i
      · by_cases hki : k = i
        · rw [hji, hki]
        · rw [if_neg hki] at hk
          exact absurd hk (hnoRel k)
      · rw [if_neg hji] at hj
        exact absurd hj (hnoRel j)
  | incReleasedNotLast i hp hobs =>
    have hrm : (s.thr i).round = m := hround_m i (by rw [hp]; simp)
    have hA_n : mmCount s (mmArrivedAt m) = n := hI4 (Or.inl ⟨i, hrm, Or.inl hp⟩)
    have hnotrel : ¬mmReleasedAt m (s.thr i) := by
      simp [mmReleasedAt, MMThread.hasReleased, hp, hrm]
    have hRle : mmCount s (mmReleasedAt m) ≤ n - 1 :=
      mmCount_le_of_not s (mmReleasedAt m) i hnotrel
    have hRne : mmCount s (mmReleasedAt m) ≠ n - 1 := by
      rw [← hI3]
      exact hobs
    have hnoRel : ∀ j, ¬((s.thr j).round = m ∧ (s.thr j).hasReleased) := by
      rintro j ⟨h1, h2⟩
      have := hI5 j ⟨h1, h2⟩
      omega
    have hresetS : ¬∃ j, (s.thr j).round = m ∧ (s.thr j).phase = MMPhase.resetReleased := by
      rintro ⟨j, h1, h2⟩
      exact hnoRel j ⟨h1, Or.inr h2⟩
    have hex : ∃ j, j ≠ i ∧ (s.thr j).round = m := by
      by_contra hc
      push_neg at hc
      have hall : ∀ j, j ≠ i → mmReleasedAt m (s.thr j) := by
        intro j hj
        rcases hI0 j with h | h
        · exact absurd h (hc j hj)
        · exact Or.inr h
      have := mmCount_ge_of_forall s (mmReleasedAt m) i hall
      omega
    rw [hrm]
    have hthr : ∀ j, (({ s.setThr i { round := m + 1, phase := MMPhase.relCheck } with
        released := s.released + 1 } : MMState n).thr j) =
        if j = i then { round := m + 1, phase := MMPhase.relCheck } else s.thr j :=
      fun j => Function.update_apply s.thr i _ j
    have hA : mmCount ({ s.setThr i { round := m + 1, phase := MMPhase.relCheck } with
        released := s.released + 1 } : MMState n) (mmArrivedAt m) =
        mmCount s (mmArrivedAt m) := by
      have h := mmCount_update s i { round := m + 1, phase := MMPhase.relCheck } (mmArrivedAt m)
      have h1 : mmArrivedAt m (s.thr i) := by
        simp [mmArrivedAt, MMThread.hasArrived, hp, hrm]
      have h2 : mmArrivedAt m ({ round := m + 1, phase := MMPhase.relCheck } : MMThread) :=
        Or.inr rfl
      rw [if_pos h1, if_pos h2] at h
      have hsame : mmCount ({ s.setThr i { round := m + 1, phase := MMPhase.relCheck } with
          released := s.released + 1 } : MMState n) (mmArrivedAt m) =
          mmCount (s.setThr i { round := m + 1, phase := MMPhase.relCheck }) (mmArrivedAt m) :=
        rfl
      omega
    have hR : mmCount ({ s.setThr i { round := m + 1, phase := MMPhase.relCheck } with
        released := s.released + 1 } : MMState n) (mmReleasedAt m) =
        mmCount s (mmReleasedAt m) + 1 := by
      have h := mmCount_update s i { round := m + 1, phase := MMPhase.relCheck } (mmReleasedAt m)
      have h2 : mmReleasedAt m ({ round := m + 1, phase := MMPhase.relCheck } : MMThread) :=
        Or.inr rfl
      rw [if_neg hnotrel, if_pos h2] at h
      have hsame : mmCount ({ s.setThr i { round := m + 1, phase := MMPhase.relCheck } with
          released := s.released + 1 } : MMState n) (mmReleasedAt m) =
          mmCount (s.setThr i { round := m + 1, phase := MMPhase.relCheck }) (mmReleasedAt m) :=
        rfl
      omega
    have hreset' : ¬∃ j, (({ s.setThr i { round := m + 1, phase := MMPhase.relCheck } with
        released := s.released + 1 } : MMState n).thr j).round = m ∧
        (({ s.setThr i { round := m + 1, phase := MMPhase.relCheck } with
        released := s.released + 1 } : MMState n).thr j).phase = MMPhase.resetReleased := by
      rintro ⟨j, hj⟩
      rw [hthr j] at hj
      by_cases hji : j = i
      · rw [if_pos hji] at hj
        simp at hj
      · rw [if_neg hji] at hj
        exact hresetS ⟨j, hj⟩
    obtain ⟨j0, hj0ne, hj0m⟩ := hex
    refine ⟨m, ?_, ⟨j0, ?_⟩, ?_, ?_, ?_, ?_, ?_, ?_⟩
    · intro j
      rw [hthr j]
      by_cases hj : j = i
      · rw [if_pos hj]
        exact Or.inr rfl
      · rw [if_neg hj]
        exact hI0 j
    · rw [hthr j0, if_neg hj0ne]
      exact hj0m
    · intro j hj
      rw [hthr j] at hj ⊢
      by_cases hji : j = i
      · rw [if_pos hji]
      · rw [if_neg hji] at hj ⊢
        exact hI1 j hj
    · show s.waiting = _
      rw [if_neg hreset', hA]
      rw [if_neg hresetS] at hI2
      exact hI2
    · show s.released + 1 = _
      rw [hR, hI3]
    · intro _
      rw [hA]
      exact hA_n
    · intro j hj
      exfalso
      rw [hthr j] at hj
      by_cases hji : j = i
      · rw [if_pos hji] at hj
        have := hj.1
        simp at this
      · rw [if_neg hji] at hj
        exact hnoRel j hj
    · intro j k hj hk
      exfalso
      rw [hthr j] at hj
      by_cases hji : j = i
      · rw [if_pos hji] at hj
        have := hj.1
        simp at this
      · rw [if_neg hji] at hj
        exact hnoRel j hj
  | storeWaitingZero i hp =>
    have hrm : (s.thr i).round = m := hround_m i (by rw [hp]; simp)
    have hRn : mmCount s (mmReleasedAt m) = n := hI5 i ⟨hrm, Or.inl hp⟩
    have hA_n : mmCount s (mmArrivedAt m) = n := hI4 (Or.inl ⟨i, hrm, Or.inr (Or.inl hp)⟩)
    rw [hrm]
    have hthr : ∀ j, (({ s.setThr i { round := m, phase := MMPhase.resetReleased } with
        waiting := 0 } : MMState n).thr j) =
        if j = i then { round := m, phase := MMPhase.resetReleased } else s.thr j :=
      fun j => Function.update_apply s.thr i _ j
    have hA : mmCount ({ s.setThr i { round := m, phase := MMPhase.resetReleased } with
        waiting := 0 } : MMState n) (mmArrivedAt m) = mmCount s (mmArrivedAt m) := by
      have h := mmCount_update s i { round := m, phase := MMPhase.resetReleased } (mmArrivedAt m)
      have h1 : mmArrivedAt m (s.thr i) := by
        simp [mmArrivedAt, MMThread.hasArrived, hp, hrm]
      have h2 : mmArrivedAt m ({ round := m, phase := MMPhase.resetReleased } : MMThread) := by
        simp [mmArrivedAt, MMThread.hasArrived]
      rw [if_pos h1, if_pos h2] at h
      have hsame : mmCount ({ s.setThr i { round := m, phase := MMPhase.resetReleased } with
          waiting := 0 } : MMState n) (mmArrivedAt m) =
          mmCount (s.setThr i { round := m, phase := MMPhase.resetReleased }) (mmArrivedAt m) :=
        rfl
      omega
    have hR : mmCount ({ s.setThr i { round := m, phase := MMPhase.resetReleased } with
        waiting := 0 } : MMState n) (mmReleasedAt m) = mmCount s (mmReleasedAt m) := by
      have h := mmCount_update s i { round := m, phase := MMPhase.resetReleased } (mmReleasedAt m)
      have h1 : mmReleasedAt m (s.thr i) := by
        simp [mmReleasedAt, MMThread.hasReleased, hp, hrm]
      have h2 : mmReleasedAt m ({ round := m, phase := MMPhase.resetReleased } : MMThread) := by
        simp [mmReleasedAt, MMThread.hasReleased]
      rw [if_pos h1, if_pos h2] at h
      have hsame : mmCount ({ s.setThr i { round := m, phase := MMPhase.resetReleased } with
          waiting := 0 } : MMState n) (mmReleasedAt m) =
          mmCount (s.setThr i { round := m, phase := MMPhase.resetReleased }) (mmReleasedAt m) :=
        rfl
      omega
    refine ⟨m, ?_, ⟨i, ?_⟩, ?_, ?_, ?_, ?_, ?_, ?_⟩
    · intro j
      rw [hthr j]
      by_cases hj : j = i
      · rw [if_pos hj]
        exact Or.inl rfl
      · rw [if_neg hj]
        exact hI0 j
    · rw [hthr i, if_pos rfl]
    · intro j hj
      rw [hthr j] at hj ⊢
      by_cases hji : j = i
      · rw [if_pos hji] at hj
        simp at hj
      · rw [if_neg hji] at hj ⊢
        exact hI1 j hj
    · show (0 : Nat) = _
      rw [if_pos ?hcond]
      case hcond =>
        refine ⟨i, ?_⟩
        rw [hthr i, if_pos rfl]
        exact ⟨rfl, rfl⟩
    · show s.released = _
      rw [hR]
      exact hI3
    · intro _
      rw [hA]
      exact hA_n
    · intro j _
      rw [hR]
      exact hRn
    · intro j k hj hk
      rw [hthr j] at hj
      rw [hthr k] at hk
      by_cases hji : j = i
      · by_cases hki : k = i
        · rw [hji, hki]
        · rw [if_neg hki] at hk
          exact absurd (hI6 k i hk ⟨hrm, Or.inl hp⟩) hki
      · rw [if_neg hji] at hj
        exact absurd (hI6 j i hj ⟨hrm, Or.inl hp⟩) hji
  | storeReleasedZero i hp =>
    have hrm : (s.thr i).round = m := hround_m i (by rw [hp]; simp)
    have hRn : mmCount s (mmReleasedAt m) = n := hI5 i ⟨hrm, Or.inr hp⟩
    have hall : ∀ j, mmReleasedAt m (s.thr j) :=
      mmCount_full s (mmReleasedAt m) hRn
    have hothers : ∀ j, j ≠ i → (s.thr j).round = m + 1 := by
      intro j hj
      rcases hall j with ⟨h1, h2⟩ | h
      · exact absurd (hI6 j i ⟨h1, h2⟩ ⟨hrm, Or.inr hp⟩) hj
      · exact h
    have hophase : ∀ j, j ≠ i → (s.thr j).phase = MMPhase.relCheck := by
      intro j hj
      exact hI1 j (hothers j hj)
    rw [hrm]
    have hthr : ∀ j, (({ s.setThr i { round := m + 1, phase := MMPhase.relCheck } with
        released := 0 } : MMState n).thr j) =
        if j = i then { round := m + 1, phase := MMPhase.relCheck } else s.thr j :=
      fun j => Function.update_apply s.thr i _ j
    have hallthr : ∀ j, (({ s.setThr i { round := m + 1, phase := MMPhase.relCheck } with
        released := 0 } : MMState n).thr j).round = m + 1 ∧
        (({ s.setThr i { round := m + 1, phase := MMPhase.relCheck } with
        released := 0 } : MMState n).thr j).phase = MMPhase.relCheck := by
      intro j
      rw [hthr j]
      by_cases hj : j = i
      · rw [if_pos hj]
        exact ⟨rfl, rfl⟩
      · rw [if_neg hj]
        exact ⟨hothers j hj, hophase j hj⟩
    have hwait0 : s.waiting = 0 := by
      rw [if_pos ⟨i, hrm, hp⟩] at hI2
      exact hI2
    have hA0 : mmCount ({ s.setThr i { round := m + 1, phase := MMPhase.relCheck } with
        released := 0 } : MMState n) (mmArrivedAt (m + 1)) = 0 := by
      unfold mmCount
      apply Finset.card_eq_zero.mpr
      apply Finset.filter_eq_empty_iff.mpr
      intro j _
      obtain ⟨h1, h2⟩ := hallthr j
      rintro (⟨_, harr⟩ | hm2)
      · rcases harr with h | h | h | h <;> rw [h2] at h <;> simp at h
      · omega
    have hR0 : mmCount ({ s.setThr i { round := m + 1, phase := MMPhase.relCheck } with
        released := 0 } : MMState n) (mmReleasedAt (m + 1)) = 0 := by
      unfold mmCount
      apply Finset.card_eq_zero.mpr
      apply Finset.filter_eq_empty_iff.mpr
      intro j _
      obtain ⟨h1, h2⟩ := hallthr j
      rintro (⟨_, hrel⟩ | hm2)
      · rcases hrel with h | h <;> rw [h2] at h <;> simp at h
      · omega
    refine ⟨m + 1, ?_, ⟨i, ?_⟩, ?_, ?_, ?_, ?_, ?_, ?_⟩
    · intro j
      exact Or.inl (hallthr j).1
    · exact (hallthr i).1
    · intro j hj
      have := (hallthr j).1
      omega
    · show s.waiting = _
      rw [if_neg ?hnr, hA0]
      · exact hwait0
      case hnr =>
        rintro ⟨j, _, hph⟩
        rw [(hallthr j).2] at hph
        simp at hph
    · show (0 : Nat) = _
      rw [hR0]
    · rintro (⟨j, _, hph⟩ | ⟨j, hj⟩)
      · exfalso
        rcases hph with h | h | h <;> rw [(hallthr j).2] at h <;> simp at h
      · exfalso
        have := (hallthr j).1
        omega
    · intro j hj
      exfalso
      rcases hj.2 with h | h <;> rw [(hallthr j).2] at h <;> simp at h
    · intro j k hj hk
      exfalso
      rcases hj.2 with h | h <;> rw [(hallthr j).2] at h <;> simp at h


/-- Field-wise extensionality for barrier states. -/
theorem mmState_ext {n : Nat} {a b : MMState n} (hw : a.waiting = b.waiting)
    (hr : a.released = b.released) (ht : ∀ j, a.thr j = b.thr j) : a = b := by
  cases a
  cases b
  simp only [MMState.mk.injEq]
  exact ⟨hw, hr, funext ht⟩

/-- C7: MMBarrier used by the same `n` threads in successive rounds
(`enter` modelled step by step as `MMStep`, with no external reset
between rounds).  In every reachable state: thread round counts never
drift more than one round apart; a thread that is inside `enter` (past
the initial `released == 0` check) is in the lowest current round — no
thread passes a round boundary before every thread of the previous round
has been released; the shared counters never exceed `n`, so each round
releases exactly `n` threads; and the resetting thread (the one that
observed `released == n-1`) only exists when all `n` release increments
of its round are in. -/
theorem C7_mmbarrier_rounds (n : Nat) (hn : 1 ≤ n) (s : MMState n)
    (hreach : MMReachable n s) :
    (∀ i j : Fin n, (s.thr i).round ≤ (s.thr j).round + 1) ∧
    (∀ i : Fin n, (s.thr i).phase ≠ MMPhase.relCheck →
      ∀ j : Fin n, (s.thr i).round ≤ (s.thr j).round) ∧
    s.waiting ≤ n ∧ s.released ≤ n ∧
    (∀ i : Fin n, (s.thr i).phase = MMPhase.resetWaiting → s.released = n) := by
  have hinv : MMInv n s := by
    induction hreach with
    | refl => exact MMInv_init n hn
    | tail hsteps hstep ih => exact MMInv_step hn ih hstep
  obtain ⟨m, hI0, hmin, hI1, hI2, hI3, hI4, hI5, hI6⟩ := hinv
  refine ⟨?_, ?_, ?_, ?_, ?_⟩
  · intro i j
    rcases hI0 i with h | h <;> rcases hI0 j with h2 | h2 <;> omega
  · intro i hph j
    have hi : (s.thr i).round = m := by
      rcases hI0 i with h | h
      · exact h
      · exact absurd (hI1 i h) hph
    rcases hI0 j with h2 | h2 <;> omega
  · by_cases he : ∃ i : Fin n, (s.thr i).round = m ∧ (s.thr i).phase = MMPhase.resetReleased
    · rw [if_pos he] at hI2
      omega
    · rw [if_neg he] at hI2
      rw [hI2]
      exact mmCount_le s _
  · rw [hI3]
    exact mmCount_le s _
  · intro i hph
    have hi : (s.thr i).round = m := by
      rcases hI0 i with h | h
      · exact h
      · have := hI1 i h
        rw [hph] at this
        simp at this
    rw [hI3]
    exact hI5 i ⟨hi, Or.inl hph⟩

/-- Witness for C7: an explicit interleaving of two threads through one
complete barrier round, reaching the reset state of round 1. -/
theorem C7_witness :
    (∀ i j : Fin 2, (mmWitnessFinal.thr i).round ≤ (mmWitnessFinal.thr j).round + 1) ∧
    mmWitnessFinal.waiting ≤ 2 ∧ mmWitnessFinal.released ≤ 2 := by
  have h0 : MMReachable 2 (mmInit 2) := Relation.ReflTransGen.refl
  have h1 := h0.tail (MMStep.passRelCheck (mmInit 2) 0 (by decide) (by decide))
  have h2 := h1.tail (MMStep.incWaiting _ 0 (by decide))
  have h3 := h2.tail (MMStep.passRelCheck _ 1 (by decide) (by decide))
  have h4 := h3.tail (MMStep.incWaiting _ 1 (by decide))
  have h5 := h4.tail (MMStep.passWaitCheck _ 0 (by decide) (by decide))
  have h6 := h5.tail (MMStep.incReleasedNotLast _ 0 (by decide) (by decide))
  have h7 := h6.tail (MMStep.passWaitCheck _ 1 (by decide) (by decide))
  have h8 := h7.tail (MMStep.incReleasedLast _ 1 (by decide) (by decide))
  have h9 := h8.tail (MMStep.storeWaitingZero _ 1 (by decide))
  have h10 := h9.tail (MMStep.storeReleasedZero _ 1 (by decide))
  have hfinal : MMReachable 2 mmWitnessFinal := by
    refine Eq.mp (congrArg (MMReachable 2) ?_) h10
    exact mmState_ext rfl rfl (by decide)
  obtain ⟨ha, _, hw, hr, _⟩ := C7_mmbarrier_rounds 2 (by omega) mmWitnessFinal hfinal
  exact ⟨ha, hw, hr⟩


/-! ## Claim C1: helper lemmas for the end-of-step system -/

theorem getD_map_const {α β : Type _} (c : β) (l : List α) (t : Nat) :
    (l.map fun _ => c).getD t c = c := by
  induction l generalizing t with
  | nil => cases t <;> rfl
  | cons x xs ih =>
    cases t with
    | zero => rfl
    | succ n => simpa using ih n

theorem enumFrom_length {α : Type _} (i : Nat) (l : List α) :
    (enumFrom i l).length = l.length := by
  induction l generalizing i with
  | nil => rfl
  | cons x xs ih => simp [enumFrom, ih]

theorem getD_mem_of_lt {α : Type _} [Inhabited α] {l : List α} {j : Nat}
    (hj : j < l.length) : l.getD j default ∈ l := by
  rw [List.getD_eq_getElem l default hj]
  exact List.getElem_mem hj

theorem countP_listModify {α : Type _} [Inhabited α] (f : α → α) (pr : α → Bool)
    (i : Nat) (l : List α) (hi : i < l.length) :
    (listModify f i l).countP pr + (if pr (l.getD i default) then 1 else 0)
      = l.countP pr + (if pr (f (l.getD i default)) then 1 else 0) := by
  induction l generalizing i with
  | nil => simp at hi
  | cons x xs ih =>
    cases i with
    | zero =>
      simp only [listModify, List.countP_cons, List.getD_cons_zero]
      split <;> split <;> omega
    | succ n =>
      have := ih n (by simpa using hi)
      simp only [listModify, List.countP_cons, List.getD_cons_succ]
      split <;> omega

theorem map_sum_listModify {α : Type _} [Inhabited α] (F : α → α) (h : α → Nat)
    (t : Nat) (l : List α) (ht : t < l.length) :
    ((listModify F t l).map h).sum + h (l.getD t default)
      = (l.map h).sum + h (F (l.getD t default)) := by
  induction l generalizing t with
  | nil => simp at ht
  | cons x xs ih =>
    cases t with
    | zero => simp [listModify]; omega
    | succ n =>
      have := ih n (by simpa using ht)
      simp only [listModify, List.map_cons, List.sum_cons, List.getD_cons_succ]
      omega


theorem arrCount_eq (s s' : WSys) (hq : s'.queues.length = s.queues.length)
    (hwa : s'.workerArrived = s.workerArrived) : arrCount s' = arrCount s := by
  unfold arrCount WSys.numThreads
  rw [hq, hwa]

theorem arrCount_set_true (s s' : WSys) (t : Nat) (h1 : 1 ≤ t) (h2 : t < s.numThreads)
    (hq : s'.queues.length = s.queues.length)
    (hwa : s'.workerArrived = listModify (fun _ => true) t s.workerArrived)
    (hlen : s.workerArrived.length = s.queues.length)
    (hnot : s.workerArrived.getD t false = false) :
    arrCount s' = arrCount s + 1 := by
  have hN : s'.numThreads = s.numThreads := hq
  have htl : t < s.workerArrived.length := by
    unfold WSys.numThreads at h2
    omega
  have hins : (Finset.range s.numThreads).filter
        (fun u => 1 ≤ u ∧ s'.workerArrived.getD u false = true)
      = insert t ((Finset.range s.numThreads).filter
        (fun u => 1 ≤ u ∧ s.workerArrived.getD u false = true)) := by
    ext x
    simp only [Finset.mem_filter, Finset.mem_insert, Finset.mem_range]
    constructor
    · rintro ⟨hx, hx1, hxa⟩
      by_cases hxt : x = t
      · exact Or.inl hxt
      · refine Or.inr ⟨hx, hx1, ?_⟩
        rw [hwa] at hxa
        rwa [show (false : Bool) = default from rfl,
          listModify_getD_ne (fun _ => true) t x s.workerArrived hxt] at hxa
    · rintro (hxt | ⟨hx, hx1, hxa⟩)
      · subst hxt
        refine ⟨h2, h1, ?_⟩
        rw [hwa, show (false : Bool) = default from rfl,
          listModify_getD_eq (fun _ => true) x s.workerArrived htl]
      · refine ⟨hx, hx1, ?_⟩
        by_cases hxt : x = t
        · subst hxt
          rw [hwa, show (false : Bool) = default from rfl,
            listModify_getD_eq (fun _ => true) x s.workerArrived htl]
        · rw [hwa, show (false : Bool) = default from rfl,
            listModify_getD_ne (fun _ => true) t x s.workerArrived hxt]
          exact hxa
  have hnm : t ∉ (Finset.range s.numThreads).filter
      (fun u => 1 ≤ u ∧ s.workerArrived.getD u false = true) := by
    simp only [Finset.mem_filter, Finset.mem_range]
    rintro ⟨-, -, hxa⟩
    rw [hnot] at hxa
    exact Bool.false_ne_true hxa
  unfold arrCount
  rw [hN, hins, Finset.card_insert_of_not_mem hnm]

theorem arrCount_full (s : WSys) (h : (arrCount s : Int) = (s.numThreads : Int) - 1) :
    ∀ t, 1 ≤ t → t < s.numThreads → s.workerArrived.getD t false = true := by
  intro t ht1 ht2
  have hN : 1 ≤ s.numThreads := by omega
  have hsub : (Finset.range s.numThreads).filter
        (fun u => 1 ≤ u ∧ s.workerArrived.getD u false = true)
      ⊆ (Finset.range s.numThreads).filter (fun u => 1 ≤ u) := by
    intro x hx
    simp only [Finset.mem_filter] at hx ⊢
    exact ⟨hx.1, hx.2.1⟩
  have hcardB : ((Finset.range s.numThreads).filter (fun u => 1 ≤ u)).card
      = s.numThreads - 1 := by
    have : (Finset.range s.numThreads).filter (fun u => 1 ≤ u)
        = (Finset.range s.numThreads).erase 0 := by
      ext x
      simp [Nat.one_le_iff_ne_zero, and_comm]
    rw [this, Finset.card_erase_of_mem (Finset.mem_range.mpr (by omega)),
      Finset.card_range]
  have hcardA : ((Finset.range s.numThreads).filter
      (fun u => 1 ≤ u ∧ s.workerArrived.getD u false = true)).card = s.numThreads - 1 := by
    unfold arrCount at h
    omega
  have heq : (Finset.range s.numThreads).filter
        (fun u => 1 ≤ u ∧ s.workerArrived.getD u false = true)
      = (Finset.range s.numThreads).filter (fun u => 1 ≤ u) :=
    Finset.eq_of_subset_of_card_le hsub (by omega)
  have hmem : t ∈ (Finset.range s.numThreads).filter (fun u => 1 ≤ u) := by
    simp only [Finset.mem_filter, Finset.mem_range]
    exact ⟨ht2, ht1⟩
  rw [← heq] at hmem
  simp only [Finset.mem_filter] at hmem
  exact hmem.2.2

theorem notStartedCount_queues_eq (s s' : WSys) (hq : s'.queues = s.queues) (k : Nat) :
    notStartedCount s' k = notStartedCount s k := by
  unfold notStartedCount
  rw [hq]

theorem notStartedCount_arrive (s : WSys) (t p : Nat)
    (ht : t < s.queues.length)
    (hp : p < (s.queues.getD t []).length)
    (hst : ((s.queues.getD t []).getD p default).status = SubStatus.notStarted) (k : Nat) :
    notStartedCount (s.arriveItem t p) k
        + (if ((s.queues.getD t []).getD p default).taskIdx = k then 1 else 0)
      = notStartedCount s k := by
  have h2 := map_sum_listModify
      (listModify (fun it => { it with status := SubStatus.arrived }) p)
      (fun q => q.countP fun it => decide (it.taskIdx = k ∧ it.status = SubStatus.notStarted))
      t s.queues ht
  have h1 := countP_listModify (fun it => { it with status := SubStatus.arrived })
      (fun it => decide (it.taskIdx = k ∧ it.status = SubStatus.notStarted))
      p (s.queues.getD t []) hp
  beta_reduce at h1 h2
  rw [hst] at h1
  have hd : (default : List QItem) = [] := rfl
  rw [hd] at h2
  unfold notStartedCount WSys.arriveItem
  simp only [decide_eq_true_eq, and_true, eq_self_iff_true, reduceCtorEq, and_false,
    if_false, if_true] at h1 h2 ⊢
  by_cases hk : ((s.queues.getD t []).getD p default).taskIdx = k
  · simp only [hk, if_true] at h1 ⊢
    omega
  · simp only [hk, if_false] at h1 ⊢
    omega

theorem notStartedCount_done (s : WSys) (t p : Nat)
    (ht : t < s.queues.length)
    (hp : p < (s.queues.getD t []).length)
    (hst : ((s.queues.getD t []).getD p default).status = SubStatus.arrived) (k : Nat) :
    notStartedCount (s.doneItem t p) k = notStartedCount s k := by
  have h2 := map_sum_listModify
      (listModify (fun it => { it with status := SubStatus.done }) p)
      (fun q => q.countP fun it => decide (it.taskIdx = k ∧ it.status = SubStatus.notStarted))
      t s.queues ht
  have h1 := countP_listModify (fun it => { it with status := SubStatus.done })
      (fun it => decide (it.taskIdx = k ∧ it.status = SubStatus.notStarted))
      p (s.queues.getD t []) hp
  beta_reduce at h1 h2
  rw [hst] at h1
  have hd : (default : List QItem) = [] := rfl
  rw [hd] at h2
  unfold notStartedCount WSys.doneItem
  simp only [decide_eq_true_eq, and_true, eq_self_iff_true, reduceCtorEq, and_false,
    if_false, if_true] at h1 h2 ⊢
  omega


theorem getD_map_of_lt {α β : Type _} (f : α → β) (l : List α) (t : Nat) (d : β) (e : α)
    (h : t < l.length) : (l.map f).getD t d = f (l.getD t e) := by
  induction l generalizing t with
  | nil => simp at h
  | cons x xs ih =>
    cases t with
    | zero => rfl
    | succ n => exact ih n (by simpa using h)

theorem enumFrom_getD {α : Type _} [Inhabited α] (i : Nat) (l : List α) (k : Nat)
    (hk : k < l.length) : (enumFrom i l).getD k default = (i + k, l.getD k default) := by
  induction l generalizing i k with
  | nil => simp at hk
  | cons x xs ih =>
    cases k with
    | zero => rfl
    | succ m =>
      have := ih (i + 1) m (by simpa using hk)
      show (enumFrom (i + 1) xs).getD m default = _
      rw [this, show i + (m + 1) = (i + 1) + m from by omega]
      rfl

theorem countP_map_notStarted (k : Nat) (q : List Nat) :
    ((q.map fun u => ({ taskIdx := u, status := .notStarted } : QItem)).countP
      fun it => decide (it.taskIdx = k ∧ it.status = SubStatus.notStarted)) = q.count k := by
  induction q with
  | nil => rfl
  | cons a as ih =>
    simp only [List.map_cons, List.countP_cons, List.count_cons, ih]
    by_cases hak : a = k
    · simp [hak]
    · simp [hak]

/-- The invariant holds at the start of `waitInternal`. -/
theorem WInv_init (published : List Bool) (qs : List (List Nat))
    (hwf : WfConf published qs) : WInv (mkInit published qs) := by
  obtain ⟨hq1, hqr⟩ := hwf
  have hql : (mkInit published qs).queues.length = qs.length := by simp [mkInit]
  have htl : (mkInit published qs).tasks.length = published.length := by
    simp [mkInit, enumFrom_length]
  have hqget : ∀ t < qs.length, (mkInit published qs).queues.getD t [] =
      (qs.getD t default).map (fun u => ({ taskIdx := u, status := .notStarted } : QItem)) := by
    intro t ht
    show (qs.map _).getD t [] = _
    rw [getD_map_of_lt _ qs t [] default ht]
  refine ⟨?_, ?_, ?_, ?_, ?_, ?_, ?_, ?_, ?_, ?_, ?_, ?_, ?_⟩
  · simp [mkInit]
  · simp [mkInit]
  · intro t ht j hj
    rw [hql] at ht
    rw [hqget t ht] at hj ⊢
    rw [List.length_map] at hj
    rw [getD_map_of_lt _ _ j default default hj, htl]
    exact hqr _ (getD_mem_of_lt ht) _ (getD_mem_of_lt hj)
  · intro t _ ht
    rw [hql] at ht
    have hpos : (mkInit published qs).workerPos.getD t 0 = 0 := getD_map_const 0 qs t
    rw [hpos, hqget t ht]
    refine ⟨Nat.zero_le _, fun j hj => ⟨fun h0 => absurd h0 (Nat.not_lt_zero j), fun _ => ?_⟩⟩
    rw [List.length_map] at hj
    rw [getD_map_of_lt _ _ j default default hj]
  · intro p hph
    simp only [mkInit, MainPhase.running.injEq] at hph
    subst hph
    rw [hqget 0 hq1]
    refine ⟨Nat.zero_le _, fun j hj => ⟨fun h0 => absurd h0 (Nat.not_lt_zero j), fun _ => ?_⟩⟩
    rw [List.length_map] at hj
    rw [getD_map_of_lt _ _ j default default hj]
  · intro h
    simp [mkInit, MainPhase.pastRunning] at h
  · intro t _ _ harr
    have hc : (mkInit published qs).workerArrived.getD t false = false :=
      getD_map_const false qs t
    rw [harr] at hc
    exact absurd hc (by decide)
  · intro k hk
    rw [htl] at hk
    have hlhs : (mkInit published qs).tasks.getD k { published := false, endBarrier := 0 } =
        { published := ((enumFrom 0 published).getD k default).2
          endBarrier :=
            (qs.map fun q =>
              ((q.count ((enumFrom 0 published).getD k default).1 : Nat) : Int)).sum } := by
      show ((enumFrom 0 published).map _).getD k _ = _
      rw [getD_map_of_lt _ _ k _ default (by rw [enumFrom_length]; exact hk)]
    rw [enumFrom_getD 0 published k hk] at hlhs
    have hns : notStartedCount (mkInit published qs) k = (qs.map fun q => q.count k).sum := by
      unfold notStartedCount
      show ((qs.map _).map _).sum = _
      rw [List.map_map]
      congr 1
      apply List.map_congr_left
      intro q _
      exact countP_map_notStarted k q
    rw [hlhs, hns]
    simp [Nat.cast_list_sum, List.map_map]
    rfl
  · intro _
    have harr0 : arrCount (mkInit published qs) = 0 := by
      unfold arrCount
      rw [Finset.card_eq_zero, Finset.filter_eq_empty_iff]
      intro x _
      rintro ⟨-, hxa⟩
      have hc : (mkInit published qs).workerArrived.getD x false = false :=
        getD_map_const false qs x
      rw [hxa] at hc
      exact absurd hc (by decide)
    rw [harr0]
    simp [mkInit, WSys.numThreads]
  · intro h
    simp [mkInit, MainPhase.pastStepWait] at h
  · intro h
    simp [mkInit, MainPhase.pastReclose] at h
  · intro h
    simp [mkInit, MainPhase.pastClearActive] at h
  · intro h
    simp [mkInit] at h


theorem listModify_getD_eq_d {α : Type _} (f : α → α) (p : Nat) (l : List α) (d : α)
    (hp : p < l.length) : (listModify f p l).getD p d = f (l.getD p d) := by
  induction l generalizing p with
  | nil => simp at hp
  | cons x xs ih =>
    cases p with
    | zero => rfl
    | succ n => exact ih n (by simpa using hp)

theorem listModify_getD_ne_d {α : Type _} (f : α → α) (p q : Nat) (l : List α) (d : α)
    (hq : q ≠ p) : (listModify f p l).getD q d = l.getD q d := by
  induction l generalizing p q with
  | nil => cases p <;> rfl
  | cons x xs ih =>
    cases p with
    | zero =>
      cases q with
      | zero => exact absurd rfl hq
      | succ m => rfl
    | succ n =>
      cases q with
      | zero => rfl
      | succ m => exact ih n m (fun h => hq (by omega))

theorem getD_oob {α : Type _} (l : List α) (d : α) (n : Nat) (h : l.length ≤ n) :
    l.getD n d = d := by
  induction l generalizing n with
  | nil => cases n <;> rfl
  | cons x xs ih =>
    cases n with
    | zero => simp at h
    | succ m => exact ih m (by simpa using h)

/-- Preservation of the invariant when a worker runs the subtask at its
queue position (marking the end-barrier arrival). -/
theorem WInv_workerRun (s : WSys) (t p : Nat) (h1 : 1 ≤ t) (h2 : t < s.numThreads)
    (hp : s.workerPos.getD t 0 = p) (hst : s.itemStatus t p .notStarted)
    (hinv : WInv s) : WInv (s.arriveItem t p) := by
  obtain ⟨hL1, hL2, hTI, hWQ, hMQ, hPR, hAP, hEB, hSB, hSW, hRC, hCA, hFI⟩ := hinv
  have hts : t < s.queues.length := h2
  have hpl : p < (s.queues.getD t []).length := hst.1
  have hstat : ((s.queues.getD t []).getD p default).status = SubStatus.notStarted := hst.2
  have hwp' : (s.arriveItem t p).workerPos = s.workerPos := rfl
  have hwa' : (s.arriveItem t p).workerArrived = s.workerArrived := rfl
  have hsb' : (s.arriveItem t p).stepBarrier = s.stepBarrier := rfl
  have hmp' : (s.arriveItem t p).mainPhase = s.mainPhase := rfl
  have hia' : (s.arriveItem t p).isActive = s.isActive := rfl
  have hid' : (s.arriveItem t p).instanceIsDefault = s.instanceIsDefault := rfl
  have hql' : (s.arriveItem t p).queues.length = s.queues.length :=
    listModify_length _ t s.queues
  have htl' : (s.arriveItem t p).tasks.length = s.tasks.length :=
    listModify_length _ _ s.tasks
  have hqt' : (s.arriveItem t p).queues.getD t [] =
      listModify (fun it => { it with status := SubStatus.arrived }) p (s.queues.getD t []) :=
    listModify_getD_eq_d _ t s.queues [] hts
  have hqo' : ∀ u, u ≠ t → (s.arriveItem t p).queues.getD u [] = s.queues.getD u [] :=
    fun u hu => listModify_getD_ne_d _ t u s.queues [] hu
  have htasks : (s.arriveItem t p).tasks =
      listModify (fun tk => { tk with endBarrier := tk.endBarrier - 1 })
        ((s.queues.getD t []).getD p default).taskIdx s.tasks := rfl
  have hkk : ((s.queues.getD t []).getD p default).taskIdx < s.tasks.length :=
    hTI t hts p hpl
  have hnm : (s.arriveItem t p).numThreads = s.numThreads := hql'
  refine ⟨?_, ?_, ?_, ?_, ?_, ?_, ?_, ?_, ?_, ?_, ?_, ?_, ?_⟩
  · rw [hwp', hql']
    exact hL1
  · rw [hwa', hql']
    exact hL2
  · intro u hu j hj
    rw [hql'] at hu
    rw [htl']
    by_cases hut : u = t
    · subst hut
      rw [hqt'] at hj ⊢
      rw [listModify_length] at hj
      by_cases hjp : j = p
      · subst hjp
        rw [listModify_getD_eq_d _ j _ default hj]
        exact hTI u hu j hj
      · rw [listModify_getD_ne_d _ p j _ default hjp]
        exact hTI u hu j hj
    · rw [hqo' u hut] at hj ⊢
      exact hTI u hu j hj
  · intro u h1u hu
    rw [hql'] at hu
    rw [hwp']
    by_cases hut : u = t
    · subst hut
      rw [hqt', hp]
      have hq := hWQ u h1u hu
      rw [hp] at hq
      refine ⟨by rw [listModify_length]; exact hq.1, fun j hj => ?_⟩
      rw [listModify_length] at hj
      refine ⟨fun hjp => ?_, fun hpj => ?_⟩
      · rw [listModify_getD_ne_d _ p j _ default (by omega)]
        exact (hq.2 j hj).1 hjp
      · rw [listModify_getD_ne_d _ p j _ default (by omega)]
        exact (hq.2 j hj).2 hpj
    · rw [hqo' u hut]
      exact hWQ u h1u hu
  · intro p' hph'
    rw [hmp'] at hph'
    rw [hqo' 0 (by omega)]
    exact hMQ p' hph'
  · intro h
    rw [hmp'] at h
    rw [hqo' 0 (by omega)]
    exact hPR h
  · intro u h1u hu harr
    rw [hql'] at hu
    rw [hwa'] at harr
    rw [hwp']
    by_cases hut : u = t
    · subst hut
      rw [hqt', listModify_length]
      exact hAP u h1u hu harr
    · rw [hqo' u hut]
      exact hAP u h1u hu harr
  · intro k hk
    rw [htl'] at hk
    have hEBk := hEB k hk
    have hNS := notStartedCount_arrive s t p hts hpl hstat k
    rw [htasks]
    by_cases hkk' : ((s.queues.getD t []).getD p default).taskIdx = k
    · subst hkk'
      rw [listModify_getD_eq_d _ _ s.tasks _ hkk]
      rw [if_pos rfl] at hNS
      have hred : ∀ tk : WTask,
          ((fun u => ({ u with endBarrier := u.endBarrier - 1 } : WTask)) tk).endBarrier
            = tk.endBarrier - 1 := fun _ => rfl
      rw [hred]
      omega
    · rw [listModify_getD_ne_d _ _ k s.tasks _ (fun h => hkk' h.symm)]
      rw [if_neg hkk'] at hNS
      rw [hEBk]
      omega
  · intro hbr
    rw [hmp'] at hbr
    have hac : arrCount (s.arriveItem t p) = arrCount s := arrCount_eq _ _ hql' hwa'
    rw [hsb', hnm, hac]
    exact hSB hbr
  · intro h u h1u hu
    rw [hmp'] at h
    rw [hql'] at hu
    rw [hwa']
    exact hSW h u h1u hu
  · intro h
    rw [hmp'] at h
    rw [hsb', hnm]
    exact hRC h
  · intro h
    rw [hmp'] at h
    rw [hia']
    exact hCA h
  · intro h
    rw [hmp'] at h
    rw [hid']
    exact hFI h


/-- Preservation of the invariant when a worker sets the done flag of
its current subtask and advances its queue position. -/
theorem WInv_workerSetDone (s : WSys) (t p : Nat) (h1 : 1 ≤ t) (h2 : t < s.numThreads)
    (hp : s.workerPos.getD t 0 = p) (hst : s.itemStatus t p .arrived)
    (hinv : WInv s) :
    WInv { s.doneItem t p with workerPos := listModify (· + 1) t s.workerPos } := by
  obtain ⟨hL1, hL2, hTI, hWQ, hMQ, hPR, hAP, hEB, hSB, hSW, hRC, hCA, hFI⟩ := hinv
  have hts : t < s.queues.length := h2
  have hpl : p < (s.queues.getD t []).length := hst.1
  have hstat : ((s.queues.getD t []).getD p default).status = SubStatus.arrived := hst.2
  set S := { s.doneItem t p with workerPos := listModify (· + 1) t s.workerPos } with hS
  have hwp' : S.workerPos = listModify (· + 1) t s.workerPos := rfl
  have hwa' : S.workerArrived = s.workerArrived := rfl
  have hsb' : S.stepBarrier = s.stepBarrier := rfl
  have hmp' : S.mainPhase = s.mainPhase := rfl
  have hia' : S.isActive = s.isActive := rfl
  have hid' : S.instanceIsDefault = s.instanceIsDefault := rfl
  have hta' : S.tasks = s.tasks := rfl
  have hqs2 : S.queues
      = listModify (listModify (fun it => { it with status := SubStatus.done }) p) t s.queues :=
    rfl
  have hql' : S.queues.length = s.queues.length := by
    rw [hqs2, listModify_length]
  have hqt' : S.queues.getD t [] =
      listModify (fun it => { it with status := SubStatus.done }) p (s.queues.getD t []) := by
    rw [hqs2]
    exact listModify_getD_eq_d _ t s.queues [] hts
  have hqo' : ∀ u, u ≠ t → S.queues.getD u [] = s.queues.getD u [] := by
    intro u hu
    rw [hqs2]
    exact listModify_getD_ne_d _ t u s.queues [] hu
  have hnm : S.numThreads = s.numThreads := hql'
  refine ⟨?_, ?_, ?_, ?_, ?_, ?_, ?_, ?_, ?_, ?_, ?_, ?_, ?_⟩
  · rw [hwp', listModify_length, hql']
    exact hL1
  · rw [hwa', hql']
    exact hL2
  · intro u hu j hj
    rw [hql'] at hu
    rw [hta']
    by_cases hut : u = t
    · subst hut
      rw [hqt'] at hj ⊢
      rw [listModify_length] at hj
      by_cases hjp : j = p
      · subst hjp
        rw [listModify_getD_eq_d _ j _ default hj]
        exact hTI u hu j hj
      · rw [listModify_getD_ne_d _ p j _ default hjp]
        exact hTI u hu j hj
    · rw [hqo' u hut] at hj ⊢
      exact hTI u hu j hj
  · intro u h1u hu
    rw [hql'] at hu
    rw [hwp']
    by_cases hut : u = t
    · subst hut
      have hpos : (listModify (· + 1) u s.workerPos).getD u 0 = p + 1 := by
        rw [listModify_getD_eq_d _ u s.workerPos 0 (by rw [hL1]; exact hu), hp]
      rw [hpos, hqt']
      have hq := hWQ u h1u hu
      rw [hp] at hq
      refine ⟨by rw [listModify_length]; omega, fun j hj => ?_⟩
      rw [listModify_length] at hj
      refine ⟨fun hjp => ?_, fun hpj => ?_⟩
      · by_cases hjp' : j = p
        · subst hjp'
          rw [listModify_getD_eq_d _ j _ default hj]
        · rw [listModify_getD_ne_d _ p j _ default hjp']
          exact (hq.2 j hj).1 (by omega)
      · rw [listModify_getD_ne_d _ p j _ default (by omega)]
        exact (hq.2 j hj).2 (by omega)
    · rw [listModify_getD_ne_d _ t u s.workerPos 0 hut, hqo' u hut]
      exact hWQ u h1u hu
  · intro p' hph'
    rw [hmp'] at hph'
    rw [hqo' 0 (by omega)]
    exact hMQ p' hph'
  · intro h
    rw [hmp'] at h
    rw [hqo' 0 (by omega)]
    exact hPR h
  · intro u h1u hu harr
    rw [hql'] at hu
    rw [hwa'] at harr
    rw [hwp']
    by_cases hut : u = t
    · subst hut
      exfalso
      have hlen := hAP u h1u hu harr
      rw [hp] at hlen
      omega
    · rw [listModify_getD_ne_d _ t u s.workerPos 0 hut, hqo' u hut]
      exact hAP u h1u hu harr
  · intro k hk
    rw [hta'] at hk ⊢
    have hns1 : notStartedCount S k = notStartedCount (s.doneItem t p) k :=
      notStartedCount_queues_eq (s.doneItem t p) S rfl k
    rw [hns1, notStartedCount_done s t p hts hpl hstat k]
    exact hEB k hk
  · intro hbr
    rw [hmp'] at hbr
    have hac : arrCount S = arrCount s := arrCount_eq _ _ hql' hwa'
    rw [hsb', hnm, hac]
    exact hSB hbr
  · intro h u h1u hu
    rw [hmp'] at h
    rw [hql'] at hu
    rw [hwa']
    exact hSW h u h1u hu
  · intro h
    rw [hmp'] at h
    rw [hsb', hnm]
    exact hRC h
  · intro h
    rw [hmp'] at h
    rw [hia']
    exact hCA h
  · intro h
    rw [hmp'] at h
    rw [hid']
    exact hFI h

/-- Preservation of the invariant when a worker that has finished its
queue marks the step-completion barrier. -/
theorem WInv_workerArriveStep (s : WSys) (t : Nat) (h1 : 1 ≤ t) (h2 : t < s.numThreads)
    (hdone : s.workerPos.getD t 0 = (s.queues.getD t []).length)
    (hnot : s.workerArrived.getD t false = false)
    (hinv : WInv s) :
    WInv { s with
           workerArrived := listModify (fun _ => true) t s.workerArrived
           stepBarrier := s.stepBarrier - 1 } := by
  obtain ⟨hL1, hL2, hTI, hWQ, hMQ, hPR, hAP, hEB, hSB, hSW, hRC, hCA, hFI⟩ := hinv
  have hts : t < s.queues.length := h2
  set S := { s with
             workerArrived := listModify (fun _ => true) t s.workerArrived
             stepBarrier := s.stepBarrier - 1 } with hS
  have hwp' : S.workerPos = s.workerPos := rfl
  have hwa2 : S.workerArrived = listModify (fun _ => true) t s.workerArrived := rfl
  have hsb2 : S.stepBarrier = s.stepBarrier - 1 := rfl
  have hmp' : S.mainPhase = s.mainPhase := rfl
  have hia' : S.isActive = s.isActive := rfl
  have hid' : S.instanceIsDefault = s.instanceIsDefault := rfl
  have hta' : S.tasks = s.tasks := rfl
  have hqs' : S.queues = s.queues := rfl
  have hnm : S.numThreads = s.numThreads := congrArg List.length hqs'
  have htwa : t < s.workerArrived.length := by
    rw [hL2]
    exact hts
  refine ⟨?_, ?_, ?_, ?_, ?_, ?_, ?_, ?_, ?_, ?_, ?_, ?_, ?_⟩
  · rw [hwp', hqs']
    exact hL1
  · rw [hwa2, listModify_length, hqs']
    exact hL2
  · rw [hqs', hta']
    exact hTI
  · rw [hqs', hwp']
    exact hWQ
  · rw [hqs', hmp']
    exact hMQ
  · rw [hqs', hmp']
    exact hPR
  · intro u h1u hu harr
    rw [hqs'] at hu ⊢
    rw [hwp']
    by_cases hut : u = t
    · subst hut
      exact hdone
    · rw [hwa2, listModify_getD_ne_d _ t u s.workerArrived false hut] at harr
      exact hAP u h1u hu harr
  · intro k hk
    rw [hta'] at hk ⊢
    rw [notStartedCount_queues_eq s S hqs' k]
    exact hEB k hk
  · intro hbr
    rw [hmp'] at hbr
    have hac : arrCount S = arrCount s + 1 :=
      arrCount_set_true s S t h1 h2 (congrArg List.length hqs') hwa2 hL2 hnot
    have hold := hSB hbr
    rw [hsb2, hnm, hac]
    omega
  · intro h u h1u hu
    rw [hmp'] at h
    rw [hqs'] at hu
    rw [hwa2]
    by_cases hut : u = t
    · subst hut
      rw [listModify_getD_eq_d _ u s.workerArrived false htwa]
    · rw [listModify_getD_ne_d _ t u s.workerArrived false hut]
      exact hSW h u h1u hu
  · intro h
    rw [hmp'] at h
    exfalso
    have hpsw : s.mainPhase.pastStepWait := by
      cases hmp : s.mainPhase <;> rw [hmp] at h <;>
        first
          | exact False.elim h
          | trivial
    have harr := hSW hpsw t h1 hts
    rw [hnot] at harr
    exact Bool.false_ne_true harr
  · intro h
    rw [hmp'] at h
    rw [hia']
    exact hCA h
  · intro h
    rw [hmp'] at h
    rw [hid']
    exact hFI h


/-- Preservation of the invariant when the main thread runs the subtask
at its queue position. -/
theorem WInv_mainRun (s : WSys) (p : Nat) (hph : s.mainPhase = .running p)
    (hst : s.itemStatus 0 p .notStarted) (hinv : WInv s) : WInv (s.arriveItem 0 p) := by
  obtain ⟨hL1, hL2, hTI, hWQ, hMQ, hPR, hAP, hEB, hSB, hSW, hRC, hCA, hFI⟩ := hinv
  have hpl : p < (s.queues.getD 0 []).length := hst.1
  have hstat : ((s.queues.getD 0 []).getD p default).status = SubStatus.notStarted := hst.2
  have hts : 0 < s.queues.length := by
    by_contra h0
    rw [getD_oob s.queues [] 0 (by omega)] at hpl
    simp at hpl
  have hwp' : (s.arriveItem 0 p).workerPos = s.workerPos := rfl
  have hwa' : (s.arriveItem 0 p).workerArrived = s.workerArrived := rfl
  have hsb' : (s.arriveItem 0 p).stepBarrier = s.stepBarrier := rfl
  have hmp' : (s.arriveItem 0 p).mainPhase = s.mainPhase := rfl
  have hia' : (s.arriveItem 0 p).isActive = s.isActive := rfl
  have hid' : (s.arriveItem 0 p).instanceIsDefault = s.instanceIsDefault := rfl
  have hql' : (s.arriveItem 0 p).queues.length = s.queues.length :=
    listModify_length _ 0 s.queues
  have htl' : (s.arriveItem 0 p).tasks.length = s.tasks.length :=
    listModify_length _ _ s.tasks
  have hqt' : (s.arriveItem 0 p).queues.getD 0 [] =
      listModify (fun it => { it with status := SubStatus.arrived }) p (s.queues.getD 0 []) :=
    listModify_getD_eq_d _ 0 s.queues [] hts
  have hqo' : ∀ u, u ≠ 0 → (s.arriveItem 0 p).queues.getD u [] = s.queues.getD u [] :=
    fun u hu => listModify_getD_ne_d _ 0 u s.queues [] hu
  have htasks : (s.arriveItem 0 p).tasks =
      listModify (fun tk => { tk with endBarrier := tk.endBarrier - 1 })
        ((s.queues.getD 0 []).getD p default).taskIdx s.tasks := rfl
  have hkk : ((s.queues.getD 0 []).getD p default).taskIdx < s.tasks.length :=
    hTI 0 hts p hpl
  have hnm : (s.arriveItem 0 p).numThreads = s.numThreads := hql'
  refine ⟨?_, ?_, ?_, ?_, ?_, ?_, ?_, ?_, ?_, ?_, ?_, ?_, ?_⟩
  · rw [hwp', hql']
    exact hL1
  · rw [hwa', hql']
    exact hL2
  · intro u hu j hj
    rw [hql'] at hu
    rw [htl']
    by_cases hut : u = 0
    · subst hut
      rw [hqt'] at hj ⊢
      rw [listModify_length] at hj
      by_cases hjp : j = p
      · subst hjp
        rw [listModify_getD_eq_d _ j _ default hj]
        exact hTI 0 hu j hj
      · rw [listModify_getD_ne_d _ p j _ default hjp]
        exact hTI 0 hu j hj
    · rw [hqo' u hut] at hj ⊢
      exact hTI u hu j hj
  · intro u h1u hu
    rw [hql'] at hu
    rw [hwp', hqo' u (by omega)]
    exact hWQ u h1u hu
  · intro p' hph'
    rw [hmp', hph] at hph'
    injection hph' with he
    subst he
    rw [hqt']
    have hq := hMQ p hph
    refine ⟨by rw [listModify_length]; exact hq.1, fun j hj => ?_⟩
    rw [listModify_length] at hj
    refine ⟨fun hjp => ?_, fun hpj => ?_⟩
    · rw [listModify_getD_ne_d _ p j _ default (by omega)]
      exact (hq.2 j hj).1 hjp
    · rw [listModify_getD_ne_d _ p j _ default (by omega)]
      exact (hq.2 j hj).2 hpj
  · intro h
    rw [hmp', hph] at h
    exact False.elim h
  · intro u h1u hu harr
    rw [hql'] at hu
    rw [hwa'] at harr
    rw [hwp', hqo' u (by omega)]
    exact hAP u h1u hu harr
  · intro k hk
    rw [htl'] at hk
    have hEBk := hEB k hk
    have hNS := notStartedCount_arrive s 0 p hts hpl hstat k
    rw [htasks]
    by_cases hkk' : ((s.queues.getD 0 []).getD p default).taskIdx = k
    · subst hkk'
      rw [listModify_getD_eq_d _ _ s.tasks _ hkk]
      rw [if_pos rfl] at hNS
      have hred : ∀ tk : WTask,
          ((fun u => ({ u with endBarrier := u.endBarrier - 1 } : WTask)) tk).endBarrier
            = tk.endBarrier - 1 := fun _ => rfl
      rw [hred]
      omega
    · rw [listModify_getD_ne_d _ _ k s.tasks _ (fun h => hkk' h.symm)]
      rw [if_neg hkk'] at hNS
      rw [hEBk]
      omega
  · intro hbr
    rw [hmp'] at hbr
    have hac : arrCount (s.arriveItem 0 p) = arrCount s := arrCount_eq _ _ hql' hwa'
    rw [hsb', hnm, hac]
    exact hSB hbr
  · intro h u h1u hu
    rw [hmp'] at h
    rw [hql'] at hu
    rw [hwa']
    exact hSW h u h1u hu
  · intro h
    rw [hmp'] at h
    rw [hsb', hnm]
    exact hRC h
  · intro h
    rw [hmp'] at h
    rw [hia']
    exact hCA h
  · intro h
    rw [hmp'] at h
    rw [hid']
    exact hFI h

/-- Preservation of the invariant when the main thread sets the done
flag of its current subtask and advances to the next position. -/
theorem WInv_mainSetDone (s : WSys) (p : Nat) (hph : s.mainPhase = .running p)
    (hst : s.itemStatus 0 p .arrived) (hinv : WInv s) :
    WInv { s.doneItem 0 p with mainPhase := .running (p + 1) } := by
  obtain ⟨hL1, hL2, hTI, hWQ, hMQ, hPR, hAP, hEB, hSB, hSW, hRC, hCA, hFI⟩ := hinv
  have hpl : p < (s.queues.getD 0 []).length := hst.1
  have hstat : ((s.queues.getD 0 []).getD p default).status = SubStatus.arrived := hst.2
  have hts : 0 < s.queues.length := by
    by_contra h0
    rw [getD_oob s.queues [] 0 (by omega)] at hpl
    simp at hpl
  set S := { s.doneItem 0 p with mainPhase := MainPhase.running (p + 1) } with hS
  have hwp' : S.workerPos = s.workerPos := rfl
  have hwa' : S.workerArrived = s.workerArrived := rfl
  have hsb' : S.stepBarrier = s.stepBarrier := rfl
  have hmp2 : S.mainPhase = .running (p + 1) := rfl
  have hia' : S.isActive = s.isActive := rfl
  have hid' : S.instanceIsDefault = s.instanceIsDefault := rfl
  have hta' : S.tasks = s.tasks := rfl
  have hqs2 : S.queues
      = listModify (listModify (fun it => { it with status := SubStatus.done }) p) 0 s.queues :=
    rfl
  have hql' : S.queues.length = s.queues.length := by
    rw [hqs2, listModify_length]
  have hqt' : S.queues.getD 0 [] =
      listModify (fun it => { it with status := SubStatus.done }) p (s.queues.getD 0 []) := by
    rw [hqs2]
    exact listModify_getD_eq_d _ 0 s.queues [] hts
  have hqo' : ∀ u, u ≠ 0 → S.queues.getD u [] = s.queues.getD u [] := by
    intro u hu
    rw [hqs2]
    exact listModify_getD_ne_d _ 0 u s.queues [] hu
  have hnm : S.numThreads = s.numThreads := hql'
  refine ⟨?_, ?_, ?_, ?_, ?_, ?_, ?_, ?_, ?_, ?_, ?_, ?_, ?_⟩
  · rw [hwp', hql']
    exact hL1
  · rw [hwa', hql']
    exact hL2
  · intro u hu j hj
    rw [hql'] at hu
    rw [hta']
    by_cases hut : u = 0
    · subst hut
      rw [hqt'] at hj ⊢
      rw [listModify_length] at hj
      by_cases hjp : j = p
      · subst hjp
        rw [listModify_getD_eq_d _ j _ default hj]
        exact hTI 0 hu j hj
      · rw [listModify_getD_ne_d _ p j _ default hjp]
        exact hTI 0 hu j hj
    · rw [hqo' u hut] at hj ⊢
      exact hTI u hu j hj
  · intro u h1u hu
    rw [hql'] at hu
    rw [hwp', hqo' u (by omega)]
    exact hWQ u h1u hu
  · intro p' hph'
    rw [hmp2] at hph'
    injection hph' with he
    subst he
    rw [hqt']
    have hq := hMQ p hph
    refine ⟨by rw [listModify_length]; omega, fun j hj => ?_⟩
    rw [listModify_length] at hj
    refine ⟨fun hjp => ?_, fun hpj => ?_⟩
    · by_cases hjp' : j = p
      · subst hjp'
        rw [listModify_getD_eq_d _ j _ default hj]
      · rw [listModify_getD_ne_d _ p j _ default hjp']
        exact (hq.2 j hj).1 (by omega)
    · rw [listModify_getD_ne_d _ p j _ default (by omega)]
      exact (hq.2 j hj).2 (by omega)
  · intro h
    rw [hmp2] at h
    exact False.elim h
  · intro u h1u hu harr
    rw [hql'] at hu
    rw [hwa'] at harr
    rw [hwp', hqo' u (by omega)]
    exact hAP u h1u hu harr
  · intro k hk
    rw [hta'] at hk ⊢
    have hns1 : notStartedCount S k = notStartedCount (s.doneItem 0 p) k :=
      notStartedCount_queues_eq (s.doneItem 0 p) S rfl k
    rw [hns1, notStartedCount_done s 0 p hts hpl hstat k]
    exact hEB k hk
  · intro _
    have hac : arrCount S = arrCount s := arrCount_eq _ _ hql' hwa'
    rw [hsb', hnm, hac]
    exact hSB (by rw [hph]; trivial)
  · intro h
    rw [hmp2] at h
    exact False.elim h
  · intro h
    rw [hmp2] at h
    exact False.elim h
  · intro h
    rw [hmp2] at h
    exact False.elim h
  · intro h
    rw [hmp2] at h
    exact MainPhase.noConfusion h


/-- Preservation of the invariant when the main thread finishes its own
queue and enters the end-barrier wait loop (at index 1). -/
theorem WInv_mainQueueDone (s : WSys) (p : Nat) (hph : s.mainPhase = .running p)
    (hend : p = (s.queues.getD 0 []).length) (hinv : WInv s) :
    WInv { s with mainPhase := .waitingTasks 1 } := by
  obtain ⟨hL1, hL2, hTI, hWQ, hMQ, hPR, hAP, hEB, hSB, hSW, hRC, hCA, hFI⟩ := hinv
  set S := { s with mainPhase := MainPhase.waitingTasks 1 } with hS
  have hqs' : S.queues = s.queues := rfl
  have hwp' : S.workerPos = s.workerPos := rfl
  have hwa' : S.workerArrived = s.workerArrived := rfl
  have hta' : S.tasks = s.tasks := rfl
  have hsb' : S.stepBarrier = s.stepBarrier := rfl
  have hia' : S.isActive = s.isActive := rfl
  have hid' : S.instanceIsDefault = s.instanceIsDefault := rfl
  have hmp2 : S.mainPhase = .waitingTasks 1 := rfl
  have hnm : S.numThreads = s.numThreads := congrArg List.length hqs'
  refine ⟨?_, ?_, ?_, ?_, ?_, ?_, ?_, ?_, ?_, ?_, ?_, ?_, ?_⟩
  · rw [hwp', hqs']
    exact hL1
  · rw [hwa', hqs']
    exact hL2
  · rw [hqs', hta']
    exact hTI
  · rw [hqs', hwp']
    exact hWQ
  · intro p' hph'
    rw [hmp2] at hph'
    exact MainPhase.noConfusion hph'
  · intro _
    rw [hqs']
    intro it hit
    have hq := hMQ p hph
    obtain ⟨j, hj, hje⟩ := List.mem_iff_getElem.mp hit
    have hgd : (s.queues.getD 0 []).getD j default = it := by
      rw [List.getD_eq_getElem _ _ hj]
      exact hje
    rw [← hgd]
    exact (hq.2 j hj).1 (by omega)
  · intro u h1u hu harr
    rw [hqs'] at hu ⊢
    rw [hwa'] at harr
    rw [hwp']
    exact hAP u h1u hu harr
  · intro k hk
    rw [hta'] at hk ⊢
    rw [notStartedCount_queues_eq s S hqs' k]
    exact hEB k hk
  · intro _
    have hac : arrCount S = arrCount s := arrCount_eq _ _ hnm hwa'
    rw [hsb', hnm, hac]
    exact hSB (by rw [hph]; trivial)
  · intro h
    rw [hmp2] at h
    exact False.elim h
  · intro h
    rw [hmp2] at h
    exact False.elim h
  · intro h
    rw [hmp2] at h
    exact False.elim h
  · intro h
    rw [hmp2] at h
    exact MainPhase.noConfusion h

/-- Preservation of the invariant when the end-barrier wait loop passes
one task (its counter is zero) and moves to the next index. -/
theorem WInv_mainTaskWaitPass (s : WSys) (i : Nat) (hph : s.mainPhase = .waitingTasks i)
    (hinv : WInv s) : WInv { s with mainPhase := .waitingTasks (i + 1) } := by
  obtain ⟨hL1, hL2, hTI, hWQ, hMQ, hPR, hAP, hEB, hSB, hSW, hRC, hCA, hFI⟩ := hinv
  set S := { s with mainPhase := MainPhase.waitingTasks (i + 1) } with hS
  have hqs' : S.queues = s.queues := rfl
  have hwp' : S.workerPos = s.workerPos := rfl
  have hwa' : S.workerArrived = s.workerArrived := rfl
  have hta' : S.tasks = s.tasks := rfl
  have hsb' : S.stepBarrier = s.stepBarrier := rfl
  have hia' : S.isActive = s.isActive := rfl
  have hid' : S.instanceIsDefault = s.instanceIsDefault := rfl
  have hmp2 : S.mainPhase = .waitingTasks (i + 1) := rfl
  have hnm : S.numThreads = s.numThreads := congrArg List.length hqs'
  refine ⟨?_, ?_, ?_, ?_, ?_, ?_, ?_, ?_, ?_, ?_, ?_, ?_, ?_⟩
  · rw [hwp', hqs']
    exact hL1
  · rw [hwa', hqs']
    exact hL2
  · rw [hqs', hta']
    exact hTI
  · rw [hqs', hwp']
    exact hWQ
  · intro p' hph'
    rw [hmp2] at hph'
    exact MainPhase.noConfusion hph'
  · intro _
    rw [hqs']
    exact hPR (by rw [hph]; trivial)
  · intro u h1u hu harr
    rw [hqs'] at hu ⊢
    rw [hwa'] at harr
    rw [hwp']
    exact hAP u h1u hu harr
  · intro k hk
    rw [hta'] at hk ⊢
    rw [notStartedCount_queues_eq s S hqs' k]
    exact hEB k hk
  · intro _
    have hac : arrCount S = arrCount s := arrCount_eq _ _ hnm hwa'
    rw [hsb', hnm, hac]
    exact hSB (by rw [hph]; trivial)
  · intro h
    rw [hmp2] at h
    exact False.elim h
  · intro h
    rw [hmp2] at h
    exact False.elim h
  · intro h
    rw [hmp2] at h
    exact False.elim h
  · intro h
    rw [hmp2] at h
    exact MainPhase.noConfusion h

/-- Preservation of the invariant when the end-barrier wait loop runs
out of tasks and the main thread moves to the step barrier. -/
theorem WInv_mainTaskWaitDone (s : WSys) (i : Nat) (hph : s.mainPhase = .waitingTasks i)
    (hinv : WInv s) : WInv { s with mainPhase := .waitingStepBarrier } := by
  obtain ⟨hL1, hL2, hTI, hWQ, hMQ, hPR, hAP, hEB, hSB, hSW, hRC, hCA, hFI⟩ := hinv
  set S := { s with mainPhase := MainPhase.waitingStepBarrier } with hS
  have hqs' : S.queues = s.queues := rfl
  have hwp' : S.workerPos = s.workerPos := rfl
  have hwa' : S.workerArrived = s.workerArrived := rfl
  have hta' : S.tasks = s.tasks := rfl
  have hsb' : S.stepBarrier = s.stepBarrier := rfl
  have hia' : S.isActive = s.isActive := rfl
  have hid' : S.instanceIsDefault = s.instanceIsDefault := rfl
  have hmp2 : S.mainPhase = .waitingStepBarrier := rfl
  have hnm : S.numThreads = s.numThreads := congrArg List.length hqs'
  refine ⟨?_, ?_, ?_, ?_, ?_, ?_, ?_, ?_, ?_, ?_, ?_, ?_, ?_⟩
  · rw [hwp', hqs']
    exact hL1
  · rw [hwa', hqs']
    exact hL2
  · rw [hqs', hta']
    exact hTI
  · rw [hqs', hwp']
    exact hWQ
  · intro p' hph'
    rw [hmp2] at hph'
    exact MainPhase.noConfusion hph'
  · intro _
    rw [hqs']
    exact hPR (by rw [hph]; trivial)
  · intro u h1u hu harr
    rw [hqs'] at hu ⊢
    rw [hwa'] at harr
    rw [hwp']
    exact hAP u h1u hu harr
  · intro k hk
    rw [hta'] at hk ⊢
    rw [notStartedCount_queues_eq s S hqs' k]
    exact hEB k hk
  · intro _
    have hac : arrCount S = arrCount s := arrCount_eq _ _ hnm hwa'
    rw [hsb', hnm, hac]
    exact hSB (by rw [hph]; trivial)
  · intro h
    rw [hmp2] at h
    exact False.elim h
  · intro h
    rw [hmp2] at h
    exact False.elim h
  · intro h
    rw [hmp2] at h
    exact False.elim h
  · intro h
    rw [hmp2] at h
    exact MainPhase.noConfusion h

/-- Preservation of the invariant when the main thread passes the step
barrier (its counter reached zero, so every worker has arrived). -/
theorem WInv_mainStepBarrierPass (s : WSys) (hph : s.mainPhase = .waitingStepBarrier)
    (hbar : s.stepBarrier = 0) (hinv : WInv s) :
    WInv { s with mainPhase := .closingStepBarrier } := by
  obtain ⟨hL1, hL2, hTI, hWQ, hMQ, hPR, hAP, hEB, hSB, hSW, hRC, hCA, hFI⟩ := hinv
  set S := { s with mainPhase := MainPhase.closingStepBarrier } with hS
  have hqs' : S.queues = s.queues := rfl
  have hwp' : S.workerPos = s.workerPos := rfl
  have hwa' : S.workerArrived = s.workerArrived := rfl
  have hta' : S.tasks = s.tasks := rfl
  have hsb' : S.stepBarrier = s.stepBarrier := rfl
  have hia' : S.isActive = s.isActive := rfl
  have hid' : S.instanceIsDefault = s.instanceIsDefault := rfl
  have hmp2 : S.mainPhase = .closingStepBarrier := rfl
  have hnm : S.numThreads = s.numThreads := congrArg List.length hqs'
  refine ⟨?_, ?_, ?_, ?_, ?_, ?_, ?_, ?_, ?_, ?_, ?_, ?_, ?_⟩
  · rw [hwp', hqs']
    exact hL1
  · rw [hwa', hqs']
    exact hL2
  · rw [hqs', hta']
    exact hTI
  · rw [hqs', hwp']
    exact hWQ
  · intro p' hph'
    rw [hmp2] at hph'
    exact MainPhase.noConfusion hph'
  · intro _
    rw [hqs']
    exact hPR (by rw [hph]; trivial)
  · intro u h1u hu harr
    rw [hqs'] at hu ⊢
    rw [hwa'] at harr
    rw [hwp']
    exact hAP u h1u hu harr
  · intro k hk
    rw [hta'] at hk ⊢
    rw [notStartedCount_queues_eq s S hqs' k]
    exact hEB k hk
  · intro h
    rw [hmp2] at h
    exact False.elim h
  · intro _ u h1u hu
    rw [hqs'] at hu
    rw [hwa']
    have hsbe := hSB (by rw [hph]; trivial)
    rw [hbar] at hsbe
    exact arrCount_full s (by omega) u h1u hu
  · intro h
    rw [hmp2] at h
    exact False.elim h
  · intro h
    rw [hmp2] at h
    exact False.elim h
  · intro h
    rw [hmp2] at h
    exact MainPhase.noConfusion h

/-- Preservation of the invariant when the main thread re-closes the
step barrier to N-1. -/
theorem WInv_mainCloseStepBarrier (s : WSys) (hph : s.mainPhase = .closingStepBarrier)
    (hinv : WInv s) :
    WInv { s with
           stepBarrier := (s.numThreads : Int) - 1
           mainPhase := .clearingActive } := by
  obtain ⟨hL1, hL2, hTI, hWQ, hMQ, hPR, hAP, hEB, hSB, hSW, hRC, hCA, hFI⟩ := hinv
  set S := { s with
             stepBarrier := (s.numThreads : Int) - 1
             mainPhase := MainPhase.clearingActive } with hS
  have hqs' : S.queues = s.queues := rfl
  have hwp' : S.workerPos = s.workerPos := rfl
  have hwa' : S.workerArrived = s.workerArrived := rfl
  have hta' : S.tasks = s.tasks := rfl
  have hsb2 : S.stepBarrier = (s.numThreads : Int) - 1 := rfl
  have hia' : S.isActive = s.isActive := rfl
  have hid' : S.instanceIsDefault = s.instanceIsDefault := rfl
  have hmp2 : S.mainPhase = .clearingActive := rfl
  have hnm : S.numThreads = s.numThreads := congrArg List.length hqs'
  refine ⟨?_, ?_, ?_, ?_, ?_, ?_, ?_, ?_, ?_, ?_, ?_, ?_, ?_⟩
  · rw [hwp', hqs']
    exact hL1
  · rw [hwa', hqs']
    exact hL2
  · rw [hqs', hta']
    exact hTI
  · rw [hqs', hwp']
    exact hWQ
  · intro p' hph'
    rw [hmp2] at hph'
    exact MainPhase.noConfusion hph'
  · intro _
    rw [hqs']
    exact hPR (by rw [hph]; trivial)
  · intro u h1u hu harr
    rw [hqs'] at hu ⊢
    rw [hwa'] at harr
    rw [hwp']
    exact hAP u h1u hu harr
  · intro k hk
    rw [hta'] at hk ⊢
    rw [notStartedCount_queues_eq s S hqs' k]
    exact hEB k hk
  · intro h
    rw [hmp2] at h
    exact False.elim h
  · intro _ u h1u hu
    rw [hqs'] at hu
    rw [hwa']
    exact hSW (by rw [hph]; trivial) u h1u hu
  · intro _
    rw [hsb2, hnm]
  · intro h
    rw [hmp2] at h
    exact False.elim h
  · intro h
    rw [hmp2] at h
    exact MainPhase.noConfusion h

/-- Preservation of the invariant when the main thread clears
`isActive_`. -/
theorem WInv_mainClearActive (s : WSys) (hph : s.mainPhase = .clearingActive)
    (hinv : WInv s) :
    WInv { s with isActive := false, mainPhase := .restoringInstance } := by
  obtain ⟨hL1, hL2, hTI, hWQ, hMQ, hPR, hAP, hEB, hSB, hSW, hRC, hCA, hFI⟩ := hinv
  set S := { s with isActive := false, mainPhase := MainPhase.restoringInstance } with hS
  have hqs' : S.queues = s.queues := rfl
  have hwp' : S.workerPos = s.workerPos := rfl
  have hwa' : S.workerArrived = s.workerArrived := rfl
  have hta' : S.tasks = s.tasks := rfl
  have hsb' : S.stepBarrier = s.stepBarrier := rfl
  have hia2 : S.isActive = false := rfl
  have hid' : S.instanceIsDefault = s.instanceIsDefault := rfl
  have hmp2 : S.mainPhase = .restoringInstance := rfl
  have hnm : S.numThreads = s.numThreads := congrArg List.length hqs'
  refine ⟨?_, ?_, ?_, ?_, ?_, ?_, ?_, ?_, ?_, ?_, ?_, ?_, ?_⟩
  · rw [hwp', hqs']
    exact hL1
  · rw [hwa', hqs']
    exact hL2
  · rw [hqs', hta']
    exact hTI
  · rw [hqs', hwp']
    exact hWQ
  · intro p' hph'
    rw [hmp2] at hph'
    exact MainPhase.noConfusion hph'
  · intro _
    rw [hqs']
    exact hPR (by rw [hph]; trivial)
  · intro u h1u hu harr
    rw [hqs'] at hu ⊢
    rw [hwa'] at harr
    rw [hwp']
    exact hAP u h1u hu harr
  · intro k hk
    rw [hta'] at hk ⊢
    rw [notStartedCount_queues_eq s S hqs' k]
    exact hEB k hk
  · intro h
    rw [hmp2] at h
    exact False.elim h
  · intro _ u h1u hu
    rw [hqs'] at hu
    rw [hwa']
    exact hSW (by rw [hph]; trivial) u h1u hu
  · intro _
    rw [hsb', hnm]
    exact hRC (by rw [hph]; trivial)
  · intro _
    rw [hia2]
  · intro h
    rw [hmp2] at h
    exact MainPhase.noConfusion h

/-- Preservation of the invariant when the main thread restores the
default instance and returns. -/
theorem WInv_mainRestoreInstance (s : WSys) (hph : s.mainPhase = .restoringInstance)
    (hinv : WInv s) :
    WInv { s with instanceIsDefault := true, mainPhase := .finished } := by
  obtain ⟨hL1, hL2, hTI, hWQ, hMQ, hPR, hAP, hEB, hSB, hSW, hRC, hCA, hFI⟩ := hinv
  set S := { s with instanceIsDefault := true, mainPhase := MainPhase.finished } with hS
  have hqs' : S.queues = s.queues := rfl
  have hwp' : S.workerPos = s.workerPos := rfl
  have hwa' : S.workerArrived = s.workerArrived := rfl
  have hta' : S.tasks = s.tasks := rfl
  have hsb' : S.stepBarrier = s.stepBarrier := rfl
  have hia' : S.isActive = s.isActive := rfl
  have hid2 : S.instanceIsDefault = true := rfl
  have hmp2 : S.mainPhase = .finished := rfl
  have hnm : S.numThreads = s.numThreads := congrArg List.length hqs'
  refine ⟨?_, ?_, ?_, ?_, ?_, ?_, ?_, ?_, ?_, ?_, ?_, ?_, ?_⟩
  · rw [hwp', hqs']
    exact hL1
  · rw [hwa', hqs']
    exact hL2
  · rw [hqs', hta']
    exact hTI
  · rw [hqs', hwp']
    exact hWQ
  · intro p' hph'
    rw [hmp2] at hph'
    exact MainPhase.noConfusion hph'
  · intro _
    rw [hqs']
    exact hPR (by rw [hph]; trivial)
  · intro u h1u hu harr
    rw [hqs'] at hu ⊢
    rw [hwa'] at harr
    rw [hwp']
    exact hAP u h1u hu harr
  · intro k hk
    rw [hta'] at hk ⊢
    rw [notStartedCount_queues_eq s S hqs' k]
    exact hEB k hk
  · intro h
    rw [hmp2] at h
    exact False.elim h
  · intro _ u h1u hu
    rw [hqs'] at hu
    rw [hwa']
    exact hSW (by rw [hph]; trivial) u h1u hu
  · intro _
    rw [hsb', hnm]
    exact hRC (by rw [hph]; trivial)
  · intro _
    rw [hia']
    exact hCA (by rw [hph]; trivial)
  · intro _
    rw [hid2]


/-- One step of the end-of-step system preserves the invariant. -/
theorem WInv_step {s s' : WSys} (hinv : WInv s) (hstep : WStep s s') : WInv s' := by
  cases hstep with
  | workerRun _s t h1 h2 hp hst hready => exact WInv_workerRun s t _ h1 h2 hp hst hinv
  | workerSetDone _s t h1 h2 hp hst => exact WInv_workerSetDone s t _ h1 h2 hp hst hinv
  | workerArriveStep _s t h1 h2 hdone hnot => exact WInv_workerArriveStep s t h1 h2 hdone hnot hinv
  | mainRun _s p hph hst hready => exact WInv_mainRun s p hph hst hinv
  | mainSetDone _s p hph hst => exact WInv_mainSetDone s p hph hst hinv
  | mainQueueDone _s p hph hend => exact WInv_mainQueueDone s p hph hend hinv
  | mainTaskWaitPass _s i hph hi hbar => exact WInv_mainTaskWaitPass s i hph hinv
  | mainTaskWaitDone _s i hph hi => exact WInv_mainTaskWaitDone s i hph hinv
  | mainStepBarrierPass _s hph hbar => exact WInv_mainStepBarrierPass s hph hbar hinv
  | mainCloseStepBarrier _s hph => exact WInv_mainCloseStepBarrier s hph hinv
  | mainClearActive _s hph => exact WInv_mainClearActive s hph hinv
  | mainRestoreInstance _s hph => exact WInv_mainRestoreInstance s hph hinv

/-- The invariant holds in every reachable state of the end-of-step
system. -/
theorem WInv_reachable (published : List Bool) (qs : List (List Nat)) (s : WSys)
    (hwf : WfConf published qs) (hreach : WReachable published qs s) : WInv s := by
  induction hreach with
  | refl => exact WInv_init published qs hwf
  | tail hsteps hstep ih => exact WInv_step ih hstep


/-- Counterexample to C1 as stated: the end-barrier wait loop of
`waitInternal` (sts.h:944-946) starts at `i = 1`, so with two tasks it
visits only task 1 and never waits on the end-barrier of task 0 — it
does not wait on "every Task of the schedule". -/
theorem C1_counterexample : 0 ∉ waitTaskIndices 2 ∧ 1 ∈ waitTaskIndices 2 := by
  decide

/-- C1 (amended): for every well-formed starting configuration of the
end-of-step system and every reachable state in which the main thread
has returned from `waitInternal` (phase `finished`) — the main thread
having drained its own queue, waited on the end-barriers of tasks
1..numTasks-1 only, passed the step barrier, re-closed it to N-1,
cleared `isActive_` and restored the default instance — the claimed
postcondition holds in full: every queued subtask of every thread has
its done flag set, every task's end-barrier counter is zero (including
task 0's, which the wait loop skipped: the step barrier already forces
every worker queue to completion), the step barrier is re-closed to
N-1, the scheduler is inactive and the default instance is current. -/
theorem C1_wait_completion (published : List Bool) (qs : List (List Nat)) (s : WSys)
    (hwf : WfConf published qs) (hreach : WReachable published qs s)
    (hfin : s.mainPhase = .finished) : WPost s := by
  obtain ⟨hL1, hL2, hTI, hWQ, hMQ, hPR, hAP, hEB, hSB, hSW, hRC, hCA, hFI⟩ :=
    WInv_reachable published qs s hwf hreach
  have hPRf : s.mainPhase.pastRunning := by rw [hfin]; trivial
  have hSWf : s.mainPhase.pastStepWait := by rw [hfin]; trivial
  have hRCf : s.mainPhase.pastReclose := by rw [hfin]; trivial
  have hCAf : s.mainPhase.pastClearActive := by rw [hfin]; trivial
  have hall : ∀ q ∈ s.queues, ∀ it ∈ q, it.status = SubStatus.done := by
    intro q hq it hit
    obtain ⟨t, ht, hqe⟩ := List.mem_iff_getElem.mp hq
    have hqd : s.queues.getD t [] = q := by
      rw [List.getD_eq_getElem _ _ ht]
      exact hqe
    by_cases ht0 : t = 0
    · subst ht0
      exact hPR hPRf it (by rw [hqd]; exact hit)
    · have h1t : 1 ≤ t := by omega
      have harr := hSW hSWf t h1t ht
      have hpos := hAP t h1t ht harr
      have hsh := hWQ t h1t ht
      rw [hpos] at hsh
      obtain ⟨j, hj, hje⟩ := List.mem_iff_getElem.mp hit
      have hjq : j < (s.queues.getD t []).length := by
        rw [hqd]
        exact hj
      have hgd : (s.queues.getD t []).getD j default = it := by
        rw [hqd, List.getD_eq_getElem _ _ hj]
        exact hje
      rw [← hgd]
      exact (hsh.2 j hjq).1 hjq
  refine ⟨hall, ?_, hRC hRCf, hCA hCAf, hFI hfin⟩
  intro tk htk
  obtain ⟨k, hk, hke⟩ := List.mem_iff_getElem.mp htk
  have hEBk := hEB k hk
  have hns0 : notStartedCount s k = 0 := by
    unfold notStartedCount
    apply List.sum_eq_zero
    intro x hx
    obtain ⟨q, hq, hqe⟩ := List.mem_map.mp hx
    rw [← hqe]
    rw [List.countP_eq_zero]
    intro it hit
    have hdone := hall q hq it hit
    simp [hdone]
  have hgd : s.tasks.getD k { published := false, endBarrier := 0 } = tk := by
    rw [List.getD_eq_getElem _ _ hk]
    exact hke
  rw [← hgd, hEBk, hns0]
  simp

/-- Witness for C1: a two-thread, one-task configuration driven through
a full interleaving to the `finished` state; the postcondition holds
there. -/
theorem C1_witness : WPost c1WitnessFinal := by
  have h0 : WReachable [true] [[], [0]] (mkInit [true] [[], [0]]) :=
    Relation.ReflTransGen.refl
  have h1 := h0.tail (WStep.workerRun _ 1 (by decide) (by decide) rfl (by decide) (by decide))
  have h2 := h1.tail (WStep.workerSetDone _ 1 (by decide) (by decide) rfl (by decide))
  have h3 := h2.tail (WStep.workerArriveStep _ 1 (by decide) (by decide) (by decide) (by decide))
  have h4 := h3.tail (WStep.mainQueueDone _ 0 rfl (by decide))
  have h5 := h4.tail (WStep.mainTaskWaitDone _ 1 rfl (by decide))
  have h6 := h5.tail (WStep.mainStepBarrierPass _ rfl (by decide))
  have h7 := h6.tail (WStep.mainCloseStepBarrier _ rfl)
  have h8 := h7.tail (WStep.mainClearActive _ rfl)
  have h9 := h8.tail (WStep.mainRestoreInstance _ rfl)
  have hfin : WReachable [true] [[], [0]] c1WitnessFinal := by
    refine Eq.mp (congrArg (WReachable [true] [[], [0]]) ?_) h9
    decide
  exact C1_wait_completion [true] [[], [0]] c1WitnessFinal (by decide) hfin rfl

end STSV

